import Mathlib

/-!
# tsv-parser-c: a shallow embedding of `main.c`

The program reads a TSV table from standard input (Stage 1), sorts its data
rows with a stable multi-key insertion sort (Stage 2) and prints a grouped,
indented tabulation of the sorted rows (Stage 3).

Modelling conventions
* a character is a `Nat` (the value of an `unsigned char`); a `char` buffer
  (`field_t`, `entry_t`) is the list of its bytes, read as a C string: the
  string ends at the first `0` byte or at the end of the list;
* `row_t`, `tsv_t` and the other arrays are lists indexed with `getD` and
  written with `set`; an index outside the list (undefined behaviour in C)
  reads the empty string and writes nothing, so the theorems carry the bounds
  under which every access is inside its array;
* uninitialised buffers whose old contents can be read (`dest`, `current_row`,
  `printed`) are arguments of the functions that use them;
* `int` variables that only count upwards from zero are natural numbers, and
  so are the column numbers in `keys` and `selected_cols` (a negative one
  would index outside the row);
* loops are recursive functions; the loops that read the input stream carry
  a fuel argument and return `none` when it runs out, and the theorems show
  that the fuel the callers pass is enough; the division by zero in
  `do_stage1` also gives `none`.
-/

set_option linter.unusedVariables false
set_option maxRecDepth 8000

namespace TsvParser

/-! ## Constants of `main.c` -/

/-- CR character, in PC-format text files. -/
def CHAR_CR : Nat := 13
/-- Newline character, ends each input line. -/
def CHAR_NL : Nat := 10
/-- Tab character, ends each TSV field. -/
def CHAR_TB : Nat := 9
/-- Value `getchar` returns at the end of the stream. -/
def EOF : Int := -1

/-- Return value for end of line field. -/
def STATUS_EOL : Nat := 1
/-- Return value for end of file field. -/
def STATUS_EOF : Nat := 2
/-- Return value if neither of previous two. -/
def STATUS_NML : Nat := 3

/-- Maximum field length. -/
def MAXFIELDLEN : Nat := 50
/-- Maximum number of columns per line in input data. -/
def MAXCOLUMNS : Nat := 30
/-- Maximum number of input lines in input data. -/
def MAXLINES : Nat := 1000

/-- Character used to separate fields in Stage 3 (the tilde). -/
def DELIMITER : Nat := 126
/-- Number of spaces per indent in the output of Stage 3. -/
def SPACES_IN_INDENT : Nat := 4

/-! ## Data model -/

/-- One tsv field (`field_t`): the bytes of a character buffer. -/
abbrev Field := List Nat
/-- One row of data (`row_t`): an array of fields. -/
abbrev Row := List Field
/-- Data from a tsv file (`tsv_t`): an array of rows, the header at index 0. -/
abbrev Table := List Row
/-- One row flattened into a delimiter-separated string (`entry_t`). -/
abbrev Entry := List Nat

/-! ## C string primitives -/

/-- The C string held in a buffer: the bytes before the first `0`. -/
def cstr : List Nat → List Nat
  | [] => []
  | c :: cs => if c = 0 then [] else c :: cstr cs

/-- The library function `strcmp`: the difference of the first pair of bytes
that differ, the end of a buffer reading as the terminating `0`. -/
def strcmp : List Nat → List Nat → Int
  | [], [] => 0
  | [], b :: _ => 0 - (b : Int)
  | a :: _, [] => (a : Int)
  | a :: as, b :: bs =>
    if a ≠ b then (a : Int) - (b : Int)
    else if a = 0 then 0
    else strcmp as bs

/-- The array access `row[k]`. -/
def field_at (row : Row) (k : Nat) : Field := row.getD k []

/-- The array access `input[i]`. -/
def row_at (input : Table) (i : Nat) : Row := input.getD i []

/-! ## Stage 2: the sorter (`rowcmp`, `row_swap`, `insertion_sort`) -/

/-- Compares two rows by the key columns, in the order of the key list
(`keys` holds the `key_count` entries of the C array): the first non-zero
`strcmp` decides, and `0` is returned when all selected columns agree. -/
def rowcmp (row1 row2 : Row) : List Nat → Int
  | [] => 0
  | k :: keys =>
    let cmp := strcmp (field_at row1 k) (field_at row2 k)
    if cmp = 0 then rowcmp row1 row2 keys else cmp

/-- Exchange the rows at indices `p1` and `p2` of the table. -/
def row_swap (input : Table) (p1 p2 : Nat) : Table :=
  let temp_row := row_at input p1
  (input.set p1 (row_at input p2)).set p2 temp_row

/-- The inner loop of `insertion_sort`, entered with loop variable `j`:
`for (; j > 0 && rowcmp(input[j+1], input[j]) < 0; j--) row_swap(j+1, j)`. -/
def insertion_sort_inner (keys : List Nat) : Nat → Table → Table
  | 0, input => input
  | j + 1, input =>
    if rowcmp (row_at input (j + 2)) (row_at input (j + 1)) keys < 0 then
      insertion_sort_inner keys j (row_swap input (j + 2) (j + 1))
    else input

/-- The outer loop of `insertion_sort`, entered with loop variable `i`:
`for (; i < row_count; i++) { inner loop from j = i - 1 }`.  The first
argument bounds the number of iterations. -/
def insertion_sort_outer (keys : List Nat) (row_count : Nat) : Nat → Nat → Table → Table
  | 0, _, input => input
  | fuel + 1, i, input =>
    if i < row_count then
      insertion_sort_outer keys row_count fuel (i + 1) (insertion_sort_inner keys (i - 1) input)
    else input

/-- Sort the rows `1 .. row_count - 1` of the table by the key columns; the
outer loop starts at `i = 1` and runs at most `row_count` times. -/
def insertion_sort (input : Table) (row_count col_count : Nat) (keys : List Nat) : Table :=
  insertion_sort_outer keys row_count row_count 1 input

/-! ## Vocabulary of the statements about the sorter -/

/-- The data rows of a table: the rows at indices `1 .. row_count - 1`. -/
def data_rows (input : Table) (row_count : Nat) : List Row :=
  (input.take row_count).drop 1

/-- Two rows hold identical strings in every selected key column. -/
def same_keys (keys : List Nat) (row1 row2 : Row) : Bool :=
  keys.all (fun k => decide (cstr (field_at row1 k) = cstr (field_at row2 k)))

/-- Insertion of a row into the already sorted rows, listed from the last
one back to the first: the row moves past every row it is smaller than. -/
def insert_back (keys : List Nat) (x : Row) : List Row → List Row
  | [] => [x]
  | y :: rest =>
    if rowcmp x y keys < 0 then y :: insert_back keys x rest else x :: y :: rest

/-- The rows inserted one after the other, listed from the last one back. -/
def sorted_back (keys : List Nat) (rows : List Row) : List Row :=
  rows.foldl (fun acc x => insert_back keys x acc) []

/-! ## The field reader (`mygetchar`, `getfield`) -/

/-- Read a single character of the stream, bypassing any CR characters:
returns the character (`EOF` at the end of the stream) and the rest of the
stream. -/
def mygetchar : List Nat → Int × List Nat
  | [] => (EOF, [])
  | c :: rest => if c = CHAR_CR then mygetchar rest else ((c : Int), rest)

/-- The status `getfield` returns for the character that stopped its loop. -/
def getfield_status (ch : Int) : Nat :=
  if ch = EOF then STATUS_EOF
  else if ch = (CHAR_NL : Int) then STATUS_EOL
  else if ch = (CHAR_TB : Int) then STATUS_NML
  else STATUS_NML

/-- The loop of `getfield`: `dest` holds the `nchs` characters saved so far.
The loop stops at a zero byte, a tab, a newline or the end of the stream;
a character is saved only while `nchs < MAXFIELDLEN`. -/
def getfield_loop : Nat → List Nat → Field → Nat → Option (Field × Nat × List Nat)
  | 0, _, _, _ => none
  | fuel + 1, stream, dest, nchs =>
    match mygetchar stream with
    | (ch, rest) =>
      if ch ≠ 0 ∧ ch ≠ (CHAR_TB : Int) ∧ ch ≠ (CHAR_NL : Int) ∧ ch ≠ EOF then
        if nchs < MAXFIELDLEN then
          getfield_loop fuel rest (dest ++ [ch.toNat]) (nchs + 1)
        else
          getfield_loop fuel rest dest nchs
      else
        some (dest, getfield_status ch, rest)

/-- Read characters and build a string, stopping when a tab or newline is
encountered: returns the string, the status of the terminating character and
the rest of the stream. -/
def getfield (stream : List Nat) : Option (Field × Nat × List Nat) :=
  getfield_loop (stream.length + 1) stream [] 0

/-! ## Stage 1: the table builder (`do_stage1`) -/

/-- The library function `strcpy`: the string that the destination holds
after the copy. -/
def strcpy (src : List Nat) : List Nat := cstr src

/-- The variables of the reading loop of `do_stage1`. -/
structure Stage1State where
  /-- The table being built. -/
  dest : Table
  /-- Number of rows committed so far. -/
  row_count : Nat
  /-- Column of the next field in the current row. -/
  col_num : Nat
  /-- Number of fields read so far. -/
  field_count : Nat
  /-- The row buffer. -/
  current_row : Row
deriving DecidableEq, Repr

/-- The reading loop of `do_stage1`: every field that does not end the input
is counted and copied into the row buffer; a field that ends a line commits
the row buffer to the table. -/
def do_stage1_loop : Nat → List Nat → Stage1State → Option Stage1State
  | 0, _, _ => none
  | fuel + 1, stream, st =>
    match getfield stream with
    | none => none
    | some (current_field, current_status, rest) =>
      if current_status ≠ STATUS_EOF then
        let st1 : Stage1State :=
          { st with
            field_count := st.field_count + 1
            current_row := st.current_row.set st.col_num (strcpy current_field)
            col_num := st.col_num + 1 }
        if current_status = STATUS_EOL then
          do_stage1_loop fuel rest
            { st1 with
              col_num := 0
              dest := st1.dest.set st1.row_count st1.current_row
              row_count := st1.row_count + 1 }
        else
          do_stage1_loop fuel rest st1
      else
        some st

/-- The reading loop of `do_stage1` from its initial state; `dest` and
`current_row` are the (uninitialised) contents of the two buffers. -/
def do_stage1_read (stream : List Nat) (dest : Table) (current_row : Row) :
    Option Stage1State :=
  do_stage1_loop (stream.length + 1) stream
    { dest := dest, row_count := 0, col_num := 0, field_count := 0,
      current_row := current_row }

/-- What `do_stage1` hands on: the table, the values stored through `rows`
and `cols`, the two numbers of the report line and the two rows passed to
`print_row`. -/
structure Stage1Result where
  /-- The table that was built. -/
  dest : Table
  /-- The value stored through the pointer `rows`. -/
  rows : Nat
  /-- The value stored through the pointer `cols`. -/
  cols : Nat
  /-- The row count printed in the report line. -/
  printed_rows : Nat
  /-- The column count printed in the report line. -/
  printed_cols : Nat
  /-- The header row passed to `print_row`. -/
  header : Row
  /-- The last row passed to `print_row`. -/
  row_last : Row
deriving DecidableEq, Repr

/-- Stage 1: read the stream into the table, report the row and column count
and pass both back.  The division by a zero row count (no committed row) is
undefined and gives `none`. -/
def do_stage1 (stream : List Nat) (dest : Table) (current_row : Row) :
    Option Stage1Result :=
  match do_stage1_read stream dest current_row with
  | none => none
  | some st =>
    if st.row_count = 0 then none
    else
      let col_count := st.field_count / st.row_count
      let row_count := st.row_count - 1
      some
        { dest := st.dest
          printed_rows := row_count
          printed_cols := col_count
          header := row_at st.dest 0
          row_last := row_at st.dest row_count
          rows := row_count + 1
          cols := col_count }

/-! ## Vocabulary of the statements about Stage 1 -/

/-- The text of one input line: its fields separated by tabs, ended by a
newline. -/
def tsv_line : List Field → List Nat
  | [] => [CHAR_NL]
  | [f] => f ++ [CHAR_NL]
  | f :: g :: rest => f ++ CHAR_TB :: tsv_line (g :: rest)

/-- The text of an input made of newline-terminated lines. -/
def tsv_text : List (List Field) → List Nat
  | [] => []
  | l :: ls => tsv_line l ++ tsv_text ls

/-- A field of the input text: no tab and no newline inside it (they would
end it), and no zero byte. -/
abbrev clean_field (f : Field) : Prop :=
  ∀ c ∈ f, c ≠ 0 ∧ c ≠ CHAR_TB ∧ c ≠ CHAR_NL

/-- The string kept for a field: carriage returns removed, truncated to
`MAXFIELDLEN` characters. -/
def stored_field (f : Field) : Field :=
  (f.filter (fun c => decide (c ≠ CHAR_CR))).take MAXFIELDLEN

/-- The empty table buffer, `MAXLINES` rows of `MAXCOLUMNS` empty fields. -/
def empty_table : Table := List.replicate MAXLINES (List.replicate MAXCOLUMNS [])

/-- The empty row buffer, `MAXCOLUMNS` empty fields. -/
def empty_row : Row := List.replicate MAXCOLUMNS []

/-- The row buffer after the fields of a line are copied into it from
column `k` on. -/
def fill_row (row : Row) : Nat → List Field → Row
  | _, [] => row
  | k, f :: fs => fill_row (row.set k (stored_field f)) (k + 1) fs

/-- The state of the reading loop after one whole line is read. -/
def commit_line (st : Stage1State) (l : List Field) : Stage1State :=
  { dest := st.dest.set st.row_count (fill_row st.current_row st.col_num l)
    row_count := st.row_count + 1
    col_num := 0
    field_count := st.field_count + l.length
    current_row := fill_row st.current_row st.col_num l }

/-- The state of the reading loop after the given lines are read. -/
def commit_lines (st : Stage1State) : List (List Field) → Stage1State
  | [] => st
  | l :: ls => commit_lines (commit_line st l) ls

/-- The number of fields of the given lines. -/
def total_fields : List (List Field) → Nat
  | [] => 0
  | l :: ls => l.length + total_fields ls

/-! ## Stage 3: grouping (`do_stage3`, `entry_len`) -/

/-- The library function `strcat`: the string that the destination holds
after `src` is appended to it. -/
def strcat (dest src : List Nat) : List Nat := cstr dest ++ cstr src

/-- Given two integers, returns the larger one. -/
def int_max (num1 num2 : Nat) : Nat :=
  if num1 ≥ num2 then num1 else num2

/-- The inner loop of `entry_len`: counts the characters up to the end of the
string or the next delimiter; returns the count and the rest of the string,
which starts at the character that stopped the loop. -/
def entry_len_field : List Nat → Nat → Nat × List Nat
  | [], current_field_len => (current_field_len, [])
  | c :: cs, current_field_len =>
    if c ≠ 0 ∧ c ≠ DELIMITER then entry_len_field cs (current_field_len + 1)
    else (current_field_len, c :: cs)

/-- The outer loop of `entry_len`: one iteration per field, while the current
character is not the end of the string. -/
def entry_len_loop : Nat → List Nat → Nat → Nat → Nat
  | 0, _, max_field_len, _ => max_field_len
  | _ + 1, [], max_field_len, _ => max_field_len
  | fuel + 1, c :: cs, max_field_len, indents =>
    if c = 0 then max_field_len
    else
      match entry_len_field (c :: cs) 0 with
      | (len, rest) =>
        let current_field_len := len + indents * SPACES_IN_INDENT
        let max_field_len := int_max max_field_len current_field_len
        match rest with
        | [] => entry_len_loop fuel [] max_field_len (indents + 1)
        | d :: ds =>
          if d = DELIMITER then entry_len_loop fuel ds max_field_len (indents + 1)
          else entry_len_loop fuel (d :: ds) max_field_len (indents + 1)

/-- Returns the length of an entry if it were to be printed out in tabulated
format as specified in Stage 3. -/
def entry_len (current_entry : Entry) : Nat :=
  entry_len_loop (current_entry.length + 1) current_entry 0 0

/-- The loop of `do_stage3` that builds the entry of a row: the selected
fields are appended in order, a delimiter after each but the last
(`selected_cols` holds the `argc` column numbers). -/
def build_entry_loop (row : Row) : List Nat → Entry → Entry
  | [], current_entry => current_entry
  | k :: selected_cols, current_entry =>
    let entry1 := strcat current_entry (field_at row k)
    build_entry_loop row selected_cols
      (if selected_cols ≠ [] then strcat entry1 [DELIMITER] else entry1)

/-- The entry of a row, built from the empty string. -/
def build_entry (row : Row) (selected_cols : List Nat) : Entry :=
  build_entry_loop row selected_cols (strcpy [])

/-- The variables of the grouping loop of `do_stage3`; `entries` and
`appearances` are the two arrays, of `MAXLINES` and `MAXFIELDLEN` slots. -/
structure Stage3State where
  /-- The entry of the row scanned before. -/
  previous_entry : Entry
  /-- The array of the entries stored so far. -/
  entries : List Entry
  /-- The array of the counts stored so far. -/
  appearances : List Nat
  /-- The index within the entries and appearances arrays. -/
  index : Nat
  /-- The number of rows counted for the previous entry. -/
  count : Nat
  /-- The longest entry length seen so far. -/
  longest_entry_len : Nat
deriving DecidableEq, Repr

/-- Store the previous entry and its count at `index`, and advance `index`. -/
def store_entry (st : Stage3State) : Stage3State :=
  { st with
    entries := st.entries.set st.index st.previous_entry
    appearances := st.appearances.set st.index st.count
    index := st.index + 1
    longest_entry_len := int_max st.longest_entry_len (entry_len st.previous_entry) }

/-- The body of the grouping loop for one row, after its entry is built: when
the previous entry is not the empty string and differs from the current one
it is stored with its count and the count is reset; then the current entry
becomes the previous one and is counted. -/
def do_stage3_step (st : Stage3State) (current_entry : Entry) : Stage3State :=
  let st1 :=
    if strcmp st.previous_entry [] ≠ 0 ∧ strcmp current_entry st.previous_entry ≠ 0 then
      { store_entry st with count := 0 }
    else st
  { st1 with previous_entry := strcpy current_entry, count := st1.count + 1 }

/-- The grouping loop of `do_stage3`, entered with loop variable `i`:
`for (; i < row_count; i++)`.  The first argument bounds the number of
iterations. -/
def do_stage3_loop (input : Table) (selected_cols : List Nat) (row_count : Nat) :
    Nat → Nat → Stage3State → Stage3State
  | 0, _, st => st
  | fuel + 1, i, st =>
    if i < row_count then
      do_stage3_loop input selected_cols row_count fuel (i + 1)
        (do_stage3_step st (build_entry (row_at input i) selected_cols))
    else st

/-- Stage 3, grouping: scan the rows `0 .. row_count - 1`, then store the last
entry if a row was counted for it.  The result holds the arguments passed to
`print_stage3`: `entries`, `appearances`, `index` and `longest_entry_len`.
The two local arrays are taken with every slot empty at the start; the slots
below `index` are the ones written by the scan. -/
def do_stage3 (input : Table) (selected_cols : List Nat) (row_count col_count : Nat) :
    Stage3State :=
  let st := do_stage3_loop input selected_cols row_count row_count 0
    { previous_entry := [], entries := List.replicate MAXLINES [],
      appearances := List.replicate MAXFIELDLEN 0, index := 0, count := 0,
      longest_entry_len := 0 }
  if st.count > 0 then store_entry st else st

/-- The Entry Groups handed to `print_stage3`: the first `index` slots of the
two arrays, paired. -/
def entry_groups (st : Stage3State) : List (Entry × Nat) :=
  (st.entries.take st.index).zip (st.appearances.take st.index)

/-! ## Stage 3: rendering (`print_tabulated_entry`) -/

/-- The characters that `print_new_line`, `printf("%-*s", 4 * indents, "")`
and `printf("%s", value)` print one after the other: a newline, the indent
and the value. -/
def tab_line (indents : Nat) (value : Field) : List Nat :=
  CHAR_NL :: (List.replicate (SPACES_IN_INDENT * indents) 32 ++ value)

/-- The loop of `print_tabulated_entry` over the characters of the entry,
followed by the statements after the loop.  `current_field` holds the
characters of the field read so far (never a zero byte, so `%s` prints all of
it); `printed` is the array of the values printed last at each depth; the
result is the output appended to `out` and the updated `printed`. -/
def print_tabulated_entry_loop :
    List Nat → Nat → Field → Row → List Nat → List Nat × Row
  | [], indents, current_field, printed, out =>
    (out ++ tab_line indents current_field, printed.set indents current_field)
  | c :: cs, indents, current_field, printed, out =>
    if c = 0 then
      (out ++ tab_line indents current_field, printed.set indents current_field)
    else if c = DELIMITER then
      if strcmp current_field (field_at printed indents) = 0 then
        print_tabulated_entry_loop cs (indents + 1) [] printed out
      else
        print_tabulated_entry_loop cs (indents + 1) []
          (printed.set indents current_field) (out ++ tab_line indents current_field)
    else
      print_tabulated_entry_loop cs indents (current_field ++ [c]) printed out

/-- Prints out an entry in tabulated format as specified in Stage 3: returns
the characters printed and the updated `printed` array. -/
def print_tabulated_entry (current_entry : Entry) (printed : Row) : List Nat × Row :=
  print_tabulated_entry_loop current_entry 0 [] printed []

/-! ## Vocabulary of the statements about Stage 3 -/

/-- The levels of an entry joined with the delimiter. -/
def join_levels : List Field → Entry
  | [] => []
  | [f] => f
  | f :: g :: rest => f ++ DELIMITER :: join_levels (g :: rest)

/-- The strings that a row holds in the selected columns. -/
def key_strings (row : Row) (selected_cols : List Nat) : List Field :=
  selected_cols.map (fun k => cstr (field_at row k))

/-- The run lengths of a sequence of entries that follows the entry `p`,
counted `c` times so far: one pair per maximal run of equal entries. -/
def run_lengths : Entry → Nat → List Entry → List (Entry × Nat)
  | p, c, [] => [(p, c)]
  | p, c, x :: xs =>
    if x = p then run_lengths p (c + 1) xs else (p, c) :: run_lengths x 1 xs

/-- The lines of a group whose levels are `cur`, rendered from depth `d` on
after a group whose levels from that depth on are `prev`: a level other than
the last is printed when it differs from the level of `prev` at the same
depth, the last level is always printed. -/
def tab_lines : Nat → List Field → List Field → List Nat
  | _, [], _ => []
  | d, [q], _ => tab_line d q
  | d, q :: q2 :: qs, prev =>
    (if q = prev.headD [] then [] else tab_line d q) ++ tab_lines (d + 1) (q2 :: qs) prev.tail

/-- The result of `print_tabulated_entry_loop` on the joined levels. -/
def render_levels : List Field → Nat → Row → List Nat → List Nat × Row
  | [], d, printed, out => (out ++ tab_line d [], printed.set d [])
  | [f], d, printed, out => (out ++ tab_line d f, printed.set d f)
  | f :: g :: rest, d, printed, out =>
    if strcmp f (field_at printed d) = 0 then render_levels (g :: rest) (d + 1) printed out
    else render_levels (g :: rest) (d + 1) (printed.set d f) (out ++ tab_line d f)

/-! ## Stage 2: the report of the sorted rows (`do_stage2`) -/

/-- The value of `ceil(n / 2.0)` converted to `int`, for `n >= 0`: the halves
of an `int` are exact in a `double`. -/
def ceil_half (n : Nat) : Nat := (n + 1) / 2

/-- What `do_stage2` leaves and prints: the sorted table, and the index and
contents of the first, middle and last row passed to `print_row`. -/
structure Stage2Result where
  /-- The table after `insertion_sort`. -/
  input : Table
  /-- Index of the first row printed. -/
  index_first_row : Nat
  /-- The first row printed. -/
  row_first : Row
  /-- Index of the middle row printed. -/
  index_middle_row : Nat
  /-- The middle row printed. -/
  row_middle : Row
  /-- Index of the last row printed. -/
  index_last_row : Nat
  /-- The last row printed. -/
  row_last : Row
deriving DecidableEq, Repr

/-- Stage 2: sort the table by the selected columns and print the first,
middle and last data rows (`row_count >= 1` counts the header row). -/
def do_stage2 (input : Table) (selected_cols : List Nat) (row_count col_count : Nat) :
    Stage2Result :=
  let sorted := insertion_sort input row_count col_count selected_cols
  let index_first_row := 1
  let index_middle_row := ceil_half (row_count - 1)
  let index_last_row := row_count - 1
  { input := sorted
    index_first_row := index_first_row
    row_first := row_at sorted index_first_row
    index_middle_row := index_middle_row
    row_middle := row_at sorted index_middle_row
    index_last_row := index_last_row
    row_last := row_at sorted index_last_row }

/-! ## Stage 3: the tabulated report (`print_stage3`) -/

/-- The decimal digits of a number, most significant first, before `acc`. -/
def print_decimal_loop : Nat → Nat → List Nat → List Nat
  | 0, _, acc => acc
  | fuel + 1, n, acc =>
    if n < 10 then (48 + n) :: acc
    else print_decimal_loop fuel (n / 10) ((48 + n % 10) :: acc)

/-- The characters that `printf("%d", n)` prints for `n >= 0`. -/
def print_decimal (n : Nat) : List Nat := print_decimal_loop (n + 1) n []

/-- The characters that `printf("%*d", width, n)` prints: the decimal digits,
with spaces before them up to `width` columns. -/
def print_count (width n : Nat) : List Nat :=
  List.replicate (width - (print_decimal n).length) 32 ++ print_decimal n

/-- The characters that `printf("%*s", width, "")` prints: `width` spaces, a
negative width asking for the same number of columns, left-justified. -/
def print_padding (width : Int) : List Nat := List.replicate width.natAbs 32

/-- Outputs a line of text which is a specified number of dashes, after a
newline. -/
def print_separator (count : Nat) : List Nat := CHAR_NL :: List.replicate count 45

/-- Additional number of dashes needed when printing out separators. -/
def SEPARATOR_CONST : Nat := 6

/-- Minimum number of columns that the number of appearances of an entry takes
up when printing in Stage 3. -/
def MIN_WIDTH_COUNT : Nat := 5

/-- The loop of `print_stage3` over the data entries, entered with loop
variable `i`: `for (; i < num_entries; i++)`.  Each entry is printed with
`print_tabulated_entry`, then the padding, a space and the count. -/
def print_stage3_loop (entries : List Entry) (appearances : List Nat)
    (num_entries longest_entry_len : Nat) : Nat → Nat → Row → List Nat → List Nat × Row
  | 0, _, printed, out => (out, printed)
  | fuel + 1, i, printed, out =>
    if i < num_entries then
      let current_entry := strcpy (entries.getD i [])
      match print_tabulated_entry current_entry printed with
      | (text, printed1) =>
        let current_entry_len := entry_len current_entry
        let extra_spacing : Int := (longest_entry_len : Int) - (current_entry_len : Int)
        print_stage3_loop entries appearances num_entries longest_entry_len fuel (i + 1)
          printed1
          (out ++ text ++ print_padding extra_spacing ++ [32]
            ++ print_count MIN_WIDTH_COUNT (appearances.getD i 0))
    else (out, printed)

/-- Handles printing and formatting of the Stage 3 output: a separator, the
header entry with the label `Count`, a separator, the data entries with their
counts, a separator and a newline.  `printed` is the (uninitialised) array of
the values printed last. -/
def print_stage3 (entries : List Entry) (appearances : List Nat)
    (num_entries longest_entry_len : Nat) (printed : Row) : List Nat :=
  let out0 := print_separator (longest_entry_len + SEPARATOR_CONST)
  let header := strcpy (entries.getD 0 [])
  let header_len := entry_len header
  match print_tabulated_entry header printed with
  | (text, printed1) =>
    let extra_spacing : Int := (longest_entry_len : Int) - (header_len : Int)
    let out1 := out0 ++ text ++ print_padding extra_spacing ++ [32]
      ++ [67, 111, 117, 110, 116]
    let out2 := out1 ++ print_separator (longest_entry_len + SEPARATOR_CONST)
    let out3 := (print_stage3_loop entries appearances num_entries longest_entry_len
      num_entries 1 printed1 out2).1
    out3 ++ print_separator (longest_entry_len + SEPARATOR_CONST) ++ [CHAR_NL]

/-- The call of `print_stage3` that ends `do_stage3`: the report printed for
the groups of the table. -/
def do_stage3_output (input : Table) (selected_cols : List Nat) (row_count col_count : Nat)
    (printed : Row) : List Nat :=
  print_stage3 (do_stage3 input selected_cols row_count col_count).entries
    (do_stage3 input selected_cols row_count col_count).appearances
    (do_stage3 input selected_cols row_count col_count).index
    (do_stage3 input selected_cols row_count col_count).longest_entry_len printed

/-- The traffic control of `main` when column numbers are given (here already
zero-based, as stored in `selected_cols`): Stage 1 on the input stream, Stage 2
and Stage 3 on the table; the result is the report printed by Stage 3. -/
def main_stage3 (stream : List Nat) (selected_cols : List Nat) (input : Table)
    (current_row printed : Row) : Option (List Nat) :=
  match do_stage1 stream input current_row with
  | none => none
  | some r =>
    some (do_stage3_output (do_stage2 r.dest selected_cols r.rows r.cols).input
      selected_cols r.rows r.cols printed)

/-! ## Vocabulary of the statements about the reader and the report -/

/-- The stream with every carriage-return character deleted. -/
def remove_cr (stream : List Nat) : List Nat :=
  stream.filter (fun c => decide (c ≠ CHAR_CR))

/-- The pairs (field text, status) returned by successive calls of `getfield`
on a stream, up to and including the call that returns `STATUS_EOF`. -/
def getfield_calls : Nat → List Nat → List (Field × Nat)
  | 0, _ => []
  | fuel + 1, stream =>
    match getfield stream with
    | none => []
    | some (dest, status, rest) =>
      if status = STATUS_EOF then [(dest, status)]
      else (dest, status) :: getfield_calls fuel rest

/-- The pairs returned by the successive calls of `getfield` on a stream; one
call for every character of the stream, and one more, are enough. -/
def field_sequence (stream : List Nat) : List (Field × Nat) :=
  getfield_calls (stream.length + 1) stream

/-- The lines of an output text: the pieces between its newline characters. -/
def output_lines : List Nat → List (List Nat)
  | [] => [[]]
  | c :: cs =>
    if c = CHAR_NL then [] :: output_lines cs
    else
      match output_lines cs with
      | [] => [[c]]
      | l :: ls => (c :: l) :: ls

/-- The characters that stop the loop of `getfield` other than the end of the
stream: the zero byte, the tab and the newline. -/
def stops_field (c : Nat) : Bool := decide (c = 0 ∨ c = CHAR_TB ∨ c = CHAR_NL)

/-! ## The stores into `appearances` -/

/-- The initial values of the variables of `do_stage3`: `previous_entry = ""`,
`index = 0`, `count = 0`, `longest_entry_len = 0`, and the two local arrays,
`entries` of `MAXLINES` slots and `appearances` of `MAXFIELDLEN` slots. -/
def stage3_init : Stage3State :=
  { previous_entry := [], entries := List.replicate MAXLINES [],
    appearances := List.replicate MAXFIELDLEN 0, index := 0, count := 0,
    longest_entry_len := 0 }

/-- The index of the assignment `appearances[index] = count` that the body of
the grouping loop executes for one row, if it executes it. -/
def store_index_step (st : Stage3State) (current_entry : Entry) : List Nat :=
  if strcmp st.previous_entry [] ≠ 0 ∧ strcmp current_entry st.previous_entry ≠ 0 then
    [st.index]
  else []

/-- The indices of the assignments `appearances[index] = count` executed by the
grouping loop of `do_stage3`, in the order of execution. -/
def store_index_loop (input : Table) (selected_cols : List Nat) (row_count : Nat) :
    Nat → Nat → Stage3State → List Nat
  | 0, _, _ => []
  | fuel + 1, i, st =>
    if i < row_count then
      store_index_step st (build_entry (row_at input i) selected_cols)
        ++ store_index_loop input selected_cols row_count fuel (i + 1)
          (do_stage3_step st (build_entry (row_at input i) selected_cols))
    else []

/-- The indices at which `do_stage3` stores a group count: those of the loop,
then that of the store after the loop when `count > 0`. -/
def do_stage3_store_indices (input : Table) (selected_cols : List Nat)
    (row_count col_count : Nat) : List Nat :=
  store_index_loop input selected_cols row_count row_count 0 stage3_init
    ++ (if (do_stage3_loop input selected_cols row_count row_count 0 stage3_init).count > 0
        then [(do_stage3_loop input selected_cols row_count row_count 0 stage3_init).index]
        else [])

/-! ## Properties of `strcmp` and `rowcmp` -/

theorem strcmp_neg (a b : List Nat) : strcmp b a = - strcmp a b := by
  induction a generalizing b with
  | nil =>
    cases b with
    | nil => simp [strcmp]
    | cons y ys => simp [strcmp]
  | cons x xs ih =>
    cases b with
    | nil => simp [strcmp]
    | cons y ys =>
      by_cases hxy : x = y
      · subst hxy
        by_cases hx : x = 0
        · simp [strcmp, hx]
        · simp [strcmp, hx, ih]
      · have hyx : ¬ y = x := fun h => hxy h.symm
        simp [strcmp, hxy, hyx]

theorem strcmp_eq_zero_iff (a b : List Nat) : strcmp a b = 0 ↔ cstr a = cstr b := by
  induction a generalizing b with
  | nil =>
    cases b with
    | nil => simp [strcmp]
    | cons y ys =>
      by_cases hy : y = 0
      · simp [strcmp, cstr, hy]
      · simp [strcmp, cstr, hy]
  | cons x xs ih =>
    cases b with
    | nil =>
      by_cases hx : x = 0
      · simp [strcmp, cstr, hx]
      · simp [strcmp, cstr, hx]
    | cons y ys =>
      by_cases hxy : x = y
      · subst hxy
        by_cases hx : x = 0
        · simp [strcmp, cstr, hx]
        · simp [strcmp, cstr, hx, ih]
      · by_cases hx : x = 0
        · have hy : ¬ y = 0 := fun h => hxy (by rw [hx, h])
          have hy2 : ¬ (0 : Nat) = y := fun h => hy h.symm
          simp [strcmp, cstr, hx, hy, hy2]
        · by_cases hy : y = 0
          · simp [strcmp, cstr, hx, hy]
          · simp [strcmp, cstr, hx, hy, hxy]
            omega

theorem rowcmp_neg (keys : List Nat) (a b : Row) : rowcmp b a keys = - rowcmp a b keys := by
  induction keys with
  | nil => simp [rowcmp]
  | cons k ks ih =>
    simp only [rowcmp]
    rw [strcmp_neg (field_at a k) (field_at b k)]
    by_cases h : strcmp (field_at a k) (field_at b k) = 0
    · simp [h, ih]
    · simp [h]

theorem rowcmp_take_le (keys : List Nat) (a b : Row) (n : Nat)
    (h : rowcmp a b keys ≤ 0) : rowcmp a b (keys.take n) ≤ 0 := by
  induction keys generalizing n with
  | nil => simpa using h
  | cons k ks ih =>
    cases n with
    | zero => simp [rowcmp]
    | succ n =>
      simp only [List.take_succ_cons, rowcmp] at h ⊢
      by_cases hk : strcmp (field_at a k) (field_at b k) = 0
      · simp only [hk, if_true] at h ⊢
        exact ih n h
      · simp only [hk, if_false] at h ⊢
        exact h

theorem rowcmp_eq_zero_iff (keys : List Nat) (a b : Row) :
    rowcmp a b keys = 0 ↔ same_keys keys a b = true := by
  induction keys with
  | nil => simp [rowcmp, same_keys]
  | cons k ks ih =>
    simp only [rowcmp, same_keys, List.all_cons, Bool.and_eq_true, decide_eq_true_eq]
    by_cases hk : strcmp (field_at a k) (field_at b k) = 0
    · have hc := (strcmp_eq_zero_iff _ _).1 hk
      simp only [hk, if_true, hc, true_and]
      exact ih
    · have hc : ¬ cstr (field_at a k) = cstr (field_at b k) :=
        fun h => hk ((strcmp_eq_zero_iff _ _).2 h)
      simp [hk, hc]

/-! ## The insertion sort as a list insertion -/

theorem row_swap_adjacent (A B : List Row) (x y : Row) (n : Nat) (hn : n = A.length) :
    row_swap (A ++ y :: x :: B) (n + 1) n = A ++ x :: y :: B := by
  subst hn
  induction A with
  | nil => simp [row_swap, row_at]
  | cons a A ih =>
    simp only [row_swap, row_at, List.cons_append, List.length_cons, List.getD_cons_succ,
      List.set_cons_succ] at ih ⊢
    rw [ih]

theorem row_at_append_fst (A B : List Row) (y : Row) (n : Nat) (hn : n = A.length) :
    row_at (A ++ y :: B) n = y := by
  subst hn
  induction A with
  | nil => simp [row_at]
  | cons a A ih =>
    simpa [row_at, List.getD_cons_succ] using ih

theorem row_at_append_snd (A B : List Row) (x y : Row) (n : Nat) (hn : n = A.length) :
    row_at (A ++ y :: x :: B) (n + 1) = x := by
  have h := row_at_append_fst (A ++ [y]) B x (n + 1) (by simp [hn])
  simpa using h

theorem insertion_sort_inner_eq (keys : List Nat) (h x : Row) (R B : List Row) :
    insertion_sort_inner keys R.length (h :: (R.reverse ++ x :: B))
      = h :: ((insert_back keys x R).reverse ++ B) := by
  induction R generalizing B with
  | nil => simp [insertion_sort_inner, insert_back]
  | cons y R ih =>
    have hlen : R.length + 1 = (h :: R.reverse).length := by simp
    have hshape : h :: ((y :: R).reverse ++ x :: B) = (h :: R.reverse) ++ y :: x :: B := by
      simp
    have hx : row_at (h :: ((y :: R).reverse ++ x :: B)) (R.length + 2) = x := by
      rw [hshape]
      exact row_at_append_snd _ _ _ _ _ hlen
    have hy : row_at (h :: ((y :: R).reverse ++ x :: B)) (R.length + 1) = y := by
      rw [hshape]
      exact row_at_append_fst _ _ _ _ hlen
    have hsw : row_swap (h :: ((y :: R).reverse ++ x :: B)) (R.length + 2) (R.length + 1)
        = h :: (R.reverse ++ x :: (y :: B)) := by
      rw [hshape, row_swap_adjacent _ _ _ _ _ hlen]
      simp
    simp only [List.length_cons, insertion_sort_inner, hx, hy, insert_back]
    by_cases hc : rowcmp x y keys < 0
    · simp only [hc, if_true, hsw]
      rw [ih (y :: B)]
      simp
    · simp only [hc, if_false]
      simp

theorem insert_back_length (keys : List Nat) (x : Row) (R : List Row) :
    (insert_back keys x R).length = R.length + 1 := by
  induction R with
  | nil => simp [insert_back]
  | cons y R ih =>
    by_cases hc : rowcmp x y keys < 0
    · simp [insert_back, hc, ih]
    · simp [insert_back, hc]

theorem insertion_sort_outer_eq (keys : List Nat) (row_count : Nat) (h : Row) (fuel : Nat) :
    ∀ (R rest : List Row) (i : Nat), i = R.length + 1 → row_count - i ≤ fuel →
      row_count ≤ i + rest.length →
      insertion_sort_outer keys row_count fuel i (h :: (R.reverse ++ rest))
        = h :: (((rest.take (row_count - i)).foldl (fun acc x => insert_back keys x acc) R).reverse
            ++ rest.drop (row_count - i)) := by
  induction fuel with
  | zero =>
    intro R rest i hi hf hlen
    have h0 : row_count - i = 0 := by omega
    simp [insertion_sort_outer, h0]
  | succ fuel ih =>
    intro R rest i hi hf hlen
    by_cases hlt : i < row_count
    · cases rest with
      | nil => simp at hlen; omega
      | cons x B =>
        have hstep : row_count - i = (row_count - (i + 1)) + 1 := by omega
        have hj : i - 1 = R.length := by omega
        simp only [insertion_sort_outer, hlt, if_true, hj]
        rw [insertion_sort_inner_eq]
        rw [ih (insert_back keys x R) B (i + 1) (by rw [insert_back_length]; omega) (by omega)
          (by simp at hlen; omega)]
        rw [hstep]
        simp
    · have h0 : row_count - i = 0 := by omega
      simp [insertion_sort_outer, hlt, h0]

theorem insertion_sort_eq (keys : List Nat) (h : Row) (rest : List Row)
    (row_count col_count : Nat) (h1 : 1 ≤ row_count) (hlen : row_count ≤ rest.length + 1) :
    insertion_sort (h :: rest) row_count col_count keys
      = h :: ((sorted_back keys (rest.take (row_count - 1))).reverse
          ++ rest.drop (row_count - 1)) := by
  have hmain := insertion_sort_outer_eq keys row_count h row_count [] rest 1 (by simp)
    (by omega) (by omega)
  simpa [insertion_sort, sorted_back] using hmain

theorem insertion_sort_zero (keys : List Nat) (input : Table) (col_count : Nat) :
    insertion_sort input 0 col_count keys = input := by
  simp [insertion_sort, insertion_sort_outer]

theorem sorted_back_length (keys : List Nat) (rows : List Row) :
    (sorted_back keys rows).length = rows.length := by
  have hgen : ∀ (acc : List Row),
      (rows.foldl (fun acc x => insert_back keys x acc) acc).length
        = acc.length + rows.length := by
    induction rows with
    | nil => intro acc; simp
    | cons x rows ih =>
      intro acc
      simp only [List.foldl_cons, List.length_cons]
      rw [ih, insert_back_length]
      omega
  simpa [sorted_back] using hgen []

theorem data_rows_cons (h : Row) (rest : List Row) (row_count : Nat) (h1 : 1 ≤ row_count) :
    data_rows (h :: rest) row_count = rest.take (row_count - 1) := by
  obtain ⟨n, rfl⟩ : ∃ n, row_count = n + 1 := ⟨row_count - 1, by omega⟩
  simp [data_rows]

theorem data_rows_insertion_sort (keys : List Nat) (input : Table)
    (row_count col_count : Nat) (hlen : row_count ≤ input.length) :
    data_rows (insertion_sort input row_count col_count keys) row_count
      = (sorted_back keys (data_rows input row_count)).reverse := by
  cases input with
  | nil =>
    have h0 : row_count = 0 := by simpa using hlen
    subst h0
    simp [insertion_sort_zero, data_rows, sorted_back]
  | cons h rest =>
    by_cases h1 : 1 ≤ row_count
    · rw [insertion_sort_eq keys h rest row_count col_count h1 (by simpa using hlen)]
      rw [data_rows_cons _ _ _ h1, data_rows_cons _ _ _ h1]
      have hl : ((sorted_back keys (rest.take (row_count - 1))).reverse).length
          = row_count - 1 := by
        rw [List.length_reverse, sorted_back_length, List.length_take]
        simp at hlen
        omega
      rw [List.take_append_of_le_length (by omega)]
      rw [List.take_of_length_le (by omega)]
    · have h0 : row_count = 0 := by omega
      subst h0
      simp [insertion_sort_zero, data_rows, sorted_back]

/-! ## Order, permutation and stability of the inserted rows -/

theorem insert_back_head (keys : List Nat) (x : Row) (R : List Row) :
    ∀ w ∈ (insert_back keys x R).head?, w = x ∨ w ∈ R.head? := by
  intro w hw
  cases R with
  | nil =>
    simp [insert_back] at hw
    exact Or.inl hw.symm
  | cons y R =>
    by_cases hc : rowcmp x y keys < 0
    · simp [insert_back, hc] at hw
      right
      simp [hw]
    · simp [insert_back, hc] at hw
      exact Or.inl hw.symm

theorem insert_back_chain (keys : List Nat) (x : Row) (R : List Row)
    (hR : List.Chain' (fun a b => rowcmp b a keys ≤ 0) R) :
    List.Chain' (fun a b => rowcmp b a keys ≤ 0) (insert_back keys x R) := by
  induction R with
  | nil => simp [insert_back]
  | cons y R ih =>
    by_cases hc : rowcmp x y keys < 0
    · simp only [insert_back, hc, if_true]
      refine List.Chain'.cons' (ih hR.tail) ?_
      intro w hw
      rcases insert_back_head keys x R w hw with hwx | hwR
      · rw [hwx]
        omega
      · exact hR.rel_head? hwR
    · simp only [insert_back, hc, if_false]
      refine List.Chain'.cons ?_ hR
      have hneg := rowcmp_neg keys x y
      omega

theorem sorted_back_chain (keys : List Nat) (rows : List Row) :
    List.Chain' (fun a b => rowcmp a b keys ≤ 0) (sorted_back keys rows).reverse := by
  have hgen : ∀ (acc : List Row), List.Chain' (fun a b => rowcmp b a keys ≤ 0) acc →
      List.Chain' (fun a b => rowcmp b a keys ≤ 0)
        (rows.foldl (fun acc x => insert_back keys x acc) acc) := by
    induction rows with
    | nil => intro acc hacc; simpa using hacc
    | cons x rows ih =>
      intro acc hacc
      simp only [List.foldl_cons]
      exact ih _ (insert_back_chain keys x acc hacc)
  rw [List.chain'_reverse]
  exact hgen [] List.chain'_nil

theorem insert_back_perm (keys : List Nat) (x : Row) (R : List Row) :
    List.Perm (insert_back keys x R) (x :: R) := by
  induction R with
  | nil => simp [insert_back]
  | cons y R ih =>
    by_cases hc : rowcmp x y keys < 0
    · simp only [insert_back, hc, if_true]
      exact (List.Perm.cons y ih).trans (List.Perm.swap x y R)
    · simp [insert_back, hc]

theorem sorted_back_perm (keys : List Nat) (rows : List Row) :
    List.Perm (sorted_back keys rows).reverse rows := by
  have hgen : ∀ (acc : List Row),
      List.Perm (rows.foldl (fun acc x => insert_back keys x acc) acc) (rows ++ acc) := by
    induction rows with
    | nil => intro acc; simp
    | cons x rows ih =>
      intro acc
      simp only [List.foldl_cons]
      refine (ih _).trans ?_
      refine (List.Perm.append_left rows (insert_back_perm keys x acc)).trans ?_
      exact List.perm_middle
  have h := hgen []
  simp only [List.append_nil] at h
  exact (List.reverse_perm _).trans h

theorem same_keys_rowcmp (keys : List Nat) (r x y : Row)
    (hx : same_keys keys r x = true) (hy : same_keys keys r y = true) :
    rowcmp x y keys = 0 := by
  rw [rowcmp_eq_zero_iff]
  simp only [same_keys, List.all_eq_true, decide_eq_true_eq] at hx hy ⊢
  intro k hk
  rw [← hx k hk, ← hy k hk]

theorem insert_back_filter (keys : List Nat) (r x : Row) (R : List Row) :
    (insert_back keys x R).filter (same_keys keys r) = (x :: R).filter (same_keys keys r) := by
  induction R with
  | nil => simp [insert_back]
  | cons y R ih =>
    by_cases hc : rowcmp x y keys < 0
    · simp only [insert_back, hc, if_true]
      rw [List.filter_cons, ih]
      by_cases hx : same_keys keys r x = true
      · by_cases hy : same_keys keys r y = true
        · have h0 := same_keys_rowcmp keys r x y hx hy
          omega
        · simp [List.filter_cons, hx, hy]
      · simp [List.filter_cons, hx]
    · simp [insert_back, hc]

theorem sorted_back_filter (keys : List Nat) (r : Row) (rows : List Row) :
    (sorted_back keys rows).reverse.filter (same_keys keys r)
      = rows.filter (same_keys keys r) := by
  have hgen : ∀ (acc : List Row),
      (rows.foldl (fun acc x => insert_back keys x acc) acc).filter (same_keys keys r)
        = (rows.reverse ++ acc).filter (same_keys keys r) := by
    induction rows with
    | nil => intro acc; simp
    | cons x rows ih =>
      intro acc
      simp only [List.foldl_cons]
      rw [ih, List.filter_append, insert_back_filter, ← List.filter_append]
      simp
  have h := hgen []
  simp only [List.append_nil] at h
  rw [List.filter_reverse, sorted_back, h, List.filter_reverse, List.reverse_reverse]

theorem chain_getD {α : Type} (R : α → α → Prop) (d : α) (l : List α)
    (hl : List.Chain' R l) (i : Nat) (hi : i + 1 < l.length) :
    R (l.getD i d) (l.getD (i + 1) d) := by
  induction l generalizing i with
  | nil => simp at hi
  | cons a l ih =>
    cases l with
    | nil => simp at hi
    | cons b l =>
      cases i with
      | zero => simpa using (List.chain'_cons.1 hl).1
      | succ i =>
        have h := ih (List.chain'_cons.1 hl).2 i (by simpa using hi)
        simpa [List.getD_cons_succ] using h

theorem data_rows_getD (t : Table) (row_count i : Nat) (h1 : 1 ≤ i) (h2 : i < row_count) :
    (data_rows t row_count).getD (i - 1) [] = row_at t i := by
  obtain ⟨k, rfl⟩ : ∃ k, i = k + 1 := ⟨i - 1, by omega⟩
  simp only [data_rows, row_at, List.getD_eq_getElem?_getD, List.getElem?_drop,
    Nat.add_sub_cancel]
  rw [List.getElem?_take_of_lt (by omega), Nat.add_comm]

theorem data_rows_length (t : Table) (row_count : Nat) (hlen : row_count ≤ t.length) :
    (data_rows t row_count).length = row_count - 1 := by
  simp [data_rows, List.length_take, Nat.min_eq_left hlen]

theorem insertion_sort_length (keys : List Nat) (input : Table) (row_count col_count : Nat)
    (hlen : row_count ≤ input.length) :
    (insertion_sort input row_count col_count keys).length = input.length := by
  cases input with
  | nil =>
    have h0 : row_count = 0 := by simpa using hlen
    subst h0
    simp [insertion_sort_zero]
  | cons h rest =>
    by_cases h1 : 1 ≤ row_count
    · rw [insertion_sort_eq keys h rest row_count col_count h1 (by simpa using hlen)]
      simp only [List.length_cons, List.length_append, List.length_reverse,
        sorted_back_length, List.length_take, List.length_drop]
      simp at hlen
      omega
    · have h0 : row_count = 0 := by omega
      subst h0
      simp [insertion_sort_zero]

theorem insertion_sort_drop (keys : List Nat) (input : Table) (row_count col_count : Nat)
    (hlen : row_count ≤ input.length) :
    (insertion_sort input row_count col_count keys).drop row_count
      = input.drop row_count := by
  cases input with
  | nil =>
    have h0 : row_count = 0 := by simpa using hlen
    subst h0
    simp [insertion_sort_zero]
  | cons h rest =>
    by_cases h1 : 1 ≤ row_count
    · rw [insertion_sort_eq keys h rest row_count col_count h1 (by simpa using hlen)]
      obtain ⟨n, rfl⟩ : ∃ n, row_count = n + 1 := ⟨row_count - 1, by omega⟩
      have hl : ((sorted_back keys (rest.take n)).reverse).length = n := by
        rw [List.length_reverse, sorted_back_length, List.length_take]
        simp at hlen
        omega
      simp only [Nat.add_sub_cancel, List.drop_succ_cons]
      rw [List.drop_append_of_le_length (by omega), List.drop_of_length_le (by omega)]
      simp
    · have h0 : row_count = 0 := by omega
      subst h0
      simp [insertion_sort_zero]

/-! ## The header row is outside the sort -/

theorem rowcmp_self (keys : List Nat) (a : Row) : rowcmp a a keys = 0 := by
  have h := rowcmp_neg keys a a
  omega

theorem row_swap_cons (h : Row) (t : List Row) (a b : Nat) :
    row_swap (h :: t) (a + 1) (b + 1) = h :: row_swap t a b := by
  simp [row_swap, row_at, List.getD_cons_succ, List.set_cons_succ]

theorem insertion_sort_inner_cons (keys : List Nat) (j : Nat) :
    ∀ (t : List Row) (h h' : Row),
      insertion_sort_inner keys j (h :: t)
        = h :: (insertion_sort_inner keys j (h' :: t)).tail := by
  induction j with
  | zero => intro t h h'; simp [insertion_sort_inner]
  | succ j ih =>
    intro t h h'
    simp only [insertion_sort_inner, row_at, List.getD_cons_succ, row_swap_cons]
    by_cases hc : rowcmp (t.getD (j + 1) []) (t.getD j []) keys < 0
    · simp only [hc, if_true]
      exact ih _ h h'
    · simp only [hc, if_false, List.tail_cons]

theorem insertion_sort_outer_cons (keys : List Nat) (row_count fuel : Nat) :
    ∀ (i : Nat) (t : List Row) (h h' : Row),
      insertion_sort_outer keys row_count fuel i (h :: t)
        = h :: (insertion_sort_outer keys row_count fuel i (h' :: t)).tail := by
  induction fuel with
  | zero => intro i t h h'; simp [insertion_sort_outer]
  | succ fuel ih =>
    intro i t h h'
    simp only [insertion_sort_outer]
    by_cases hlt : i < row_count
    · simp only [hlt, if_true]
      rw [insertion_sort_inner_cons keys (i - 1) t h h',
        insertion_sort_inner_cons keys (i - 1) t h' h']
      exact ih _ _ h h'
    · simp [hlt]

theorem insertion_sort_inner_nil (keys : List Nat) (j : Nat) :
    insertion_sort_inner keys j [] = [] := by
  cases j with
  | zero => simp [insertion_sort_inner]
  | succ j => simp [insertion_sort_inner, row_at, rowcmp_self]

theorem insertion_sort_outer_nil (keys : List Nat) (row_count fuel : Nat) :
    ∀ (i : Nat), insertion_sort_outer keys row_count fuel i [] = [] := by
  induction fuel with
  | zero => intro i; simp [insertion_sort_outer]
  | succ fuel ih =>
    intro i
    simp only [insertion_sort_outer, insertion_sort_inner_nil, ih]
    simp

/-! ## Stage 2: the claims about `insertion_sort` -/

/-- C1: after `insertion_sort` the data rows (indices `1 .. row_count - 1`) are
in non-decreasing order: for every adjacent pair of data rows `i`, `i + 1` and
every leading part `keys.take n` of the key list, `rowcmp` of the earlier row
against the later one is at most `0`. -/
theorem insertion_sort_sorted (input : Table) (row_count col_count : Nat) (keys : List Nat)
    (hrows : row_count ≤ input.length) (i n : Nat) (h1 : 1 ≤ i) (h2 : i + 1 < row_count) :
    rowcmp (row_at (insertion_sort input row_count col_count keys) i)
      (row_at (insertion_sort input row_count col_count keys) (i + 1)) (keys.take n) ≤ 0 := by
  have hlen := insertion_sort_length keys input row_count col_count hrows
  have hchain := sorted_back_chain keys (data_rows input row_count)
  rw [← data_rows_insertion_sort keys input row_count col_count hrows] at hchain
  have hadj := chain_getD _ [] _ hchain (i - 1)
    (by rw [data_rows_length _ _ (by omega)]; omega)
  have e1 := data_rows_getD (insertion_sort input row_count col_count keys) row_count i h1
    (by omega)
  have e2 := data_rows_getD (insertion_sort input row_count col_count keys) row_count (i + 1)
    (by omega) h2
  have e3 : i - 1 + 1 = i + 1 - 1 := by omega
  rw [e3, e1, e2] at hadj
  exact rowcmp_take_le keys _ _ n hadj

/-- C1 (witness): three data rows sorted on column 0. -/
theorem insertion_sort_sorted_witness :
    4 ≤ ([[[104]], [[99]], [[97]], [[98]]] : Table).length ∧ 1 ≤ 1 ∧ 1 + 1 < 4 ∧
      rowcmp (row_at (insertion_sort [[[104]], [[99]], [[97]], [[98]]] 4 1 [0]) 1)
        (row_at (insertion_sort [[[104]], [[99]], [[97]], [[98]]] 4 1 [0]) (1 + 1))
        (([0] : List Nat).take 1) ≤ 0 :=
  ⟨by decide, by decide, by decide,
    insertion_sort_sorted [[[104]], [[99]], [[97]], [[98]]] 4 1 [0] (by decide) 1 1
      (by decide) (by decide)⟩

/-- C2: `insertion_sort` is stable: for every row `r`, the data rows holding
the same strings as `r` in all selected key columns appear after sorting in
the order they had before sorting (for every key list, so in particular for
every key list with at least one key). -/
theorem insertion_sort_stable (input : Table) (row_count col_count : Nat) (keys : List Nat)
    (hrows : row_count ≤ input.length) (r : Row) :
    (data_rows (insertion_sort input row_count col_count keys) row_count).filter
        (same_keys keys r)
      = (data_rows input row_count).filter (same_keys keys r) := by
  rw [data_rows_insertion_sort keys input row_count col_count hrows]
  exact sorted_back_filter keys r _

/-- C2 (witness): two rows equal on the key column 0 keep their order. -/
theorem insertion_sort_stable_witness :
    4 ≤ ([[[104], [104]], [[98], [49]], [[97], [50]], [[98], [51]]] : Table).length ∧
      (data_rows (insertion_sort [[[104], [104]], [[98], [49]], [[97], [50]], [[98], [51]]]
          4 2 [0]) 4).filter (same_keys [0] [[98]])
        = (data_rows [[[104], [104]], [[98], [49]], [[97], [50]], [[98], [51]]] 4).filter
          (same_keys [0] [[98]]) :=
  ⟨by decide,
    insertion_sort_stable [[[104], [104]], [[98], [49]], [[97], [50]], [[98], [51]]] 4 2 [0]
      (by decide) [[98]]⟩

/-- C3: `insertion_sort` only rearranges whole rows: the data rows after
sorting are a permutation of the data rows before sorting (each row with all
of its fields), the rows at indices `>= row_count` are unchanged, and the
table keeps its length. -/
theorem insertion_sort_perm (input : Table) (row_count col_count : Nat) (keys : List Nat)
    (hrows : row_count ≤ input.length) :
    List.Perm (data_rows (insertion_sort input row_count col_count keys) row_count)
        (data_rows input row_count)
      ∧ (insertion_sort input row_count col_count keys).drop row_count = input.drop row_count
      ∧ (insertion_sort input row_count col_count keys).length = input.length := by
  refine ⟨?_, insertion_sort_drop keys input row_count col_count hrows,
    insertion_sort_length keys input row_count col_count hrows⟩
  rw [data_rows_insertion_sort keys input row_count col_count hrows]
  exact sorted_back_perm keys _

/-- C3 (witness): a table of four rows of which the first three are in use. -/
theorem insertion_sort_perm_witness :
    3 ≤ ([[[104]], [[99]], [[97]], [[98]]] : Table).length ∧
      (List.Perm (data_rows (insertion_sort [[[104]], [[99]], [[97]], [[98]]] 3 1 [0]) 3)
          (data_rows [[[104]], [[99]], [[97]], [[98]]] 3)
        ∧ (insertion_sort [[[104]], [[99]], [[97]], [[98]]] 3 1 [0]).drop 3
          = ([[[104]], [[99]], [[97]], [[98]]] : Table).drop 3
        ∧ (insertion_sort [[[104]], [[99]], [[97]], [[98]]] 3 1 [0]).length
          = ([[[104]], [[99]], [[97]], [[98]]] : Table).length) :=
  ⟨by decide, insertion_sort_perm [[[104]], [[99]], [[97]], [[98]]] 3 1 [0] (by decide)⟩

/-- C4: the header row (index 0) is neither swapped nor compared by
`insertion_sort`: row 0 after sorting equals row 0 before sorting, and the
rows after it in the result do not depend on what row 0 holds. -/
theorem insertion_sort_header (input : Table) (row_count col_count : Nat) (keys : List Nat) :
    row_at (insertion_sort input row_count col_count keys) 0 = row_at input 0
      ∧ (insertion_sort input row_count col_count keys).head? = input.head?
      ∧ ∀ (h : Row), (insertion_sort (input.set 0 h) row_count col_count keys).tail
          = (insertion_sort input row_count col_count keys).tail := by
  cases input with
  | nil => simp [insertion_sort, insertion_sort_outer_nil, row_at]
  | cons h0 t =>
    have hshape := insertion_sort_outer_cons keys row_count row_count 1 t h0 h0
    refine ⟨?_, ?_, ?_⟩
    · simp only [insertion_sort]
      rw [hshape]
      simp [row_at]
    · simp only [insertion_sort]
      rw [hshape]
      simp
    · intro h
      simp only [insertion_sort, List.set_cons_zero]
      rw [insertion_sort_outer_cons keys row_count row_count 1 t h h0]
      simp

/-! ## The field reader on a well-formed field -/

theorem cstr_of_nonzero (l : List Nat) (h : ∀ c ∈ l, c ≠ 0) : cstr l = l := by
  induction l with
  | nil => simp [cstr]
  | cons c l ih =>
    have hc : ¬ c = 0 := h c (by simp)
    simp only [cstr, hc, if_false]
    rw [ih (fun d hd => h d (by simp [hd]))]

theorem getfield_loop_CR (fuel : Nat) (s : List Nat) (dest : Field) (nchs : Nat) :
    getfield_loop fuel (CHAR_CR :: s) dest nchs = getfield_loop fuel s dest nchs := by
  cases fuel with
  | zero => simp [getfield_loop]
  | succ fuel => simp [getfield_loop, mygetchar]

theorem getfield_loop_char (fuel : Nat) (c : Nat) (s : List Nat) (dest : Field) (nchs : Nat)
    (hcr : c ≠ CHAR_CR) (h0 : c ≠ 0) (h1 : c ≠ CHAR_TB) (h2 : c ≠ CHAR_NL) :
    getfield_loop (fuel + 1) (c :: s) dest nchs
      = if nchs < MAXFIELDLEN then getfield_loop fuel s (dest ++ [c]) (nchs + 1)
        else getfield_loop fuel s dest nchs := by
  have e0 : ¬ (c : Int) = 0 := by exact_mod_cast h0
  have e1 : ¬ (c : Int) = (CHAR_TB : Int) := by exact_mod_cast h1
  have e2 : ¬ (c : Int) = (CHAR_NL : Int) := by exact_mod_cast h2
  have e3 : ¬ (c : Int) = EOF := by
    intro h
    simp only [EOF] at h
    omega
  simp only [getfield_loop, mygetchar, hcr, if_false, ne_eq, e0, e1, e2, e3,
    not_false_eq_true, and_self, if_true, Int.toNat_ofNat]

theorem getfield_loop_stop (fuel : Nat) (t : Nat) (s : List Nat) (dest : Field) (nchs : Nat)
    (ht : t = 0 ∨ t = CHAR_TB ∨ t = CHAR_NL) :
    getfield_loop (fuel + 1) (t :: s) dest nchs = some (dest, getfield_status (t : Int), s) := by
  rcases ht with ht | ht | ht
  · subst ht
    simp [getfield_loop, mygetchar, CHAR_CR]
  · subst ht
    simp [getfield_loop, mygetchar, CHAR_CR, CHAR_TB]
  · subst ht
    simp [getfield_loop, mygetchar, CHAR_CR, CHAR_NL]

theorem getfield_loop_field (f : Field) (hf : clean_field f) (t : Nat)
    (ht : t = CHAR_TB ∨ t = CHAR_NL) (rest : List Nat) :
    ∀ (fuel : Nat) (dest : Field) (nchs : Nat), f.length + 1 ≤ fuel →
      getfield_loop fuel (f ++ t :: rest) dest nchs
        = some (dest ++ (f.filter (fun c => decide (c ≠ CHAR_CR))).take (MAXFIELDLEN - nchs),
            getfield_status (t : Int), rest) := by
  induction f with
  | nil =>
    intro fuel dest nchs hfuel
    obtain ⟨n, rfl⟩ : ∃ n, fuel = n + 1 := ⟨fuel - 1, by simp at hfuel; omega⟩
    rw [List.nil_append, getfield_loop_stop n t rest dest nchs (Or.inr ht)]
    simp
  | cons c f ih =>
    intro fuel dest nchs hfuel
    have hcl : clean_field f := fun d hd => hf d (by simp [hd])
    have hc := hf c (by simp)
    have hfl : f.length + 2 ≤ fuel := by simpa using hfuel
    by_cases hcr : c = CHAR_CR
    · subst hcr
      rw [List.cons_append, getfield_loop_CR, ih hcl fuel dest nchs (by omega)]
      simp
    · obtain ⟨n, rfl⟩ : ∃ n, fuel = n + 1 := ⟨fuel - 1, by omega⟩
      rw [List.cons_append, getfield_loop_char n c _ dest nchs hcr hc.1 hc.2.1 hc.2.2]
      by_cases hn : nchs < MAXFIELDLEN
      · simp only [hn, if_true]
        rw [ih hcl n (dest ++ [c]) (nchs + 1) (by omega)]
        have hstep : MAXFIELDLEN - nchs = (MAXFIELDLEN - (nchs + 1)) + 1 := by omega
        rw [hstep]
        simp [hcr]
      · simp only [hn, if_false]
        rw [ih hcl n dest nchs (by omega)]
        have hz : MAXFIELDLEN - nchs = 0 := by omega
        have hz2 : MAXFIELDLEN - (nchs + 1) = 0 := by omega
        simp [hz]

theorem getfield_field (f : Field) (hf : clean_field f) (t : Nat)
    (ht : t = CHAR_TB ∨ t = CHAR_NL) (rest : List Nat) :
    getfield (f ++ t :: rest) = some (stored_field f, getfield_status (t : Int), rest) := by
  have h := getfield_loop_field f hf t ht rest ((f ++ t :: rest).length + 1) [] 0
    (by simp)
  simpa [getfield, stored_field] using h

theorem getfield_nil : getfield [] = some ([], STATUS_EOF, []) := by
  simp [getfield, getfield_loop, mygetchar, getfield_status, EOF]

theorem stored_field_nonzero (f : Field) (hf : clean_field f) :
    ∀ c ∈ stored_field f, c ≠ 0 := by
  intro c hc
  have h1 := List.mem_of_mem_take hc
  have h2 := List.mem_of_mem_filter h1
  exact (hf c h2).1

/-! ## The reading loop on newline-terminated lines -/

theorem do_stage1_loop_nil (fuel : Nat) (st : Stage1State) :
    do_stage1_loop (fuel + 1) [] st = some st := by
  simp only [do_stage1_loop, getfield_nil, ne_eq, not_true_eq_false, if_false]

theorem do_stage1_loop_NML (fuel : Nat) (stream : List Nat) (st : Stage1State)
    (current_field : Field) (rest : List Nat)
    (hg : getfield stream = some (current_field, STATUS_NML, rest)) :
    do_stage1_loop (fuel + 1) stream st
      = do_stage1_loop fuel rest
          { st with
            field_count := st.field_count + 1
            current_row := st.current_row.set st.col_num (strcpy current_field)
            col_num := st.col_num + 1 } := by
  have h1 : STATUS_NML ≠ STATUS_EOF := by decide
  have h2 : ¬ STATUS_NML = STATUS_EOL := by decide
  simp only [do_stage1_loop, hg, h1, h2, ne_eq, not_false_eq_true, if_true, if_false]

theorem do_stage1_loop_EOL (fuel : Nat) (stream : List Nat) (st : Stage1State)
    (current_field : Field) (rest : List Nat)
    (hg : getfield stream = some (current_field, STATUS_EOL, rest)) :
    do_stage1_loop (fuel + 1) stream st
      = do_stage1_loop fuel rest
          { dest := st.dest.set st.row_count
              (st.current_row.set st.col_num (strcpy current_field))
            row_count := st.row_count + 1
            col_num := 0
            field_count := st.field_count + 1
            current_row := st.current_row.set st.col_num (strcpy current_field) } := by
  have h1 : STATUS_EOL ≠ STATUS_EOF := by decide
  simp only [do_stage1_loop, hg, h1, ne_eq, not_false_eq_true, if_true]

theorem do_stage1_loop_EOF (fuel : Nat) (stream : List Nat) (st : Stage1State)
    (current_field : Field) (rest : List Nat)
    (hg : getfield stream = some (current_field, STATUS_EOF, rest)) :
    do_stage1_loop (fuel + 1) stream st = some st := by
  simp only [do_stage1_loop, hg, ne_eq, not_true_eq_false, if_false]

theorem getfield_status_TB : getfield_status (CHAR_TB : Int) = STATUS_NML := by
  simp [getfield_status, CHAR_TB, CHAR_NL, EOF]

theorem getfield_status_NL : getfield_status (CHAR_NL : Int) = STATUS_EOL := by
  simp [getfield_status, CHAR_NL, EOF]

theorem do_stage1_loop_line (l : List Field) (hne : l ≠ []) (hcl : ∀ f ∈ l, clean_field f)
    (rest : List Nat) :
    ∀ (fuel : Nat) (st : Stage1State),
      do_stage1_loop (fuel + l.length) (tsv_line l ++ rest) st
        = do_stage1_loop fuel rest (commit_line st l) := by
  induction l with
  | nil => exact absurd rfl hne
  | cons f l ih =>
    intro fuel st
    have hf : clean_field f := hcl f (by simp)
    have hs : strcpy (stored_field f) = stored_field f :=
      cstr_of_nonzero _ (stored_field_nonzero f hf)
    cases l with
    | nil =>
      have hg := getfield_field f hf CHAR_NL (Or.inr rfl) rest
      rw [getfield_status_NL] at hg
      have htext : tsv_line [f] ++ rest = f ++ CHAR_NL :: rest := by simp [tsv_line]
      rw [htext, List.length_singleton, do_stage1_loop_EOL fuel _ st _ _ hg, hs]
      simp [commit_line, fill_row]
    | cons g l =>
      have hg := getfield_field f hf CHAR_TB (Or.inl rfl) (tsv_line (g :: l) ++ rest)
      rw [getfield_status_TB] at hg
      have htext : tsv_line (f :: g :: l) ++ rest
          = f ++ CHAR_TB :: (tsv_line (g :: l) ++ rest) := by simp [tsv_line]
      have hlen : fuel + (f :: g :: l).length = (fuel + (g :: l).length) + 1 := by simp; omega
      rw [htext, hlen, do_stage1_loop_NML _ _ st _ _ hg, hs]
      rw [ih (by simp) (fun x hx => hcl x (by simp [hx])) fuel]
      simp only [commit_line, fill_row, List.length_cons]
      congr 2
      omega

theorem do_stage1_loop_text (lines : List (List Field)) (hne : ∀ l ∈ lines, l ≠ [])
    (hcl : ∀ l ∈ lines, ∀ f ∈ l, clean_field f) (rest : List Nat) :
    ∀ (fuel : Nat) (st : Stage1State),
      do_stage1_loop (fuel + total_fields lines) (tsv_text lines ++ rest) st
        = do_stage1_loop fuel rest (commit_lines st lines) := by
  induction lines with
  | nil => intro fuel st; simp [total_fields, tsv_text, commit_lines]
  | cons l lines ih =>
    intro fuel st
    have hfuel : fuel + total_fields (l :: lines) = (fuel + total_fields lines) + l.length := by
      simp [total_fields]; omega
    have htext : tsv_text (l :: lines) ++ rest = tsv_line l ++ (tsv_text lines ++ rest) := by
      simp [tsv_text]
    rw [hfuel, htext, do_stage1_loop_line l (hne l (by simp)) (hcl l (by simp))]
    rw [ih (fun x hx => hne x (by simp [hx])) (fun x hx => hcl x (by simp [hx]))]
    simp [commit_lines]

theorem tsv_line_length (l : List Field) : l.length ≤ (tsv_line l).length := by
  induction l with
  | nil => simp [tsv_line]
  | cons f l ih =>
    cases l with
    | nil => simp [tsv_line]
    | cons g l =>
      simp only [tsv_line, List.length_append, List.length_cons] at ih ⊢
      omega

theorem tsv_text_length (lines : List (List Field)) :
    total_fields lines ≤ (tsv_text lines).length := by
  induction lines with
  | nil => simp [total_fields, tsv_text]
  | cons l lines ih =>
    have h := tsv_line_length l
    simp only [total_fields, tsv_text, List.length_append]
    omega

theorem do_stage1_read_text (lines : List (List Field)) (hne : ∀ l ∈ lines, l ≠ [])
    (hcl : ∀ l ∈ lines, ∀ f ∈ l, clean_field f) (dest : Table) (current_row : Row) :
    do_stage1_read (tsv_text lines) dest current_row
      = some (commit_lines
          { dest := dest, row_count := 0, col_num := 0, field_count := 0,
            current_row := current_row } lines) := by
  have hlen := tsv_text_length lines
  obtain ⟨fuel, hfuel⟩ : ∃ fuel, (tsv_text lines).length + 1 = (fuel + 1) + total_fields lines :=
    ⟨(tsv_text lines).length - total_fields lines, by omega⟩
  have h := do_stage1_loop_text lines hne hcl [] (fuel + 1)
    { dest := dest, row_count := 0, col_num := 0, field_count := 0,
      current_row := current_row }
  rw [List.append_nil, do_stage1_loop_nil] at h
  rw [do_stage1_read, hfuel, h]

/-! ## The table after the lines are read -/

theorem fill_row_length (l : List Field) :
    ∀ (row : Row) (k : Nat), (fill_row row k l).length = row.length := by
  induction l with
  | nil => intro row k; simp [fill_row]
  | cons f l ih => intro row k; simp [fill_row, ih]

theorem fill_row_getD_lt (l : List Field) :
    ∀ (row : Row) (k m : Nat), m < k → (fill_row row k l).getD m [] = row.getD m [] := by
  induction l with
  | nil => intro row k m hm; simp [fill_row]
  | cons f l ih =>
    intro row k m hm
    simp only [fill_row]
    rw [ih _ (k + 1) m (by omega)]
    simp only [List.getD_eq_getElem?_getD]
    rw [List.getElem?_set_ne (by omega)]

theorem fill_row_getD (l : List Field) :
    ∀ (row : Row) (k j : Nat), k + l.length ≤ row.length → j < l.length →
      (fill_row row k l).getD (k + j) [] = stored_field (l.getD j []) := by
  induction l with
  | nil => intro row k j hk hj; simp at hj
  | cons f l ih =>
    intro row k j hk hj
    simp only [List.length_cons] at hk hj
    simp only [fill_row]
    cases j with
    | zero =>
      have e0 : k + 0 = k := rfl
      rw [e0, fill_row_getD_lt l _ (k + 1) k (by omega)]
      simp only [List.getD_eq_getElem?_getD, List.getD_cons_zero]
      rw [List.getElem?_set_self (by omega)]
      simp
    | succ j =>
      have h := ih (row.set k (stored_field f)) (k + 1) j (by simp; omega) (by omega)
      have e : k + (j + 1) = k + 1 + j := by omega
      rw [e, h]
      simp

theorem commit_lines_row_count (lines : List (List Field)) :
    ∀ (st : Stage1State),
      (commit_lines st lines).row_count = st.row_count + lines.length := by
  induction lines with
  | nil => intro st; simp [commit_lines]
  | cons l lines ih =>
    intro st
    simp only [commit_lines, ih, commit_line, List.length_cons]
    omega

theorem commit_lines_field_count (c : Nat) (lines : List (List Field))
    (hrect : ∀ l ∈ lines, l.length = c) :
    ∀ (st : Stage1State),
      (commit_lines st lines).field_count = st.field_count + c * lines.length := by
  induction lines with
  | nil => intro st; simp [commit_lines]
  | cons l lines ih =>
    intro st
    have hl : l.length = c := hrect l (by simp)
    simp only [commit_lines, ih (fun x hx => hrect x (by simp [hx])), commit_line,
      List.length_cons, hl]
    rw [Nat.mul_succ]
    omega

theorem commit_lines_rows (c : Nat) (lines : List (List Field))
    (hrect : ∀ l ∈ lines, l.length = c) :
    ∀ (st : Stage1State), st.col_num = 0 → c ≤ st.current_row.length →
      st.row_count + lines.length ≤ st.dest.length →
      (∀ i, i < st.row_count → row_at (commit_lines st lines).dest i = row_at st.dest i)
      ∧ (∀ i j, i < lines.length → j < c →
          field_at (row_at (commit_lines st lines).dest (st.row_count + i)) j
            = stored_field (field_at (row_at lines i) j)) := by
  induction lines with
  | nil =>
    intro st hcol hrow hdest
    refine ⟨fun i hi => by simp [commit_lines], fun i j hi hj => by simp at hi⟩
  | cons l lines ih =>
    intro st hcol hrow hdest
    have hl : l.length = c := hrect l (by simp)
    simp only [List.length_cons] at hdest
    have hrc : (commit_line st l).row_count = st.row_count + 1 := by simp [commit_line]
    have hst := ih (fun x hx => hrect x (by simp [hx])) (commit_line st l)
      (by simp [commit_line])
      (by simp only [commit_line, fill_row_length]; exact hrow)
      (by simp only [commit_line, List.length_set]; omega)
    obtain ⟨hkeep, hnew⟩ := hst
    rw [hrc] at hkeep hnew
    have hset : ∀ i, i < st.row_count →
        row_at (commit_line st l).dest i = row_at st.dest i := by
      intro i hi
      simp only [commit_line, row_at, List.getD_eq_getElem?_getD]
      rw [List.getElem?_set_ne (by omega)]
    have hhere : row_at (commit_line st l).dest st.row_count
        = fill_row st.current_row 0 l := by
      simp only [commit_line, row_at, List.getD_eq_getElem?_getD, hcol]
      rw [List.getElem?_set_self (by omega)]
      simp
    refine ⟨?_, ?_⟩
    · intro i hi
      simp only [commit_lines]
      rw [hkeep i (by omega), hset i hi]
    · intro i j hi hj
      simp only [commit_lines]
      cases i with
      | zero =>
        have e0 : st.row_count + 0 = st.row_count := rfl
        rw [e0, hkeep st.row_count (by omega), hhere]
        have h := fill_row_getD l st.current_row 0 j (by omega) (by omega)
        simp only [Nat.zero_add] at h
        simpa [field_at, row_at] using h
      | succ i =>
        have h := hnew i j (by simpa using hi) hj
        have e : st.row_count + (i + 1) = st.row_count + 1 + i := by omega
        rw [e, h]
        simp [row_at, List.getD_cons_succ]

/-! ## The reading loop on an arbitrary stream -/

theorem mygetchar_spec (s : List Nat) :
    ((mygetchar s).1 = EOF ∧ s.count CHAR_NL = 0)
      ∨ (∃ c : Nat, (mygetchar s).1 = (c : Int) ∧ (mygetchar s).2.length < s.length
          ∧ s.count CHAR_NL = (if c = CHAR_NL then 1 else 0) + (mygetchar s).2.count CHAR_NL) := by
  induction s with
  | nil => left; simp [mygetchar]
  | cons c s ih =>
    by_cases hcr : c = CHAR_CR
    · have hne : ¬ CHAR_CR = CHAR_NL := by decide
      subst hcr
      simp only [mygetchar, if_true, List.length_cons]
      rw [List.count_cons_of_ne (by decide)]
      rcases ih with h | ⟨d, h1, h2, h3⟩
      · exact Or.inl h
      · exact Or.inr ⟨d, h1, by omega, h3⟩
    · right
      refine ⟨c, by simp [mygetchar, hcr], by simp [mygetchar, hcr], ?_⟩
      simp only [mygetchar, hcr, if_false]
      by_cases hnl : c = CHAR_NL
      · subst hnl
        simp
        omega
      · have hnl2 : ¬ CHAR_NL = c := fun h => hnl h.symm
        rw [List.count_cons_of_ne hnl2]
        simp [hnl]

theorem getfield_loop_total (fuel : Nat) :
    ∀ (s : List Nat) (dest : Field) (nchs : Nat), s.length < fuel →
      ∃ d status rest, getfield_loop fuel s dest nchs = some (d, status, rest)
        ∧ ((status = STATUS_EOF ∧ s.count CHAR_NL = 0)
          ∨ (status = STATUS_EOL ∧ rest.length < s.length
              ∧ s.count CHAR_NL = rest.count CHAR_NL + 1)
          ∨ (status = STATUS_NML ∧ rest.length < s.length
              ∧ s.count CHAR_NL = rest.count CHAR_NL)) := by
  induction fuel with
  | zero => intro s dest nchs h; omega
  | succ fuel ih =>
    intro s dest nchs hlen
    rcases mygetchar_spec s with ⟨h1, h2⟩ | ⟨c, h1, h2, h3⟩
    · refine ⟨dest, STATUS_EOF, (mygetchar s).2, ?_, Or.inl ⟨rfl, h2⟩⟩
      have hs : mygetchar s = (EOF, (mygetchar s).2) := by rw [← h1]
      rw [getfield_loop, hs]
      simp [getfield_status]
    · have hs : mygetchar s = ((c : Int), (mygetchar s).2) := by rw [← h1]
      by_cases hstop : c = 0 ∨ c = CHAR_TB ∨ c = CHAR_NL
      · have hcond : ¬ ((c : Int) ≠ 0 ∧ (c : Int) ≠ (CHAR_TB : Int)
            ∧ (c : Int) ≠ (CHAR_NL : Int) ∧ (c : Int) ≠ EOF) := by
          intro hh
          rcases hstop with h | h | h
          · exact hh.1 (by exact_mod_cast h)
          · exact hh.2.1 (by exact_mod_cast h)
          · exact hh.2.2.1 (by exact_mod_cast h)
        refine ⟨dest, getfield_status (c : Int), (mygetchar s).2, ?_, ?_⟩
        · rw [getfield_loop, hs]
          simp only []
          rw [if_neg hcond]
        · by_cases hnl : c = CHAR_NL
          · right; left
            subst hnl
            refine ⟨getfield_status_NL, h2, ?_⟩
            simp only [if_true] at h3
            omega
          · right; right
            have hst : getfield_status (c : Int) = STATUS_NML := by
              have e1 : ¬ (c : Int) = EOF := by
                intro h
                simp only [EOF] at h
                omega
              have e2 : ¬ (c : Int) = (CHAR_NL : Int) := by exact_mod_cast hnl
              simp [getfield_status, e1, e2]
            refine ⟨hst, h2, ?_⟩
            simp only [hnl, if_false] at h3
            omega
      · have h0 : c ≠ 0 := fun h => hstop (Or.inl h)
        have ht : c ≠ CHAR_TB := fun h => hstop (Or.inr (Or.inl h))
        have hn : c ≠ CHAR_NL := fun h => hstop (Or.inr (Or.inr h))
        have hcond : ((c : Int) ≠ 0 ∧ (c : Int) ≠ (CHAR_TB : Int)
            ∧ (c : Int) ≠ (CHAR_NL : Int) ∧ (c : Int) ≠ EOF) := by
          refine ⟨by exact_mod_cast h0, by exact_mod_cast ht, by exact_mod_cast hn, ?_⟩
          intro h
          simp only [EOF] at h
          omega
        simp only [hn, if_false, Nat.zero_add] at h3
        have hstep : ∀ (d : Field) (m : Nat),
            ∃ d' status rest, getfield_loop fuel (mygetchar s).2 d m = some (d', status, rest)
              ∧ ((status = STATUS_EOF ∧ s.count CHAR_NL = 0)
                ∨ (status = STATUS_EOL ∧ rest.length < s.length
                    ∧ s.count CHAR_NL = rest.count CHAR_NL + 1)
                ∨ (status = STATUS_NML ∧ rest.length < s.length
                    ∧ s.count CHAR_NL = rest.count CHAR_NL)) := by
          intro d m
          obtain ⟨d', status, rest, he, hcase⟩ := ih (mygetchar s).2 d m (by omega)
          refine ⟨d', status, rest, he, ?_⟩
          rcases hcase with ⟨a, b⟩ | ⟨a, b, c'⟩ | ⟨a, b, c'⟩
          · exact Or.inl ⟨a, by omega⟩
          · exact Or.inr (Or.inl ⟨a, by omega, by omega⟩)
          · exact Or.inr (Or.inr ⟨a, by omega, by omega⟩)
        rw [getfield_loop, hs]
        simp only []
        rw [if_pos hcond]
        by_cases hm : nchs < MAXFIELDLEN
        · simp only [hm, if_true]
          exact hstep _ _
        · simp only [hm, if_false]
          exact hstep _ _

theorem do_stage1_loop_total (fuel : Nat) :
    ∀ (s : List Nat) (st : Stage1State), s.length < fuel →
      ∃ st', do_stage1_loop fuel s st = some st'
        ∧ st'.row_count = st.row_count + s.count CHAR_NL := by
  induction fuel with
  | zero => intro s st h; omega
  | succ fuel ih =>
    intro s st hlen
    obtain ⟨d, status, rest, hg, hcase⟩ := getfield_loop_total (s.length + 1) s [] 0 (by omega)
    have hg2 : getfield s = some (d, status, rest) := hg
    rcases hcase with ⟨a, b⟩ | ⟨a, b, c⟩ | ⟨a, b, c⟩
    · subst a
      exact ⟨st, do_stage1_loop_EOF fuel s st d rest hg2, by omega⟩
    · subst a
      rw [do_stage1_loop_EOL fuel s st d rest hg2]
      obtain ⟨st', h1, h2⟩ := ih rest
        { dest := st.dest.set st.row_count (st.current_row.set st.col_num (strcpy d))
          row_count := st.row_count + 1
          col_num := 0
          field_count := st.field_count + 1
          current_row := st.current_row.set st.col_num (strcpy d) } (by omega)
      exact ⟨st', h1, by rw [h2]; simp only []; omega⟩
    · subst a
      rw [do_stage1_loop_NML fuel s st d rest hg2]
      obtain ⟨st', h1, h2⟩ := ih rest
        { st with
          field_count := st.field_count + 1
          current_row := st.current_row.set st.col_num (strcpy d)
          col_num := st.col_num + 1 } (by omega)
      exact ⟨st', h1, by rw [h2]; simp only []; omega⟩

/-! ## Stage 1: the claims about `do_stage1` -/

/-- C5 (counterexample): two rectangular inputs whose reported shape is not
the shape of the input.  The text `a<TAB>b<NL>c<TAB>d` (two header columns,
one data row, no newline after the last line) is reported as 0 rows and 3
columns; the text `a<NUL>b<NL>` (one header column, no data row) is reported
as 0 rows and 2 columns. -/
theorem do_stage1_shape_counterexample :
    (do_stage1 [97, 9, 98, 10, 99, 9, 100] empty_table empty_row).map
        (fun r => (r.printed_rows, r.printed_cols)) = some (0, 3)
      ∧ ((0, 3) : Nat × Nat) ≠ (1, 2)
      ∧ (do_stage1 [97, 0, 98, 10] empty_table empty_row).map
        (fun r => (r.printed_rows, r.printed_cols)) = some (0, 2)
      ∧ ((0, 2) : Nat × Nat) ≠ (0, 1) := by
  refine ⟨by rfl, by decide, by rfl, by decide⟩

/-- C5 (amended): for every rectangular input in which every line, the last
one included, ends with a newline and no field holds a zero byte, with
`H >= 1` header columns and `N >= 0` data rows within the capacity bounds,
`do_stage1` reports `N` rows and `H` columns. -/
theorem do_stage1_shape (header : List Field) (data : List (List Field)) (dest : Table)
    (current_row : Row) (hH : 1 ≤ header.length)
    (hrect : ∀ l ∈ data, l.length = header.length)
    (hclean : ∀ l ∈ header :: data, ∀ f ∈ l, clean_field f)
    (hrows : data.length + 1 ≤ MAXLINES) (hcols : header.length ≤ MAXCOLUMNS) :
    ∃ res, do_stage1 (tsv_text (header :: data)) dest current_row = some res
      ∧ res.printed_rows = data.length ∧ res.printed_cols = header.length := by
  have hne : ∀ l ∈ header :: data, l ≠ [] := by
    intro l hl hnil
    rcases List.mem_cons.1 hl with h | h
    · rw [h] at hnil; rw [hnil] at hH; simp at hH
    · have := hrect l h; rw [hnil] at this; simp at this; omega
  have hrect2 : ∀ l ∈ header :: data, l.length = header.length := by
    intro l hl
    rcases List.mem_cons.1 hl with h | h
    · rw [h]
    · exact hrect l h
  have hread := do_stage1_read_text (header :: data) hne hclean dest current_row
  have hrc := commit_lines_row_count (header :: data)
    { dest := dest, row_count := 0, col_num := 0, field_count := 0,
      current_row := current_row }
  have hfc := commit_lines_field_count header.length (header :: data) hrect2
    { dest := dest, row_count := 0, col_num := 0, field_count := 0,
      current_row := current_row }
  simp only [List.length_cons, Nat.zero_add] at hrc hfc
  have hnz : ¬ (commit_lines
      { dest := dest, row_count := 0, col_num := 0, field_count := 0,
        current_row := current_row } (header :: data)).row_count = 0 := by
    rw [hrc]; omega
  refine ⟨_, by simp only [do_stage1, hread, hnz, if_false]; rfl, ?_, ?_⟩
  · simp only [hrc, Nat.add_sub_cancel]
  · simp only [hrc, hfc]
    exact Nat.mul_div_cancel _ (by omega)

/-- C5 (witness): a header of two columns and one data row. -/
theorem do_stage1_shape_witness :
    ∃ res, do_stage1 (tsv_text ([[97], [98]] :: [[[99], [100]]])) empty_table empty_row
        = some res
      ∧ res.printed_rows = ([[[99], [100]]] : List (List Field)).length
      ∧ res.printed_cols = ([[97], [98]] : List Field).length :=
  do_stage1_shape [[97], [98]] [[[99], [100]]] empty_table empty_row (by decide) (by decide)
    (by decide) (by decide) (by decide)

/-- C6 (counterexample): the one-line input `a<NUL>b<TAB>c<NL>` holds two
tab-separated fields, and the table row 0 built from it holds `b`, not the
second field `c`, in column 1. -/
theorem do_stage1_table_counterexample :
    (do_stage1 [97, 0, 98, 9, 99, 10] empty_table empty_row).map
        (fun r => field_at (row_at r.dest 0) 1) = some [98]
      ∧ ([98] : Field) ≠ stored_field [99] := by
  refine ⟨by rfl, by decide⟩

/-- C6 (amended): for every input made of at most `MAXLINES` newline-terminated
lines that each hold the same number `c <= MAXCOLUMNS` of tab-separated fields
without a zero byte, `do_stage1` builds a table whose row `i`, column `j` is
the `j`-th field of the `i`-th line, carriage returns removed and truncated to
`MAXFIELDLEN` characters. -/
theorem do_stage1_table (lines : List (List Field)) (c : Nat) (dest : Table)
    (current_row : Row) (hdest : dest.length = MAXLINES)
    (hrow : current_row.length = MAXCOLUMNS) (hlines : lines.length ≤ MAXLINES)
    (hc1 : 1 ≤ c) (hc : c ≤ MAXCOLUMNS) (hrect : ∀ l ∈ lines, l.length = c)
    (hclean : ∀ l ∈ lines, ∀ f ∈ l, clean_field f)
    (i j : Nat) (hi : i < lines.length) (hj : j < c) :
    ∃ res, do_stage1 (tsv_text lines) dest current_row = some res
      ∧ field_at (row_at res.dest i) j = stored_field (field_at (row_at lines i) j) := by
  have hne : ∀ l ∈ lines, l ≠ [] := by
    intro l hl hnil
    have := hrect l hl
    rw [hnil] at this
    simp at this
    omega
  have hread := do_stage1_read_text lines hne hclean dest current_row
  have hrc := commit_lines_row_count lines
    { dest := dest, row_count := 0, col_num := 0, field_count := 0,
      current_row := current_row }
  have hcontent := (commit_lines_rows c lines hrect
    { dest := dest, row_count := 0, col_num := 0, field_count := 0,
      current_row := current_row } rfl (by simp only []; omega)
      (by simp only []; omega)).2 i j hi hj
  simp only [Nat.zero_add] at hrc hcontent
  have hnz : ¬ (commit_lines
      { dest := dest, row_count := 0, col_num := 0, field_count := 0,
        current_row := current_row } lines).row_count = 0 := by
    rw [hrc]; omega
  exact ⟨_, by simp only [do_stage1, hread, hnz, if_false]; rfl, hcontent⟩

/-- C6 (witness): two lines of two fields, read into the empty buffers. -/
theorem do_stage1_table_witness :
    ∃ res, do_stage1 (tsv_text [[[97], [98, 13]], [[99], [100]]]) empty_table empty_row
        = some res
      ∧ field_at (row_at res.dest 0) 1
        = stored_field (field_at (row_at [[[97], [98, 13]], [[99], [100]]] 0) 1) :=
  do_stage1_table [[[97], [98, 13]], [[99], [100]]] 2 empty_table empty_row
    (by simp [empty_table]) (by simp [empty_row]) (by decide) (by decide) (by decide)
    (by decide) (by decide) 0 1 (by decide) (by decide)

/-- C7 (counterexample): on the input `h<NL>` one row is committed and the
value passed back through `rows` is 1, not `1 - 1 = 0`. -/
theorem do_stage1_rows_counterexample :
    (do_stage1_read [104, 10] empty_table empty_row).map (fun st => st.row_count) = some 1
      ∧ (do_stage1 [104, 10] empty_table empty_row).map (fun r => r.rows) = some 1
      ∧ (1 : Nat) ≠ 1 - 1 := by
  refine ⟨by rfl, by rfl, by decide⟩

/-- C7 (amended): the row count that `do_stage1` passes back through `rows`
includes the header: for every input with at least one committed row (one
newline) it equals the number of committed rows, and the row count printed in
the report is that number minus 1, the number of data rows. -/
theorem do_stage1_rows (stream : List Nat) (dest : Table) (current_row : Row)
    (hcommitted : 1 ≤ stream.count CHAR_NL) :
    ∃ st res, do_stage1_read stream dest current_row = some st
      ∧ st.row_count = stream.count CHAR_NL
      ∧ do_stage1 stream dest current_row = some res
      ∧ res.rows = st.row_count
      ∧ res.printed_rows = st.row_count - 1 := by
  obtain ⟨st, hst, hrc⟩ := do_stage1_loop_total (stream.length + 1) stream
    { dest := dest, row_count := 0, col_num := 0, field_count := 0,
      current_row := current_row } (by omega)
  simp only [Nat.zero_add] at hrc
  have hread : do_stage1_read stream dest current_row = some st := hst
  have hnz : ¬ st.row_count = 0 := by omega
  refine ⟨st, _, hread, hrc, by simp only [do_stage1, hread, hnz, if_false]; rfl, ?_, rfl⟩
  simp only []
  omega

/-- C7 (witness): a header line and one data line. -/
theorem do_stage1_rows_witness :
    ∃ st res, do_stage1_read [104, 10, 97, 10] empty_table empty_row = some st
      ∧ st.row_count = ([104, 10, 97, 10] : List Nat).count CHAR_NL
      ∧ do_stage1 [104, 10, 97, 10] empty_table empty_row = some res
      ∧ res.rows = st.row_count
      ∧ res.printed_rows = st.row_count - 1 :=
  do_stage1_rows [104, 10, 97, 10] empty_table empty_row (by decide)

/-! ## Stage 3: the stored groups -/

theorem take_set_succ {α : Type} (l : List α) (i : Nat) (x : α) (hi : i < l.length) :
    (l.set i x).take (i + 1) = l.take i ++ [x] := by
  induction l generalizing i with
  | nil => simp at hi
  | cons a l ih =>
    cases i with
    | zero => simp
    | succ i =>
      simp only [List.set_cons_succ, List.take_succ_cons, List.cons_append]
      rw [ih i (by simpa using hi)]

theorem store_entry_groups (st : Stage3State) (h1 : st.index < st.entries.length)
    (h2 : st.index < st.appearances.length) :
    entry_groups (store_entry st) = entry_groups st ++ [(st.previous_entry, st.count)] := by
  simp only [entry_groups, store_entry]
  rw [take_set_succ _ _ _ h1, take_set_succ _ _ _ h2]
  rw [List.zip_append (by simp [List.length_take]; omega)]
  simp

theorem do_stage3_step_store (st : Stage3State) (e : Entry)
    (hc : strcmp st.previous_entry [] ≠ 0 ∧ strcmp e st.previous_entry ≠ 0) :
    do_stage3_step st e
      = { previous_entry := strcpy e
          entries := st.entries.set st.index st.previous_entry
          appearances := st.appearances.set st.index st.count
          index := st.index + 1
          count := 1
          longest_entry_len := int_max st.longest_entry_len (entry_len st.previous_entry) } := by
  unfold do_stage3_step
  rw [if_pos hc]
  simp [store_entry]

theorem do_stage3_step_keep (st : Stage3State) (e : Entry)
    (hc : ¬ (strcmp st.previous_entry [] ≠ 0 ∧ strcmp e st.previous_entry ≠ 0)) :
    do_stage3_step st e
      = { st with previous_entry := strcpy e, count := st.count + 1 } := by
  unfold do_stage3_step
  rw [if_neg hc]

theorem do_stage3_step_lengths (st : Stage3State) (e : Entry) :
    (do_stage3_step st e).entries.length = st.entries.length
      ∧ (do_stage3_step st e).appearances.length = st.appearances.length
      ∧ st.index ≤ (do_stage3_step st e).index := by
  by_cases hc : strcmp st.previous_entry [] ≠ 0 ∧ strcmp e st.previous_entry ≠ 0
  · rw [do_stage3_step_store st e hc]
    simp
  · rw [do_stage3_step_keep st e hc]
    simp

theorem do_stage3_loop_lengths (input : Table) (selected_cols : List Nat) (row_count : Nat)
    (fuel : Nat) :
    ∀ (i : Nat) (st : Stage3State),
      (do_stage3_loop input selected_cols row_count fuel i st).entries.length
          = st.entries.length
        ∧ (do_stage3_loop input selected_cols row_count fuel i st).appearances.length
          = st.appearances.length
        ∧ st.index ≤ (do_stage3_loop input selected_cols row_count fuel i st).index := by
  induction fuel with
  | zero => intro i st; simp [do_stage3_loop]
  | succ fuel ih =>
    intro i st
    simp only [do_stage3_loop]
    by_cases hlt : i < row_count
    · simp only [hlt, if_true]
      obtain ⟨a, b, c⟩ := ih (i + 1)
        (do_stage3_step st (build_entry (row_at input i) selected_cols))
      obtain ⟨a', b', c'⟩ := do_stage3_step_lengths st
        (build_entry (row_at input i) selected_cols)
      exact ⟨by rw [a, a'], by rw [b, b'], by omega⟩
    · simp [hlt]

theorem do_stage3_step_sum (st : Stage3State) (e : Entry)
    (hcap : (do_stage3_step st e).index ≤ st.appearances.length)
    (hlen : st.appearances.length ≤ st.entries.length) :
    ((entry_groups (do_stage3_step st e)).map Prod.snd).sum + (do_stage3_step st e).count
      = ((entry_groups st).map Prod.snd).sum + st.count + 1 := by
  by_cases hc : strcmp st.previous_entry [] ≠ 0 ∧ strcmp e st.previous_entry ≠ 0
  · rw [do_stage3_step_store st e hc] at hcap ⊢
    have hidx : st.index < st.appearances.length := hcap
    have hg := store_entry_groups st (by omega) hidx
    simp only [entry_groups, store_entry] at hg ⊢
    rw [hg]
    simp
  · rw [do_stage3_step_keep st e hc]
    simp only [entry_groups]
    omega

theorem do_stage3_loop_sum (input : Table) (selected_cols : List Nat) (row_count : Nat)
    (fuel : Nat) :
    ∀ (i : Nat) (st : Stage3State),
      (do_stage3_loop input selected_cols row_count fuel i st).index ≤ st.appearances.length →
      st.appearances.length ≤ st.entries.length → row_count - i ≤ fuel →
      ((entry_groups (do_stage3_loop input selected_cols row_count fuel i st)).map
            Prod.snd).sum
          + (do_stage3_loop input selected_cols row_count fuel i st).count
        = ((entry_groups st).map Prod.snd).sum + st.count + (row_count - i) := by
  induction fuel with
  | zero =>
    intro i st hcap hlen hfuel
    have h0 : row_count - i = 0 := by omega
    simp [do_stage3_loop, h0]
  | succ fuel ih =>
    intro i st hcap hlen hfuel
    simp only [do_stage3_loop] at hcap ⊢
    by_cases hlt : i < row_count
    · simp only [hlt, if_true] at hcap ⊢
      obtain ⟨a, b, c⟩ := do_stage3_step_lengths st
        (build_entry (row_at input i) selected_cols)
      obtain ⟨a', b', c'⟩ := do_stage3_loop_lengths input selected_cols row_count fuel (i + 1)
        (do_stage3_step st (build_entry (row_at input i) selected_cols))
      rw [ih (i + 1) _ (by rw [b]; exact hcap) (by rw [a, b]; exact hlen) (by omega)]
      rw [do_stage3_step_sum st _ (by omega) hlen]
      omega
    · have h0 : row_count - i = 0 := by omega
      simp [hlt, h0]


theorem do_stage3_sum_eq (input : Table) (selected_cols : List Nat)
    (row_count col_count : Nat)
    (hcap : (do_stage3 input selected_cols row_count col_count).index ≤ MAXFIELDLEN) :
    ((entry_groups (do_stage3 input selected_cols row_count col_count)).map Prod.snd).sum
      = row_count := by
  have hA : (List.replicate MAXFIELDLEN 0 : List Nat).length = MAXFIELDLEN := by simp
  have hE : (List.replicate MAXLINES ([] : Entry)).length = MAXLINES := by simp
  have hlens := do_stage3_loop_lengths input selected_cols row_count row_count 0
    { previous_entry := [], entries := List.replicate MAXLINES [],
      appearances := List.replicate MAXFIELDLEN 0, index := 0, count := 0,
      longest_entry_len := 0 }
  obtain ⟨hl1, hl2, hl3⟩ := hlens
  simp only [hA, hE] at hl1 hl2
  unfold do_stage3 at hcap ⊢
  simp only [] at hcap ⊢
  by_cases hpos : (do_stage3_loop input selected_cols row_count row_count 0
      { previous_entry := [], entries := List.replicate MAXLINES [],
        appearances := List.replicate MAXFIELDLEN 0, index := 0, count := 0,
        longest_entry_len := 0 }).count > 0
  · rw [if_pos hpos] at hcap ⊢
    have hidx : (do_stage3_loop input selected_cols row_count row_count 0
        { previous_entry := [], entries := List.replicate MAXLINES [],
          appearances := List.replicate MAXFIELDLEN 0, index := 0, count := 0,
          longest_entry_len := 0 }).index < MAXFIELDLEN := hcap
    have hsum := do_stage3_loop_sum input selected_cols row_count row_count 0
      { previous_entry := [], entries := List.replicate MAXLINES [],
        appearances := List.replicate MAXFIELDLEN 0, index := 0, count := 0,
        longest_entry_len := 0 } (by simp only [hA]; omega)
      (by simp only [hA, hE]; decide) (by omega)
    rw [store_entry_groups _ (by rw [hl1]; have : MAXFIELDLEN ≤ MAXLINES := by decide
                                 omega) (by rw [hl2]; exact hidx)]
    simp only [List.map_append, List.sum_append, List.map_cons, List.map_nil, List.sum_cons,
      List.sum_nil]
    simp only [entry_groups, List.take_zero, List.zip_nil_left, List.map_nil, List.sum_nil,
      Nat.sub_zero] at hsum ⊢
    omega
  · rw [if_neg hpos] at hcap ⊢
    have hsum := do_stage3_loop_sum input selected_cols row_count row_count 0
      { previous_entry := [], entries := List.replicate MAXLINES [],
        appearances := List.replicate MAXFIELDLEN 0, index := 0, count := 0,
        longest_entry_len := 0 } (by simp only [hA]; omega)
      (by simp only [hA, hE]; decide) (by omega)
    simp only [entry_groups, List.take_zero, List.zip_nil_left, List.map_nil, List.sum_nil,
      Nat.sub_zero] at hsum ⊢
    omega

/-! ## Stage 3: the claim about the sum of the group counts -/

/-- C9 (counterexample): for the table with header `h` and the two data rows
`a`, `b`, grouped on column 0, the counts of the Entry Groups add up to 3,
one more than the 2 data rows. -/
theorem do_stage3_count_sum_counterexample :
    ((entry_groups (do_stage3 [[[104]], [[97]], [[98]]] [0] 3 1)).map Prod.snd).sum = 3
      ∧ (data_rows [[[104]], [[97]], [[98]]] 3).length = 2 := by
  refine ⟨by rfl, by rfl⟩

/-- C9 (amended): for every table and every list of selected columns for
which `do_stage3` stores at most `MAXFIELDLEN` groups (the capacity of
`appearances`), the sum of the counts of all Entry Groups equals `row_count`,
the number of rows scanned: the header row and the data rows. -/
theorem do_stage3_count_sum (input : Table) (selected_cols : List Nat)
    (row_count col_count : Nat)
    (hcap : (do_stage3 input selected_cols row_count col_count).index ≤ MAXFIELDLEN) :
    ((entry_groups (do_stage3 input selected_cols row_count col_count)).map Prod.snd).sum
      = row_count :=
  do_stage3_sum_eq input selected_cols row_count col_count hcap

/-- C9 (witness): the header and two equal data rows. -/
theorem do_stage3_count_sum_witness :
    ((entry_groups (do_stage3 [[[104]], [[97]], [[97]]] [0] 3 1)).map Prod.snd).sum = 3 :=
  do_stage3_count_sum [[[104]], [[97]], [[97]]] [0] 3 1 (by decide)


/-! ## The order of `rowcmp` is transitive -/

theorem strcmp_cstr_left (a c : List Nat) : strcmp (cstr a) c = strcmp a c := by
  induction a generalizing c with
  | nil => simp [cstr]
  | cons x xs ih =>
    by_cases hx : x = 0
    · subst hx
      cases c with
      | nil => simp [cstr, strcmp]
      | cons y ys =>
        by_cases hy : y = 0
        · simp [cstr, strcmp, hy]
        · have hy2 : ¬ (0 : Nat) = y := fun h => hy h.symm
          simp [cstr, strcmp, hy2]
    · cases c with
      | nil => simp [cstr, strcmp, hx]
      | cons y ys =>
        by_cases hxy : x = y
        · subst hxy
          simp [cstr, strcmp, hx, ih]
        · simp [cstr, strcmp, hx, hxy]

theorem strcmp_eq_left (a b c : List Nat) (h : strcmp a b = 0) : strcmp a c = strcmp b c := by
  rw [← strcmp_cstr_left a c, ← strcmp_cstr_left b c, (strcmp_eq_zero_iff a b).1 h]

theorem strcmp_eq_right (a b c : List Nat) (h : strcmp b c = 0) : strcmp a b = strcmp a c := by
  rw [strcmp_neg b a, strcmp_neg c a, strcmp_eq_left b c a h]

theorem strcmp_lt_trans (a : List Nat) :
    ∀ (b c : List Nat), strcmp a b < 0 → strcmp b c < 0 → strcmp a c < 0 := by
  induction a with
  | nil =>
    intro b c h1 h2
    cases b with
    | nil => simp [strcmp] at h1
    | cons y ys =>
      cases c with
      | nil =>
        simp only [strcmp] at h1 h2
        omega
      | cons z zs =>
        simp only [strcmp] at h1 h2 ⊢
        by_cases hyz : y = z
        · subst hyz
          omega
        · simp only [hyz, ne_eq, not_false_eq_true, if_true] at h2
          omega
  | cons x xs ih =>
    intro b c h1 h2
    cases b with
    | nil =>
      simp only [strcmp] at h1
      omega
    | cons y ys =>
      cases c with
      | nil =>
        simp only [strcmp] at h2
        omega
      | cons z zs =>
        simp only [strcmp] at h1 h2 ⊢
        by_cases hxy : x = y
        · subst hxy
          by_cases hx : x = 0
          · simp [hx] at h1
          · simp only [ne_eq, not_true_eq_false, if_false, hx] at h1
            by_cases hxz : x = z
            · subst hxz
              simp only [ne_eq, not_true_eq_false, if_false, hx] at h2 ⊢
              exact ih ys zs h1 h2
            · simp only [ne_eq, hxz, not_false_eq_true, if_true] at h2 ⊢
              exact h2
        · simp only [ne_eq, hxy, not_false_eq_true, if_true] at h1
          by_cases hyz : y = z
          · subst hyz
            simp only [ne_eq, hxy, not_false_eq_true, if_true]
            exact h1
          · simp only [ne_eq, hyz, not_false_eq_true, if_true] at h2
            have hxz : ¬ x = z := by omega
            simp only [ne_eq, hxz, not_false_eq_true, if_true]
            omega

theorem rowcmp_trans (keys : List Nat) (a b c : Row)
    (h1 : rowcmp a b keys ≤ 0) (h2 : rowcmp b c keys ≤ 0) : rowcmp a c keys ≤ 0 := by
  induction keys with
  | nil => simp [rowcmp]
  | cons k ks ih =>
    simp only [rowcmp] at h1 h2 ⊢
    by_cases e1 : strcmp (field_at a k) (field_at b k) = 0
    · rw [strcmp_eq_left _ _ (field_at c k) e1]
      simp only [e1, if_true] at h1
      by_cases e2 : strcmp (field_at b k) (field_at c k) = 0
      · simp only [e2, if_true] at h2 ⊢
        exact ih h1 h2
      · simp only [e2, if_false] at h2 ⊢
        exact h2
    · simp only [e1, if_false] at h1
      by_cases e2 : strcmp (field_at b k) (field_at c k) = 0
      · rw [← strcmp_eq_right (field_at a k) _ _ e2]
        simp only [e1, if_false]
        exact h1
      · simp only [e2, if_false] at h2
        have h3 := strcmp_lt_trans _ _ _ (lt_of_le_of_ne h1 e1) (lt_of_le_of_ne h2 e2)
        have e3 : ¬ strcmp (field_at a k) (field_at c k) = 0 := by omega
        simp only [e3, if_false]
        omega

theorem sorted_back_pairwise (keys : List Nat) (rows : List Row) :
    List.Pairwise (fun a b => rowcmp a b keys ≤ 0) (sorted_back keys rows).reverse := by
  haveI : IsTrans Row (fun a b => rowcmp a b keys ≤ 0) :=
    ⟨fun a b c h1 h2 => rowcmp_trans keys a b c h1 h2⟩
  exact List.chain'_iff_pairwise.1 (sorted_back_chain keys rows)


/-! ## The entry of a row -/

theorem cstr_nonzero (a : List Nat) : ∀ c ∈ cstr a, c ≠ 0 := by
  induction a with
  | nil => simp [cstr]
  | cons x xs ih =>
    by_cases hx : x = 0
    · simp [cstr, hx]
    · intro c hc
      simp only [cstr, hx, if_false, List.mem_cons] at hc
      rcases hc with h | h
      · rw [h]; exact hx
      · exact ih c h

theorem cstr_cstr (a : List Nat) : cstr (cstr a) = cstr a :=
  cstr_of_nonzero _ (cstr_nonzero a)

theorem key_strings_nonzero (row : Row) (selected_cols : List Nat) :
    ∀ f ∈ key_strings row selected_cols, ∀ c ∈ f, c ≠ 0 := by
  intro f hf
  simp only [key_strings, List.mem_map] at hf
  obtain ⟨k, _, rfl⟩ := hf
  exact cstr_nonzero _

theorem join_levels_nonzero (levels : List Field) (h : ∀ f ∈ levels, ∀ c ∈ f, c ≠ 0) :
    ∀ c ∈ join_levels levels, c ≠ 0 := by
  induction levels with
  | nil => simp [join_levels]
  | cons f l ih =>
    cases l with
    | nil => simpa [join_levels] using h
    | cons g l =>
      intro c hc
      simp only [join_levels, List.mem_append, List.mem_cons] at hc
      rcases hc with hc | hc | hc
      · exact h f (by simp) c hc
      · rw [hc]; decide
      · exact ih (fun x hx => h x (by simp [hx])) c hc

theorem build_entry_loop_eq (row : Row) (selected_cols : List Nat) :
    ∀ (acc : Entry), (∀ c ∈ acc, c ≠ 0) →
      build_entry_loop row selected_cols acc
        = acc ++ join_levels (key_strings row selected_cols) := by
  induction selected_cols with
  | nil => intro acc hacc; simp [build_entry_loop, key_strings, join_levels]
  | cons k ks ih =>
    intro acc hacc
    have h1 : strcat acc (field_at row k) = acc ++ cstr (field_at row k) := by
      simp [strcat, cstr_of_nonzero acc hacc]
    have hz1 : ∀ c ∈ acc ++ cstr (field_at row k), c ≠ 0 := by
      intro c hc
      rcases List.mem_append.1 hc with h | h
      · exact hacc c h
      · exact cstr_nonzero _ c h
    cases ks with
    | nil =>
      simp only [build_entry_loop, h1, ne_eq, not_true_eq_false, if_false]
      simp [key_strings, join_levels]
    | cons k2 ks =>
      have hne : (k2 :: ks) ≠ [] := by simp
      have h2 : strcat (acc ++ cstr (field_at row k)) [DELIMITER]
          = acc ++ cstr (field_at row k) ++ [DELIMITER] := by
        simp [strcat, cstr_of_nonzero _ hz1, cstr, DELIMITER]
      rw [build_entry_loop, h1]
      simp only [hne, ne_eq, not_false_eq_true, if_true, h2]
      rw [ih]
      · simp [key_strings, join_levels]
      · intro c hc
        rcases List.mem_append.1 hc with h | h
        · exact hz1 c h
        · simp at h; rw [h]; decide

theorem build_entry_eq (row : Row) (selected_cols : List Nat) :
    build_entry row selected_cols = join_levels (key_strings row selected_cols) := by
  have h := build_entry_loop_eq row selected_cols [] (by simp)
  simpa [build_entry, strcpy, cstr] using h

theorem build_entry_nonzero (row : Row) (selected_cols : List Nat) :
    ∀ c ∈ build_entry row selected_cols, c ≠ 0 := by
  rw [build_entry_eq]
  exact join_levels_nonzero _ (key_strings_nonzero row selected_cols)

theorem append_delimiter_inj (a : List Nat) :
    ∀ (a' s s' : List Nat), DELIMITER ∉ a → DELIMITER ∉ a' →
      a ++ DELIMITER :: s = a' ++ DELIMITER :: s' → a = a' ∧ s = s' := by
  induction a with
  | nil =>
    intro a' s s' h1 h2 heq
    cases a' with
    | nil => simpa using heq
    | cons y ys =>
      simp only [List.nil_append, List.cons_append, List.cons.injEq] at heq
      exact absurd (by rw [← heq.1]; simp) h2
  | cons x xs ih =>
    intro a' s s' h1 h2 heq
    cases a' with
    | nil =>
      simp only [List.nil_append, List.cons_append, List.cons.injEq] at heq
      exact absurd (by rw [heq.1]; simp) h1
    | cons y ys =>
      simp only [List.cons_append, List.cons.injEq] at heq
      have h := ih ys s s' (fun h => h1 (by simp [h])) (fun h => h2 (by simp [h])) heq.2
      exact ⟨by rw [heq.1, h.1], h.2⟩

theorem join_levels_inj (xs : List Field) :
    ∀ (ys : List Field), xs.length = ys.length → (∀ f ∈ xs, DELIMITER ∉ f) →
      (∀ f ∈ ys, DELIMITER ∉ f) → join_levels xs = join_levels ys → xs = ys := by
  induction xs with
  | nil =>
    intro ys hlen _ _ _
    cases ys with
    | nil => rfl
    | cons y ys => simp at hlen
  | cons f l ih =>
    intro ys hlen hx hy heq
    cases ys with
    | nil => simp at hlen
    | cons f' l' =>
      cases l with
      | nil =>
        cases l' with
        | nil => simpa [join_levels] using heq
        | cons g' l' => simp at hlen
      | cons g l =>
        cases l' with
        | nil => simp at hlen
        | cons g' l' =>
          simp only [join_levels] at heq
          have h := append_delimiter_inj f f' _ _ (hx f (by simp)) (hy f' (by simp)) heq
          have h2 := ih (g' :: l') (by simpa using hlen) (fun x hx' => hx x (by simp [hx']))
            (fun x hx' => hy x (by simp [hx'])) h.2
          rw [h.1, h2]

theorem same_keys_iff (keys : List Nat) (a b : Row) :
    same_keys keys a b = true ↔ key_strings a keys = key_strings b keys := by
  induction keys with
  | nil => simp [same_keys, key_strings]
  | cons k ks ih =>
    simp only [same_keys, key_strings, List.all_cons, Bool.and_eq_true, decide_eq_true_eq,
      List.map_cons, List.cons.injEq] at ih ⊢
    rw [ih]

/-- The entry is a faithful key when the delimiter is absent from the selected
fields: two rows have the same entry exactly when `rowcmp` finds them equal. -/
theorem build_entry_eq_iff (keys : List Nat) (a b : Row)
    (ha : ∀ k ∈ keys, DELIMITER ∉ cstr (field_at a k))
    (hb : ∀ k ∈ keys, DELIMITER ∉ cstr (field_at b k)) :
    build_entry a keys = build_entry b keys ↔ rowcmp a b keys = 0 := by
  rw [rowcmp_eq_zero_iff, same_keys_iff, build_entry_eq, build_entry_eq]
  constructor
  · intro h
    refine join_levels_inj _ _ (by simp [key_strings]) ?_ ?_ h
    · intro f hf
      simp only [key_strings, List.mem_map] at hf
      obtain ⟨k, hk, rfl⟩ := hf
      exact ha k hk
    · intro f hf
      simp only [key_strings, List.mem_map] at hf
      obtain ⟨k, hk, rfl⟩ := hf
      exact hb k hk
  · intro h
    rw [h]


/-! ## The grouping loop as a scan of the entries -/

theorem do_stage3_loop_foldl (input : Table) (selected_cols : List Nat) (row_count : Nat)
    (hrows : row_count ≤ input.length) (fuel : Nat) :
    ∀ (i : Nat) (st : Stage3State), row_count - i ≤ fuel →
      do_stage3_loop input selected_cols row_count fuel i st
        = (((input.take row_count).drop i).map (fun r => build_entry r selected_cols)).foldl
            do_stage3_step st := by
  induction fuel with
  | zero =>
    intro i st hfuel
    have h0 : (input.take row_count).drop i = [] := by
      apply List.drop_of_length_le
      simp only [List.length_take]
      omega
    simp [do_stage3_loop, h0]
  | succ fuel ih =>
    intro i st hfuel
    simp only [do_stage3_loop]
    by_cases hlt : i < row_count
    · have hlen : i < (input.take row_count).length := by
        simp only [List.length_take]
        omega
      have hdrop : (input.take row_count).drop i
          = row_at input i :: (input.take row_count).drop (i + 1) := by
        rw [List.drop_eq_getElem_cons hlen]
        congr 1
        simp only [row_at, List.getD_eq_getElem?_getD, List.getElem_take]
        rw [List.getElem?_eq_getElem (by omega)]
        simp
      simp only [hlt, if_true]
      rw [ih (i + 1) _ (by omega), hdrop]
      simp
    · have h0 : (input.take row_count).drop i = [] := by
        apply List.drop_of_length_le
        simp only [List.length_take]
        omega
      simp [hlt, h0]

theorem scan_lengths (xs : List Entry) :
    ∀ (st : Stage3State),
      (xs.foldl do_stage3_step st).entries.length = st.entries.length
        ∧ (xs.foldl do_stage3_step st).appearances.length = st.appearances.length
        ∧ st.index ≤ (xs.foldl do_stage3_step st).index := by
  induction xs with
  | nil => intro st; simp
  | cons x xs ih =>
    intro st
    obtain ⟨a, b, c⟩ := ih (do_stage3_step st x)
    obtain ⟨a', b', c'⟩ := do_stage3_step_lengths st x
    simp only [List.foldl_cons]
    exact ⟨by rw [a, a'], by rw [b, b'], by omega⟩

theorem strcmp_nonempty (p : Entry) (hz : ∀ c ∈ p, c ≠ 0) (hne : p ≠ []) :
    strcmp p [] ≠ 0 := by
  intro h
  have := (strcmp_eq_zero_iff p []).1 h
  rw [cstr_of_nonzero p hz] at this
  simp [cstr] at this
  exact hne this

theorem strcmp_ne_iff (x p : Entry) (hx : ∀ c ∈ x, c ≠ 0) (hp : ∀ c ∈ p, c ≠ 0) :
    strcmp x p ≠ 0 ↔ x ≠ p := by
  rw [ne_eq, strcmp_eq_zero_iff, cstr_of_nonzero x hx, cstr_of_nonzero p hp]

theorem scan_run_lengths (xs : List Entry) :
    ∀ (st : Stage3State), (∀ c ∈ st.previous_entry, c ≠ 0) → st.previous_entry ≠ [] →
      (∀ x ∈ xs, (∀ c ∈ x, c ≠ 0) ∧ x ≠ []) →
      st.appearances.length ≤ st.entries.length →
      (store_entry (xs.foldl do_stage3_step st)).index ≤ st.appearances.length →
      entry_groups (store_entry (xs.foldl do_stage3_step st))
        = entry_groups st ++ run_lengths st.previous_entry st.count xs := by
  induction xs with
  | nil =>
    intro st hz hne hxs hlen hcap
    simp only [List.foldl_nil] at hcap ⊢
    have hidx : st.index < st.appearances.length := hcap
    rw [store_entry_groups st (by omega) hidx]
    simp [run_lengths]
  | cons x xs ih =>
    intro st hz hne hxs hlen hcap
    simp only [List.foldl_cons] at hcap ⊢
    have hx := hxs x (by simp)
    have hs : strcpy x = x := cstr_of_nonzero x hx.1
    obtain ⟨l1, l2, l3⟩ := scan_lengths xs (do_stage3_step st x)
    obtain ⟨m1, m2, m3⟩ := do_stage3_step_lengths st x
    have hfin : (xs.foldl do_stage3_step (do_stage3_step st x)).index
        < st.appearances.length := hcap
    by_cases hxp : x = st.previous_entry
    · have hc : ¬ (strcmp st.previous_entry [] ≠ 0 ∧ strcmp x st.previous_entry ≠ 0) := by
        intro h
        exact (strcmp_ne_iff x _ hx.1 hz).1 h.2 hxp
      rw [do_stage3_step_keep st x hc] at hcap l3 ⊢
      have hih := ih { st with previous_entry := strcpy x, count := st.count + 1 }
        (by rw [hs]; exact hx.1) (by rw [hs]; exact hx.2)
        (fun y hy => hxs y (by simp [hy])) hlen hcap
      rw [hih]
      have hs2 : strcpy st.previous_entry = st.previous_entry := by rw [← hxp]; exact hs
      simp only [run_lengths, hxp, if_true, hs2]
      rfl
    · have hc : strcmp st.previous_entry [] ≠ 0 ∧ strcmp x st.previous_entry ≠ 0 :=
        ⟨strcmp_nonempty _ hz hne, (strcmp_ne_iff x _ hx.1 hz).2 hxp⟩
      rw [do_stage3_step_store st x hc] at hcap l3 ⊢
      simp only [] at l3
      have hih := ih
        { previous_entry := strcpy x
          entries := st.entries.set st.index st.previous_entry
          appearances := st.appearances.set st.index st.count
          index := st.index + 1
          count := 1
          longest_entry_len := int_max st.longest_entry_len (entry_len st.previous_entry) }
        (by rw [hs]; exact hx.1) (by rw [hs]; exact hx.2)
        (fun y hy => hxs y (by simp [hy])) (by simpa using hlen) (by simpa using hcap)
      rw [hih]
      have hg := store_entry_groups st (by simp only [store_entry] at hcap; omega)
        (by simp only [store_entry] at hcap; omega)
      simp only [entry_groups, store_entry] at hg ⊢
      rw [hg]
      simp [run_lengths, hxp, hs]


theorem scan_count_pos (xs : List Entry) :
    ∀ (st : Stage3State), 1 ≤ st.count → 1 ≤ (xs.foldl do_stage3_step st).count := by
  induction xs with
  | nil => intro st h; simpa using h
  | cons x xs ih =>
    intro st h
    simp only [List.foldl_cons]
    apply ih
    by_cases hc : strcmp st.previous_entry [] ≠ 0 ∧ strcmp x st.previous_entry ≠ 0
    · rw [do_stage3_step_store st x hc]
    · rw [do_stage3_step_keep st x hc]
      simp

theorem take_eq_cons_data_rows (input : Table) (row_count : Nat) (h1 : 1 ≤ row_count)
    (hrows : row_count ≤ input.length) :
    input.take row_count = row_at input 0 :: data_rows input row_count := by
  cases input with
  | nil => simp at hrows; omega
  | cons h rest =>
    obtain ⟨n, rfl⟩ : ∃ n, row_count = n + 1 := ⟨row_count - 1, by omega⟩
    simp [data_rows, row_at]

theorem do_stage3_groups_eq (input : Table) (selected_cols : List Nat)
    (row_count col_count : Nat) (h1 : 1 ≤ row_count) (hrows : row_count ≤ input.length)
    (hne : ∀ r ∈ input.take row_count, build_entry r selected_cols ≠ [])
    (hcap : (do_stage3 input selected_cols row_count col_count).index ≤ MAXFIELDLEN) :
    entry_groups (do_stage3 input selected_cols row_count col_count)
      = run_lengths (build_entry (row_at input 0) selected_cols) 1
          ((data_rows input row_count).map (fun r => build_entry r selected_cols)) := by
  have hloop := do_stage3_loop_foldl input selected_cols row_count hrows row_count 0
    { previous_entry := [], entries := List.replicate MAXLINES [],
      appearances := List.replicate MAXFIELDLEN 0, index := 0, count := 0,
      longest_entry_len := 0 } (by omega)
  rw [List.drop_zero, take_eq_cons_data_rows input row_count h1 hrows] at hloop
  simp only [List.map_cons, List.foldl_cons] at hloop
  have hc0 : ¬ (strcmp ([] : Entry) [] ≠ 0
      ∧ strcmp (build_entry (row_at input 0) selected_cols) [] ≠ 0) := by
    simp [strcmp]
  rw [do_stage3_step_keep _ _ hc0] at hloop
  simp only [] at hloop
  have hH0 : row_at input 0 ∈ input.take row_count := by
    rw [take_eq_cons_data_rows input row_count h1 hrows]
    simp
  have hs : strcpy (build_entry (row_at input 0) selected_cols)
      = build_entry (row_at input 0) selected_cols :=
    cstr_of_nonzero _ (build_entry_nonzero _ _)
  rw [hs] at hloop
  have hpos := scan_count_pos
    ((data_rows input row_count).map (fun r => build_entry r selected_cols))
    { previous_entry := build_entry (row_at input 0) selected_cols,
      entries := List.replicate MAXLINES [],
      appearances := List.replicate MAXFIELDLEN 0, index := 0, count := 0 + 1,
      longest_entry_len := 0 } (by simp)
  have hgt : (List.foldl do_stage3_step
      { previous_entry := build_entry (row_at input 0) selected_cols,
        entries := List.replicate MAXLINES [],
        appearances := List.replicate MAXFIELDLEN 0, index := 0, count := 0 + 1,
        longest_entry_len := 0 }
      ((data_rows input row_count).map (fun r => build_entry r selected_cols))).count > 0 :=
    hpos
  unfold do_stage3 at hcap ⊢
  simp only [] at hcap ⊢
  rw [hloop] at hcap ⊢
  rw [if_pos hgt] at hcap ⊢
  have hrl := scan_run_lengths
    ((data_rows input row_count).map (fun r => build_entry r selected_cols))
    { previous_entry := build_entry (row_at input 0) selected_cols,
      entries := List.replicate MAXLINES [],
      appearances := List.replicate MAXFIELDLEN 0, index := 0, count := 0 + 1,
      longest_entry_len := 0 }
    (build_entry_nonzero _ _) (hne _ hH0)
    (by
      intro x hx
      simp only [List.mem_map] at hx
      obtain ⟨r, hr, rfl⟩ := hx
      refine ⟨build_entry_nonzero _ _, hne r ?_⟩
      rw [take_eq_cons_data_rows input row_count h1 hrows]
      simp [hr])
    (by simp; decide)
    (by simpa using hcap)
  rw [hrl]
  simp [entry_groups]

/-! ## Run lengths of sorted rows -/

theorem run_lengths_sorted (keys : List Nat) (rs : List Row) :
    ∀ (r : Row) (c : Nat),
      List.Pairwise (fun a b => rowcmp a b keys ≤ 0) (r :: rs) →
      (∀ a ∈ r :: rs, ∀ k ∈ keys, DELIMITER ∉ cstr (field_at a k)) →
      ((run_lengths (build_entry r keys) c (rs.map (fun x => build_entry x keys))).map
          Prod.fst).Nodup
        ∧ (∀ e, e ∈ (run_lengths (build_entry r keys) c
              (rs.map (fun x => build_entry x keys))).map Prod.fst
            ↔ e = build_entry r keys ∨ ∃ x ∈ rs, build_entry x keys = e)
        ∧ (∀ g ∈ run_lengths (build_entry r keys) c (rs.map (fun x => build_entry x keys)),
            g.2 = (if g.1 = build_entry r keys then c else 0)
              + rs.countP (fun x => decide (build_entry x keys = g.1))) := by
  induction rs with
  | nil =>
    intro r c hp hd
    simp [run_lengths]
  | cons x xs ih =>
    intro r c hp hd
    have hpx : List.Pairwise (fun a b => rowcmp a b keys ≤ 0) (x :: xs) :=
      (List.pairwise_cons.1 hp).2
    have hdx : ∀ a ∈ x :: xs, ∀ k ∈ keys, DELIMITER ∉ cstr (field_at a k) :=
      fun a ha => hd a (by simp [List.mem_cons.1 ha])
    have hrx : rowcmp r x keys ≤ 0 := (List.pairwise_cons.1 hp).1 x (by simp)
    simp only [List.map_cons, run_lengths]
    by_cases hxr : build_entry x keys = build_entry r keys
    · simp only [hxr, if_true]
      obtain ⟨i1, i2, i3⟩ := ih x (c + 1) hpx hdx
      rw [hxr] at i1 i2 i3
      refine ⟨i1, ?_, ?_⟩
      · intro e
        rw [i2 e]
        constructor
        · rintro (h | ⟨y, hy, h⟩)
          · exact Or.inl h
          · exact Or.inr ⟨y, by simp [hy], h⟩
        · rintro (h | ⟨y, hy, h⟩)
          · exact Or.inl h
          · rcases List.mem_cons.1 hy with hyx | hyx
            · left; rw [← h, hyx, hxr]
            · exact Or.inr ⟨y, hyx, h⟩
      · intro g hg
        rw [i3 g hg, List.countP_cons]
        by_cases hge : g.1 = build_entry r keys
        · simp [hge, hxr]
          omega
        · have hge2 : ¬ build_entry r keys = g.1 := fun h => hge h.symm
          simp [hge, hxr, hge2]
    · simp only [hxr, if_false]
      obtain ⟨i1, i2, i3⟩ := ih x 1 hpx hdx
      have hnot : ∀ y ∈ x :: xs, build_entry y keys ≠ build_entry r keys := by
        intro y hy hyr
        have hry : rowcmp r y keys ≤ 0 := (List.pairwise_cons.1 hp).1 y hy
        have hyr0 : rowcmp y r keys = 0 :=
          (build_entry_eq_iff keys y r (hd y (by simp [List.mem_cons.1 hy]))
            (hd r (by simp))).1 hyr
        have hxy : rowcmp x y keys ≤ 0 := by
          rcases List.mem_cons.1 hy with h | h
          · rw [h, rowcmp_self]
          · exact (List.pairwise_cons.1 hpx).1 y h
        have hxr2 : rowcmp x r keys ≤ 0 := rowcmp_trans keys x y r hxy (by omega)
        have hneg := rowcmp_neg keys r x
        have hxr0 : rowcmp x r keys = 0 := by omega
        exact hxr ((build_entry_eq_iff keys x r (hd x (by simp)) (hd r (by simp))).2 hxr0)
      have hrnot : build_entry r keys ∉ (run_lengths (build_entry x keys) 1
          (xs.map (fun x => build_entry x keys))).map Prod.fst := by
        intro hmem
        rcases (i2 _).1 hmem with h | ⟨y, hy, h⟩
        · exact hnot x (by simp) h.symm
        · exact hnot y (by simp [hy]) h
      refine ⟨?_, ?_, ?_⟩
      · simp only [List.map_cons, List.nodup_cons]
        exact ⟨hrnot, i1⟩
      · intro e
        simp only [List.map_cons, List.mem_cons]
        rw [i2 e]
        constructor
        · rintro (h | h | ⟨y, hy, h⟩)
          · exact Or.inl h
          · exact Or.inr ⟨x, by simp, h.symm⟩
          · exact Or.inr ⟨y, by simp [hy], h⟩
        · rintro (h | ⟨y, hy, h⟩)
          · exact Or.inl h
          · rcases hy with hyx | hyx
            · right; left; rw [← h, hyx]
            · exact Or.inr (Or.inr ⟨y, hyx, h⟩)
      · intro g hg
        rcases List.mem_cons.1 hg with hg | hg
        · rw [hg]
          have hzero : (x :: xs).countP (fun y => decide (build_entry y keys = build_entry r keys))
              = 0 := by
            rw [List.countP_eq_zero]
            intro y hy
            simpa using hnot y hy
          simp only [if_true]
          rw [hzero]
          omega
        · have hgm : g.1 ∈ (run_lengths (build_entry x keys) 1
              (xs.map (fun x => build_entry x keys))).map Prod.fst :=
            List.mem_map.2 ⟨g, hg, rfl⟩
          have hgr : ¬ g.1 = build_entry r keys := fun h => hrnot (h ▸ hgm)
          rw [i3 g hg, List.countP_cons]
          simp only [hgr, if_false]
          by_cases hgx : g.1 = build_entry x keys
          · simp [hgx]
            omega
          · have hgx2 : ¬ build_entry x keys = g.1 := fun h => hgx h.symm
            simp [hgx, hgx2]


/-! ## Stage 3: the claim about grouping the sorted rows -/

theorem insertion_sort_row_zero (input : Table) (row_count col_count : Nat)
    (keys : List Nat) :
    row_at (insertion_sort input row_count col_count keys) 0 = row_at input 0 := by
  cases input with
  | nil => simp [insertion_sort, insertion_sort_outer_nil, row_at]
  | cons h0 t =>
    simp only [insertion_sort]
    rw [insertion_sort_outer_cons keys row_count row_count 1 t h0 h0]
    simp [row_at]

theorem sorted_groups_aux (input : Table) (selected_cols : List Nat)
    (row_count col_count : Nat) (h1 : 1 ≤ row_count) (hrows : row_count ≤ input.length)
    (hdelim : ∀ r ∈ data_rows input row_count, ∀ k ∈ selected_cols,
      DELIMITER ∉ cstr (field_at r k))
    (hnonempty : ∀ r ∈ input.take row_count, build_entry r selected_cols ≠ [])
    (hheader : ∀ r ∈ data_rows input row_count,
      build_entry r selected_cols ≠ build_entry (row_at input 0) selected_cols)
    (hcap : (do_stage3 (insertion_sort input row_count col_count selected_cols)
      selected_cols row_count col_count).index ≤ MAXFIELDLEN) :
    (entry_groups (do_stage3 (insertion_sort input row_count col_count selected_cols)
        selected_cols row_count col_count)).head?
        = some (build_entry (row_at input 0) selected_cols, 1)
      ∧ ((entry_groups (do_stage3 (insertion_sort input row_count col_count selected_cols)
          selected_cols row_count col_count)).tail.map Prod.fst).Nodup
      ∧ (∀ r ∈ data_rows input row_count,
          build_entry r selected_cols
            ∈ (entry_groups (do_stage3 (insertion_sort input row_count col_count selected_cols)
                selected_cols row_count col_count)).tail.map Prod.fst)
      ∧ (∀ g ∈ (entry_groups (do_stage3 (insertion_sort input row_count col_count
              selected_cols) selected_cols row_count col_count)).tail,
          1 ≤ g.2 ∧ g.2 = (data_rows input row_count).countP
            (fun r => decide (build_entry r selected_cols = g.1))) := by
  have hlenT := insertion_sort_length selected_cols input row_count col_count hrows
  have hrowsT : row_count ≤ (insertion_sort input row_count col_count selected_cols).length := by
    rw [hlenT]; exact hrows
  have hrow0 := insertion_sort_row_zero input row_count col_count selected_cols
  have hdata := data_rows_insertion_sort selected_cols input row_count col_count hrows
  have hperm := sorted_back_perm selected_cols (data_rows input row_count)
  have hpair := sorted_back_pairwise selected_cols (data_rows input row_count)
  have htake := take_eq_cons_data_rows input row_count h1 hrows
  have htakeT := take_eq_cons_data_rows _ row_count h1 hrowsT
  have hmem : ∀ r, r ∈ (sorted_back selected_cols (data_rows input row_count)).reverse
      ↔ r ∈ data_rows input row_count := fun r => hperm.mem_iff
  have hg := do_stage3_groups_eq (insertion_sort input row_count col_count selected_cols)
    selected_cols row_count col_count h1 hrowsT
    (by
      intro r hr
      rw [htakeT, hrow0, hdata] at hr
      apply hnonempty r
      rw [htake]
      rcases List.mem_cons.1 hr with h | h
      · simp [h]
      · simp [(hmem r).1 h])
    hcap
  rw [hrow0, hdata] at hg
  rw [hg]
  have hcount : ∀ e : Entry,
      (sorted_back selected_cols (data_rows input row_count)).reverse.countP
          (fun r => decide (build_entry r selected_cols = e))
        = (data_rows input row_count).countP
          (fun r => decide (build_entry r selected_cols = e)) :=
    fun e => hperm.countP_eq _
  generalize hS : (sorted_back selected_cols (data_rows input row_count)).reverse = S
    at hperm hpair hmem hcount hg
  cases S with
  | nil =>
    have hnil : data_rows input row_count = [] := List.Perm.eq_nil hperm.symm
    simp [run_lengths, hnil]
  | cons x xs =>
    have hxH : ¬ build_entry x selected_cols = build_entry (row_at input 0) selected_cols :=
      hheader x ((hmem x).1 (by simp))
    obtain ⟨i1, i2, i3⟩ := run_lengths_sorted selected_cols xs x 1 hpair
      (fun a ha => hdelim a ((hmem a).1 ha))
    simp only [List.map_cons, run_lengths, hxH, if_false, List.head?_cons, List.tail_cons]
    refine ⟨trivial, i1, ?_, ?_⟩
    · intro r hr
      rw [i2]
      rcases List.mem_cons.1 ((hmem r).2 hr) with h | h
      · left; rw [h]
      · exact Or.inr ⟨r, h, rfl⟩
    · intro g hgm
      have hval := i3 g hgm
      have hc := hcount g.1
      rw [List.countP_cons] at hc
      have hin : g.1 ∈ (run_lengths (build_entry x selected_cols) 1
          (xs.map (fun x => build_entry x selected_cols))).map Prod.fst :=
        List.mem_map.2 ⟨g, hgm, rfl⟩
      by_cases hgx : g.1 = build_entry x selected_cols
      · have hgx2 : build_entry x selected_cols = g.1 := hgx.symm
        simp only [hgx2, if_true, decide_True] at hval hc
        omega
      · have hgx2 : ¬ build_entry x selected_cols = g.1 := fun h => hgx h.symm
        simp only [hgx, if_false, Nat.zero_add] at hval
        simp only [hgx2, decide_False, Bool.false_eq_true, if_false, Nat.add_zero] at hc
        have hpos : 0 < xs.countP (fun r => decide (build_entry r selected_cols = g.1)) := by
          rw [List.countP_pos_iff]
          rcases (i2 g.1).1 hin with h | ⟨y, hy, h⟩
          · exact absurd h hgx
          · exact ⟨y, hy, by simpa using h⟩
        omega

/-- C8 (counterexample): three tables, sorted and grouped on the selected
columns, whose groups are not one per distinct composite entry of the data
rows with the number of those rows as count.  (1) Header `x`, data row `x`:
the one group `x` has count 2, and one data row has that entry.  (2) Header
`h`, data rows with the empty field and `a`: no group for the empty entry, and
the group `a` has count 2.  (3) Columns 0 and 1, data rows `(a~b, c)`,
`(a!, z)`, `(a, b~c)`: the entry `a~b~c` has two groups. -/
theorem do_stage3_sorted_groups_counterexample :
    entry_groups (do_stage3 (insertion_sort [[[120]], [[120]]] 2 1 [0]) [0] 2 1)
        = [([120], 2)]
      ∧ (data_rows [[[120]], [[120]]] 2).countP (fun r => decide (build_entry r [0] = [120]))
        = 1
      ∧ entry_groups (do_stage3 (insertion_sort [[[104]], [[]], [[97]]] 3 1 [0]) [0] 3 1)
        = [([104], 1), ([97], 2)]
      ∧ (data_rows [[[104]], [[]], [[97]]] 3).countP (fun r => decide (build_entry r [0] = [97]))
        = 1
      ∧ entry_groups (do_stage3 (insertion_sort
          [[[104], [104]], [[97, 126, 98], [99]], [[97, 33], [122]], [[97], [98, 126, 99]]]
          4 2 [0, 1]) [0, 1] 4 2)
        = [([104, 126, 104], 1), ([97, 126, 98, 126, 99], 1), ([97, 33, 126, 122], 1),
            ([97, 126, 98, 126, 99], 1)] := by
  refine ⟨by rfl, by rfl, by rfl, by rfl, by rfl⟩

/-- C8 (amended): for every table with a header and every non-empty list of
selected columns such that no selected field of a data row holds the
delimiter, no scanned row has the empty entry, the entry of the header differs
from the entry of every data row, and at most `MAXFIELDLEN` groups are stored:
after the data rows are sorted by those columns with `insertion_sort`, the
first group of `do_stage3` is the header entry with count 1, and the groups
after it are exactly one per distinct entry of the data rows (they are
pairwise distinct and every data row's entry is among them), each with the
number of data rows having that entry as its count. -/
theorem do_stage3_sorted_groups (input : Table) (selected_cols : List Nat)
    (row_count col_count : Nat) (hcols : selected_cols ≠ []) (h1 : 1 ≤ row_count)
    (hrows : row_count ≤ input.length)
    (hdelim : ∀ r ∈ data_rows input row_count, ∀ k ∈ selected_cols,
      DELIMITER ∉ cstr (field_at r k))
    (hnonempty : ∀ r ∈ input.take row_count, build_entry r selected_cols ≠ [])
    (hheader : ∀ r ∈ data_rows input row_count,
      build_entry r selected_cols ≠ build_entry (row_at input 0) selected_cols)
    (hcap : (do_stage3 (insertion_sort input row_count col_count selected_cols)
      selected_cols row_count col_count).index ≤ MAXFIELDLEN) :
    (entry_groups (do_stage3 (insertion_sort input row_count col_count selected_cols)
        selected_cols row_count col_count)).head?
        = some (build_entry (row_at input 0) selected_cols, 1)
      ∧ ((entry_groups (do_stage3 (insertion_sort input row_count col_count selected_cols)
          selected_cols row_count col_count)).tail.map Prod.fst).Nodup
      ∧ (∀ r ∈ data_rows input row_count,
          build_entry r selected_cols
            ∈ (entry_groups (do_stage3 (insertion_sort input row_count col_count selected_cols)
                selected_cols row_count col_count)).tail.map Prod.fst)
      ∧ (∀ g ∈ (entry_groups (do_stage3 (insertion_sort input row_count col_count
              selected_cols) selected_cols row_count col_count)).tail,
          1 ≤ g.2 ∧ g.2 = (data_rows input row_count).countP
            (fun r => decide (build_entry r selected_cols = g.1))) :=
  sorted_groups_aux input selected_cols row_count col_count h1 hrows hdelim hnonempty
    hheader hcap


/-- C8 (witness): header `(Y, M)` and the data rows `(2, T)`, `(2, H)`,
`(4, T)`, grouped on column 1. -/
theorem do_stage3_sorted_groups_witness :
    (entry_groups (do_stage3 (insertion_sort
        [[[89], [77]], [[50], [84]], [[50], [72]], [[52], [84]]] 4 2 [1]) [1] 4 2)).head?
        = some (build_entry (row_at [[[89], [77]], [[50], [84]], [[50], [72]], [[52], [84]]] 0)
            [1], 1)
      ∧ ((entry_groups (do_stage3 (insertion_sort
          [[[89], [77]], [[50], [84]], [[50], [72]], [[52], [84]]] 4 2 [1]) [1] 4 2)).tail.map
          Prod.fst).Nodup
      ∧ (∀ r ∈ data_rows [[[89], [77]], [[50], [84]], [[50], [72]], [[52], [84]]] 4,
          build_entry r [1]
            ∈ (entry_groups (do_stage3 (insertion_sort
                [[[89], [77]], [[50], [84]], [[50], [72]], [[52], [84]]] 4 2 [1])
                [1] 4 2)).tail.map Prod.fst)
      ∧ (∀ g ∈ (entry_groups (do_stage3 (insertion_sort
              [[[89], [77]], [[50], [84]], [[50], [72]], [[52], [84]]] 4 2 [1]) [1] 4 2)).tail,
          1 ≤ g.2 ∧ g.2 = (data_rows [[[89], [77]], [[50], [84]], [[50], [72]], [[52], [84]]]
            4).countP (fun r => decide (build_entry r [1] = g.1))) :=
  do_stage3_sorted_groups [[[89], [77]], [[50], [84]], [[50], [72]], [[52], [84]]] [1] 4 2
    (by decide) (by decide) (by decide) (by decide) (by decide) (by decide) (by decide)


/-! ## Rendering of an entry, level by level -/

theorem print_loop_chars (w : List Nat) (hw : ∀ c ∈ w, c ≠ 0 ∧ c ≠ DELIMITER) :
    ∀ (rest : List Nat) (d : Nat) (cur : Field) (printed : Row) (out : List Nat),
      print_tabulated_entry_loop (w ++ rest) d cur printed out
        = print_tabulated_entry_loop rest d (cur ++ w) printed out := by
  induction w with
  | nil => intro rest d cur printed out; simp
  | cons c w ih =>
    intro rest d cur printed out
    have hc := hw c (by simp)
    have h0 : ¬ c = 0 := hc.1
    have h1 : ¬ c = DELIMITER := hc.2
    rw [List.cons_append, print_tabulated_entry_loop]
    simp only [h0, h1, if_false]
    rw [ih (fun x hx => hw x (by simp [hx]))]
    simp

theorem print_loop_delimiter (rest : List Nat) (d : Nat) (cur : Field) (printed : Row)
    (out : List Nat) :
    print_tabulated_entry_loop (DELIMITER :: rest) d cur printed out
      = if strcmp cur (field_at printed d) = 0 then
          print_tabulated_entry_loop rest (d + 1) [] printed out
        else
          print_tabulated_entry_loop rest (d + 1) [] (printed.set d cur)
            (out ++ tab_line d cur) := by
  have h0 : ¬ DELIMITER = 0 := by decide
  rw [print_tabulated_entry_loop]
  simp only [h0, if_false, if_true]

theorem print_loop_render (levels : List Field)
    (hl : ∀ f ∈ levels, ∀ c ∈ f, c ≠ 0 ∧ c ≠ DELIMITER) :
    ∀ (d : Nat) (printed : Row) (out : List Nat),
      print_tabulated_entry_loop (join_levels levels) d [] printed out
        = render_levels levels d printed out := by
  induction levels with
  | nil => intro d printed out; simp [join_levels, print_tabulated_entry_loop, render_levels]
  | cons f l ih =>
    intro d printed out
    cases l with
    | nil =>
      have h := print_loop_chars f (hl f (by simp)) [] d [] printed out
      simp only [List.append_nil, List.nil_append] at h
      simp only [join_levels, render_levels, h, print_tabulated_entry_loop]
    | cons g l =>
      have h := print_loop_chars f (hl f (by simp)) (DELIMITER :: join_levels (g :: l)) d []
        printed out
      simp only [List.nil_append] at h
      simp only [join_levels, render_levels]
      rw [h, print_loop_delimiter]
      rw [ih (fun x hx => hl x (by simp [hx])), ih (fun x hx => hl x (by simp [hx]))]

theorem getD_set_ne (row : Row) (i j : Nat) (f : Field) (h : i ≠ j) :
    (row.set i f).getD j [] = row.getD j [] := by
  simp only [List.getD_eq_getElem?_getD]
  rw [List.getElem?_set_ne h]

theorem getD_set_self (row : Row) (i : Nat) (f : Field) (h : i < row.length) :
    (row.set i f).getD i [] = f := by
  simp only [List.getD_eq_getElem?_getD]
  rw [List.getElem?_set_self h]
  simp

theorem render_levels_state (levels : List Field) :
    ∀ (d : Nat) (printed : Row) (out : List Nat), levels ≠ [] →
      d + levels.length ≤ printed.length →
      (render_levels levels d printed out).2.length = printed.length
        ∧ (∀ j, j < d → (render_levels levels d printed out).2.getD j [] = printed.getD j [])
        ∧ (∀ j, j < levels.length →
            cstr ((render_levels levels d printed out).2.getD (d + j) [])
              = cstr (levels.getD j [])) := by
  induction levels with
  | nil => intro d printed out hne; exact absurd rfl hne
  | cons f l ih =>
    intro d printed out _ hlen
    cases l with
    | nil =>
      simp only [List.length_singleton] at hlen
      refine ⟨by simp [render_levels], ?_, ?_⟩
      · intro j hj
        simp only [render_levels]
        exact getD_set_ne _ _ _ _ (by omega)
      · intro j hj
        have hj0 : j = 0 := by simpa using hj
        subst hj0
        simp only [render_levels, Nat.add_zero, List.getD_cons_zero]
        rw [getD_set_self _ _ _ (by omega)]
    | cons g l =>
      simp only [List.length_cons] at hlen
      by_cases hc : strcmp f (field_at printed d) = 0
      · obtain ⟨a1, a2, a3⟩ := ih (d + 1) printed out (by simp) (by simp; omega)
        simp only [render_levels, hc, if_true]
        refine ⟨a1, fun j hj => a2 j (by omega), ?_⟩
        intro j hj
        cases j with
        | zero =>
          have e0 : d + 0 = d := rfl
          rw [e0, a2 d (by omega), List.getD_cons_zero]
          exact ((strcmp_eq_zero_iff _ _).1 hc).symm
        | succ j =>
          have h := a3 j (by simpa using hj)
          have e : d + (j + 1) = d + 1 + j := by omega
          rw [e, h]
          simp [List.getD_cons_succ]
      · obtain ⟨a1, a2, a3⟩ := ih (d + 1) (printed.set d f) (out ++ tab_line d f) (by simp)
          (by simp; omega)
        simp only [render_levels, hc, if_false]
        refine ⟨by rw [a1]; simp, ?_, ?_⟩
        · intro j hj
          rw [a2 j (by omega)]
          exact getD_set_ne _ _ _ _ (by omega)
        · intro j hj
          cases j with
          | zero =>
            have e0 : d + 0 = d := rfl
            rw [e0, a2 d (by omega), List.getD_cons_zero, getD_set_self _ _ _ (by omega)]
          | succ j =>
            have h := a3 j (by simpa using hj)
            have e : d + (j + 1) = d + 1 + j := by omega
            rw [e, h]
            simp [List.getD_cons_succ]

theorem render_levels_output (cur : List Field)
    (hcur : ∀ f ∈ cur, ∀ c ∈ f, c ≠ 0 ∧ c ≠ DELIMITER) :
    ∀ (d : Nat) (printed : Row) (out : List Nat) (prev : List Field), cur ≠ [] →
      (∀ f ∈ prev, ∀ c ∈ f, c ≠ 0) →
      (∀ j, j < cur.length → cstr (field_at printed (d + j)) = prev.getD j []) →
      (render_levels cur d printed out).1 = out ++ tab_lines d cur prev := by
  induction cur with
  | nil => intro d printed out prev hne; exact absurd rfl hne
  | cons q l ih =>
    intro d printed out prev _ hprev hst
    cases l with
    | nil => simp [render_levels, tab_lines]
    | cons q2 qs =>
      have hq : ∀ c ∈ q, c ≠ 0 := fun c hc => (hcur q (by simp) c hc).1
      have h0 := hst 0 (by simp)
      rw [Nat.add_zero] at h0
      have hhead : prev.getD 0 [] = prev.headD [] := by
        cases prev <;> simp
      have hcond : strcmp q (field_at printed d) = 0 ↔ q = prev.headD [] := by
        rw [strcmp_eq_zero_iff, cstr_of_nonzero q hq, h0, hhead]
      have hprevtail : ∀ f ∈ prev.tail, ∀ c ∈ f, c ≠ 0 :=
        fun f hf => hprev f (List.mem_of_mem_tail hf)
      have htail : ∀ j, prev.tail.getD j [] = prev.getD (j + 1) [] := by
        intro j
        cases prev <;> simp
      simp only [render_levels, tab_lines]
      by_cases hc : strcmp q (field_at printed d) = 0
      · have hc2 := hcond.1 hc
        simp only [hc, if_true]
        rw [ih (fun x hx => hcur x (by simp [hx])) (d + 1) printed out prev.tail (by simp)
          hprevtail]
        · rw [if_pos hc2]
          simp
        · intro j hj
          have h := hst (j + 1) (by simpa using hj)
          have e : d + (j + 1) = d + 1 + j := by omega
          rw [← e, h, htail]
      · have hc2 : ¬ q = prev.headD [] := fun h => hc (hcond.2 h)
        simp only [hc, if_false]
        rw [ih (fun x hx => hcur x (by simp [hx])) (d + 1) (printed.set d q)
          (out ++ tab_line d q) prev.tail (by simp) hprevtail]
        · rw [if_neg hc2]
          simp
        · intro j hj
          have h := hst (j + 1) (by simpa using hj)
          have e : d + (j + 1) = d + 1 + j := by omega
          rw [field_at, getD_set_ne _ _ _ _ (by omega), ← e]
          rw [field_at] at h
          rw [h, htail]

theorem print_tabulated_entry_pair (prev cur : List Field) (printed : Row)
    (hlen : prev.length = cur.length) (hk1 : 1 ≤ cur.length)
    (hk : cur.length ≤ printed.length)
    (hprev : ∀ f ∈ prev, ∀ c ∈ f, c ≠ 0 ∧ c ≠ DELIMITER)
    (hcur : ∀ f ∈ cur, ∀ c ∈ f, c ≠ 0 ∧ c ≠ DELIMITER) :
    (print_tabulated_entry (join_levels cur)
        (print_tabulated_entry (join_levels prev) printed).2).1
      = tab_lines 0 cur prev := by
  have hprevne : prev ≠ [] := by
    intro h; rw [h] at hlen; simp at hlen; omega
  have hcurne : cur ≠ [] := by
    intro h; rw [h] at hk1; simp at hk1
  have hpz : ∀ f ∈ prev, ∀ c ∈ f, c ≠ 0 := fun f hf c hc => (hprev f hf c hc).1
  simp only [print_tabulated_entry]
  rw [print_loop_render prev hprev, print_loop_render cur hcur]
  obtain ⟨a1, a2, a3⟩ := render_levels_state prev 0 printed [] hprevne (by omega)
  rw [render_levels_output cur hcur 0 _ [] prev hcurne hpz]
  · simp
  · intro j hj
    have h := a3 j (by omega)
    rw [field_at, h]
    by_cases hjl : j < prev.length
    · apply cstr_of_nonzero
      apply hpz
      rw [List.getD_eq_getElem?_getD, List.getElem?_eq_getElem hjl]
      simp
    · omega


/-! ## Stage 3: the claim about the rendering of consecutive groups -/

/-- C10 (failing input): the input `A<TAB>B<TAB>C`, `a<TAB>x<TAB>1`,
`b<TAB>x<TAB>2` with the columns 1 2 3 selected.  The groups are `a~x~1` and
`b~x~2`: level 0 changes from `a` to `b`, so the later group has to be printed
as `b`, `x` (indent 4) and `2` (indent 8).  The report prints `b` and `2`
only: the line of level 1, deeper than the first level that differs, is
missing, because `printed[1]` still holds the `x` of the previous group.  With
the two columns 1 2 of `A<TAB>B`, `a<TAB>x`, `b<TAB>x` the same `x` under the
changed `b` is the last level and is printed. -/
theorem print_tabulated_entry_levels_failing :
    (main_stage3
        [65, 9, 66, 9, 67, 10, 97, 9, 120, 9, 49, 10, 98, 9, 120, 9, 50, 10]
        [0, 1, 2] empty_table empty_row empty_row).map output_lines
        = some [[], [45, 45, 45, 45, 45, 45, 45, 45, 45, 45, 45, 45, 45, 45, 45],
            [65], [32, 32, 32, 32, 66],
            [32, 32, 32, 32, 32, 32, 32, 32, 67, 32, 67, 111, 117, 110, 116],
            [45, 45, 45, 45, 45, 45, 45, 45, 45, 45, 45, 45, 45, 45, 45],
            [97], [32, 32, 32, 32, 120],
            [32, 32, 32, 32, 32, 32, 32, 32, 49, 32, 32, 32, 32, 32, 49],
            [98],
            [32, 32, 32, 32, 32, 32, 32, 32, 50, 32, 32, 32, 32, 32, 49],
            [45, 45, 45, 45, 45, 45, 45, 45, 45, 45, 45, 45, 45, 45, 45], []]
      ∧ (print_tabulated_entry [98, 126, 120, 126, 50]
          (print_tabulated_entry [97, 126, 120, 126, 49] empty_row).2).1
        = [10, 98, 10, 32, 32, 32, 32, 32, 32, 32, 32, 50]
      ∧ (print_tabulated_entry [97, 126, 120, 126, 49] empty_row).2.getD 1 [] = [120]
      ∧ (main_stage3 [65, 9, 66, 10, 97, 9, 120, 10, 98, 9, 120, 10]
          [0, 1] empty_table empty_row empty_row).map output_lines
        = some [[], [45, 45, 45, 45, 45, 45, 45, 45, 45, 45, 45],
            [65], [32, 32, 32, 32, 66, 32, 67, 111, 117, 110, 116],
            [45, 45, 45, 45, 45, 45, 45, 45, 45, 45, 45],
            [97], [32, 32, 32, 32, 120, 32, 32, 32, 32, 32, 49],
            [98], [32, 32, 32, 32, 120, 32, 32, 32, 32, 32, 49],
            [45, 45, 45, 45, 45, 45, 45, 45, 45, 45, 45], []]
      ∧ (print_tabulated_entry [98, 126, 120]
          (print_tabulated_entry [97, 126, 120] empty_row).2).1
        = [10, 98, 10, 32, 32, 32, 32, 120] := by
  refine ⟨by rfl, by rfl, by rfl, by rfl, by rfl⟩


/-! ## The field reader at the end of the stream and on a long field -/

theorem getfield_loop_end (f : Field) (hf : clean_field f) :
    ∀ (fuel : Nat) (dest : Field) (nchs : Nat), f.length + 1 ≤ fuel →
      getfield_loop fuel f dest nchs
        = some (dest ++ (f.filter (fun c => decide (c ≠ CHAR_CR))).take (MAXFIELDLEN - nchs),
            STATUS_EOF, []) := by
  induction f with
  | nil =>
    intro fuel dest nchs hfuel
    obtain ⟨n, rfl⟩ : ∃ n, fuel = n + 1 := ⟨fuel - 1, by simp at hfuel; omega⟩
    simp [getfield_loop, mygetchar, getfield_status, EOF]
  | cons c f ih =>
    intro fuel dest nchs hfuel
    have hcl : clean_field f := fun d hd => hf d (by simp [hd])
    have hc := hf c (by simp)
    have hfl : f.length + 2 ≤ fuel := by simpa using hfuel
    by_cases hcr : c = CHAR_CR
    · subst hcr
      rw [getfield_loop_CR, ih hcl fuel dest nchs (by omega)]
      simp
    · obtain ⟨n, rfl⟩ : ∃ n, fuel = n + 1 := ⟨fuel - 1, by omega⟩
      rw [getfield_loop_char n c _ dest nchs hcr hc.1 hc.2.1 hc.2.2]
      by_cases hn : nchs < MAXFIELDLEN
      · simp only [hn, if_true]
        rw [ih hcl n (dest ++ [c]) (nchs + 1) (by omega)]
        have hstep : MAXFIELDLEN - nchs = (MAXFIELDLEN - (nchs + 1)) + 1 := by omega
        rw [hstep]
        simp [hcr]
      · simp only [hn, if_false]
        rw [ih hcl n dest nchs (by omega)]
        have hz : MAXFIELDLEN - nchs = 0 := by omega
        simp [hz]

theorem getfield_end (f : Field) (hf : clean_field f) :
    getfield f = some (stored_field f, STATUS_EOF, []) := by
  have h := getfield_loop_end f hf (f.length + 1) [] 0 (by simp)
  simpa [getfield, stored_field] using h

/-! ## The claims about the field reader and the row count -/

/-- C13 (counterexample): two streams whose next field is longer than
`MAXFIELDLEN` characters.  In `a<NUL>` followed by 50 times `b` and a tab,
`getfield` stores `a` only and stops at the zero byte with `STATUS_NML`, the
50 `b` and the tab still unread.  In a carriage return followed by 50 times
`a` and a tab (51 characters before the tab) `getfield` stores the 50 `a`,
which are not the first 50 characters of the field. -/
theorem getfield_long_field_counterexample :
    getfield (97 :: 0 :: (List.replicate 50 98 ++ [9]))
        = some ([97], STATUS_NML, List.replicate 50 98 ++ [9])
      ∧ getfield (13 :: (List.replicate 50 97 ++ [9]))
        = some (List.replicate 50 97, STATUS_NML, [])
      ∧ (13 :: List.replicate 50 97).take 50 ≠ List.replicate 50 97 := by
  refine ⟨by rfl, by rfl, by decide⟩

/-- C13 (amended): for every input stream whose next field (the characters
before the next tab, newline or end of input) holds no zero byte and more
than `MAXFIELDLEN` characters other than carriage returns, `getfield` stores
exactly the first `MAXFIELDLEN` of those characters, consumes the terminator
(the rest of the stream starts right after it) and returns its status: tab
`STATUS_NML`, newline `STATUS_EOL`, end of input `STATUS_EOF`. -/
theorem getfield_long_field (f : Field) (rest : List Nat) (hf : clean_field f)
    (hlong : MAXFIELDLEN < (remove_cr f).length) :
    getfield (f ++ CHAR_TB :: rest) = some ((remove_cr f).take MAXFIELDLEN, STATUS_NML, rest)
      ∧ getfield (f ++ CHAR_NL :: rest)
        = some ((remove_cr f).take MAXFIELDLEN, STATUS_EOL, rest)
      ∧ getfield f = some ((remove_cr f).take MAXFIELDLEN, STATUS_EOF, [])
      ∧ ((remove_cr f).take MAXFIELDLEN).length = MAXFIELDLEN := by
  have h1 := getfield_field f hf CHAR_TB (Or.inl rfl) rest
  have h2 := getfield_field f hf CHAR_NL (Or.inr rfl) rest
  have h3 := getfield_end f hf
  rw [getfield_status_TB] at h1
  rw [getfield_status_NL] at h2
  refine ⟨h1, h2, h3, ?_⟩
  rw [List.length_take]
  omega

/-- C13 (witness): a field of 51 characters before a tab. -/
theorem getfield_long_field_witness :
    getfield (List.replicate 51 97 ++ CHAR_TB :: [98])
        = some ((remove_cr (List.replicate 51 97)).take MAXFIELDLEN, STATUS_NML, [98])
      ∧ getfield (List.replicate 51 97 ++ CHAR_NL :: [98])
        = some ((remove_cr (List.replicate 51 97)).take MAXFIELDLEN, STATUS_EOL, [98])
      ∧ getfield (List.replicate 51 97)
        = some ((remove_cr (List.replicate 51 97)).take MAXFIELDLEN, STATUS_EOF, [])
      ∧ ((remove_cr (List.replicate 51 97)).take MAXFIELDLEN).length = MAXFIELDLEN :=
  getfield_long_field (List.replicate 51 97) [98] (by decide) (by decide)

/-! ## Stage 2: the claim about the middle row -/

/-- C14 (counterexample): with the header `h` and the 4 data rows `d`, `c`,
`b`, `a`, `do_stage2` prints as middle row the table row of index 2, the
sorted data row `b` at 0-based position 1; the sorted data row at position
`ceil((4 - 1) / 2) = 2` is `c`. -/
theorem do_stage2_middle_counterexample :
    (do_stage2 [[[104]], [[100]], [[99]], [[98]], [[97]]] [0] 5 1).index_middle_row = 2
      ∧ (do_stage2 [[[104]], [[100]], [[99]], [[98]], [[97]]] [0] 5 1).row_middle = [[98]]
      ∧ (data_rows (do_stage2 [[[104]], [[100]], [[99]], [[98]], [[97]]] [0] 5 1).input
          5).getD 1 [] = [[98]]
      ∧ (data_rows (do_stage2 [[[104]], [[100]], [[99]], [[98]], [[97]]] [0] 5 1).input
          5).getD (ceil_half (4 - 1)) [] = [[99]] := by
  refine ⟨by rfl, by rfl, by rfl, by rfl⟩

/-- C14 (amended): for every number `N >= 1` of data rows, `do_stage2` is
called with `row_count = N + 1` (the header counted) and the middle row it
prints is the sorted table row of index `ceil(N / 2)`, that is the sorted data
row at 0-based position `ceil(N / 2) - 1 = floor((N - 1) / 2)` among the data
rows: `N = 5` gives position 2 and `N = 4` gives position 1. -/
theorem do_stage2_middle (input : Table) (selected_cols : List Nat) (N col_count : Nat)
    (hN : 1 ≤ N) (hrows : N + 1 ≤ input.length) :
    (do_stage2 input selected_cols (N + 1) col_count).index_middle_row = ceil_half N
      ∧ ceil_half N - 1 = (N - 1) / 2
      ∧ (do_stage2 input selected_cols (N + 1) col_count).row_middle
        = (data_rows (insertion_sort input (N + 1) col_count selected_cols) (N + 1)).getD
            ((N - 1) / 2) [] := by
  have hidx : ceil_half N - 1 = (N - 1) / 2 := by
    simp only [ceil_half]
    omega
  refine ⟨by simp [do_stage2], hidx, ?_⟩
  have h := data_rows_getD (insertion_sort input (N + 1) col_count selected_cols) (N + 1)
    (ceil_half N) (by simp only [ceil_half]; omega) (by simp only [ceil_half]; omega)
  rw [hidx] at h
  rw [h]
  simp [do_stage2]

/-- C14 (witness): five data rows, the middle one at position 2. -/
theorem do_stage2_middle_witness :
    (do_stage2 [[[104]], [[101]], [[100]], [[99]], [[98]], [[97]]] [0] (5 + 1) 1).index_middle_row
        = ceil_half 5
      ∧ ceil_half 5 - 1 = (5 - 1) / 2
      ∧ (do_stage2 [[[104]], [[101]], [[100]], [[99]], [[98]], [[97]]] [0] (5 + 1) 1).row_middle
        = (data_rows (insertion_sort [[[104]], [[101]], [[100]], [[99]], [[98]], [[97]]]
            (5 + 1) 1 [0]) (5 + 1)).getD ((5 - 1) / 2) [] :=
  do_stage2_middle [[[104]], [[101]], [[100]], [[99]], [[98]], [[97]]] [0] 5 1 (by decide)
    (by decide)

/-! ## Stage 3: the entry as a grouping key -/

/-- C20: the entry is a faithful grouping key when the delimiter is absent
from the data: for every two rows and every list of selected columns such that
none of the selected fields of either row holds the delimiter, the entries
built by `do_stage3` for the two rows are equal if and only if the rows hold
the same string in every selected column. -/
theorem build_entry_faithful (selected_cols : List Nat) (row1 row2 : Row)
    (h1 : ∀ k ∈ selected_cols, DELIMITER ∉ cstr (field_at row1 k))
    (h2 : ∀ k ∈ selected_cols, DELIMITER ∉ cstr (field_at row2 k)) :
    build_entry row1 selected_cols = build_entry row2 selected_cols
      ↔ ∀ k ∈ selected_cols, cstr (field_at row1 k) = cstr (field_at row2 k) := by
  rw [build_entry_eq_iff selected_cols row1 row2 h1 h2, rowcmp_eq_zero_iff]
  simp [same_keys]

/-- C20 (witness): two rows that differ outside the selected columns 0 and 2. -/
theorem build_entry_faithful_witness :
    build_entry [[97], [98], [99]] [0, 2] = build_entry [[97], [120], [99]] [0, 2]
      ↔ ∀ k ∈ ([0, 2] : List Nat),
          cstr (field_at [[97], [98], [99]] k) = cstr (field_at [[97], [120], [99]] k) :=
  build_entry_faithful [0, 2] [[97], [98], [99]] [[97], [120], [99]] (by decide) (by decide)


/-! ## Carriage returns are transparent to the reader -/

theorem remove_cr_cons_cr (s : List Nat) : remove_cr (CHAR_CR :: s) = remove_cr s := by
  simp [remove_cr]

theorem remove_cr_cons_ne (c : Nat) (s : List Nat) (h : c ≠ CHAR_CR) :
    remove_cr (c :: s) = c :: remove_cr s := by
  simp [remove_cr, h]

theorem getfield_loop_remove_cr (s : List Nat) :
    ∀ (fuel fuel' : Nat) (dest : Field) (nchs : Nat), (remove_cr s).length < fuel →
      s.length < fuel' →
      getfield_loop fuel (remove_cr s) dest nchs
        = (getfield_loop fuel' s dest nchs).map (fun r => (r.1, r.2.1, remove_cr r.2.2)) := by
  induction s with
  | nil =>
    intro fuel fuel' dest nchs h1 h2
    obtain ⟨n, rfl⟩ : ∃ n, fuel = n + 1 := ⟨fuel - 1, by omega⟩
    obtain ⟨m, rfl⟩ : ∃ m, fuel' = m + 1 := ⟨fuel' - 1, by omega⟩
    simp [remove_cr, getfield_loop, mygetchar, getfield_status, EOF]
  | cons c t ih =>
    intro fuel fuel' dest nchs h1 h2
    simp only [List.length_cons] at h2
    by_cases hcr : c = CHAR_CR
    · subst hcr
      rw [remove_cr_cons_cr] at h1 ⊢
      rw [getfield_loop_CR]
      exact ih fuel fuel' dest nchs h1 (by omega)
    · rw [remove_cr_cons_ne c t hcr] at h1 ⊢
      simp only [List.length_cons] at h1
      obtain ⟨n, rfl⟩ : ∃ n, fuel = n + 1 := ⟨fuel - 1, by omega⟩
      obtain ⟨m, rfl⟩ : ∃ m, fuel' = m + 1 := ⟨fuel' - 1, by omega⟩
      by_cases hstop : c = 0 ∨ c = CHAR_TB ∨ c = CHAR_NL
      · rw [getfield_loop_stop n c _ dest nchs hstop, getfield_loop_stop m c _ dest nchs hstop]
        simp
      · have h0 : c ≠ 0 := fun h => hstop (Or.inl h)
        have ht : c ≠ CHAR_TB := fun h => hstop (Or.inr (Or.inl h))
        have hn : c ≠ CHAR_NL := fun h => hstop (Or.inr (Or.inr h))
        rw [getfield_loop_char n c _ dest nchs hcr h0 ht hn,
          getfield_loop_char m c _ dest nchs hcr h0 ht hn]
        by_cases hm : nchs < MAXFIELDLEN
        · simp only [hm, if_true]
          exact ih n m _ _ (by omega) (by omega)
        · simp only [hm, if_false]
          exact ih n m _ _ (by omega) (by omega)

theorem getfield_remove_cr (s : List Nat) :
    getfield (remove_cr s)
      = (getfield s).map (fun r => (r.1, r.2.1, remove_cr r.2.2)) :=
  getfield_loop_remove_cr s _ _ [] 0 (by omega) (by omega)

theorem getfield_total (s : List Nat) :
    ∃ d status rest, getfield s = some (d, status, rest)
      ∧ (status = STATUS_EOF ∨ rest.length < s.length) := by
  obtain ⟨d, status, rest, hg, hcase⟩ := getfield_loop_total (s.length + 1) s [] 0 (by omega)
  refine ⟨d, status, rest, hg, ?_⟩
  rcases hcase with ⟨a, _⟩ | ⟨_, b, _⟩ | ⟨_, b, _⟩
  · exact Or.inl a
  · exact Or.inr b
  · exact Or.inr b

theorem getfield_remove_cr_some (s : List Nat) (d : Field) (status : Nat) (rest : List Nat)
    (hg : getfield s = some (d, status, rest)) :
    getfield (remove_cr s) = some (d, status, remove_cr rest)
      ∧ (status = STATUS_EOF ∨ (remove_cr rest).length < (remove_cr s).length) := by
  have h := getfield_remove_cr s
  rw [hg] at h
  simp only [Option.map_some'] at h
  refine ⟨h, ?_⟩
  obtain ⟨d', status', rest', hg', hcase⟩ := getfield_total (remove_cr s)
  rw [h] at hg'
  simp only [Option.some.injEq, Prod.mk.injEq] at hg'
  obtain ⟨_, hs, hr⟩ := hg'
  rw [← hs, ← hr] at hcase
  exact hcase

theorem do_stage1_loop_remove_cr (fuel' : Nat) :
    ∀ (s : List Nat) (fuel : Nat) (st : Stage1State), s.length < fuel' →
      (remove_cr s).length < fuel →
      do_stage1_loop fuel (remove_cr s) st = do_stage1_loop fuel' s st := by
  induction fuel' with
  | zero => intro s fuel st h; omega
  | succ m ih =>
    intro s fuel st h1 h2
    obtain ⟨n, rfl⟩ : ∃ n, fuel = n + 1 := ⟨fuel - 1, by omega⟩
    obtain ⟨d, status, rest, hg, hcase⟩ := getfield_loop_total (s.length + 1) s [] 0 (by omega)
    have hg2 : getfield s = some (d, status, rest) := hg
    obtain ⟨hgr, hlen⟩ := getfield_remove_cr_some s d status rest hg2
    rcases hcase with ⟨a, _⟩ | ⟨a, b, _⟩ | ⟨a, b, _⟩
    · subst a
      rw [do_stage1_loop_EOF n _ st d _ hgr, do_stage1_loop_EOF m s st d rest hg2]
    · subst a
      have hl : (remove_cr rest).length < (remove_cr s).length := by
        rcases hlen with h | h
        · exact absurd h (by decide)
        · exact h
      rw [do_stage1_loop_EOL n _ st d _ hgr, do_stage1_loop_EOL m s st d rest hg2]
      exact ih rest n _ (by omega) (by omega)
    · subst a
      have hl : (remove_cr rest).length < (remove_cr s).length := by
        rcases hlen with h | h
        · exact absurd h (by decide)
        · exact h
      rw [do_stage1_loop_NML n _ st d _ hgr, do_stage1_loop_NML m s st d rest hg2]
      exact ih rest n _ (by omega) (by omega)

theorem getfield_calls_remove_cr (fuel' : Nat) :
    ∀ (s : List Nat) (fuel : Nat), s.length < fuel' → (remove_cr s).length < fuel →
      getfield_calls fuel (remove_cr s) = getfield_calls fuel' s := by
  induction fuel' with
  | zero => intro s fuel h; omega
  | succ m ih =>
    intro s fuel h1 h2
    obtain ⟨n, rfl⟩ : ∃ n, fuel = n + 1 := ⟨fuel - 1, by omega⟩
    obtain ⟨d, status, rest, hg, hcase⟩ := getfield_total s
    obtain ⟨hgr, hlen⟩ := getfield_remove_cr_some s d status rest hg
    simp only [getfield_calls, hg, hgr]
    by_cases he : status = STATUS_EOF
    · simp [he]
    · simp only [he, if_false]
      have hl1 : rest.length < s.length := by
        rcases hcase with h | h
        · exact absurd h he
        · exact h
      have hl2 : (remove_cr rest).length < (remove_cr s).length := by
        rcases hlen with h | h
        · exact absurd h he
        · exact h
      rw [ih rest n (by omega) (by omega)]

theorem getfield_calls_last (fuel : Nat) :
    ∀ (s : List Nat), s.length < fuel →
      ∃ d, (getfield_calls fuel s).getLast? = some (d, STATUS_EOF) := by
  induction fuel with
  | zero => intro s h; omega
  | succ n ih =>
    intro s h
    obtain ⟨d, status, rest, hg, hcase⟩ := getfield_total s
    simp only [getfield_calls, hg]
    by_cases he : status = STATUS_EOF
    · exact ⟨d, by simp [he]⟩
    · simp only [he, if_false]
      have hl1 : rest.length < s.length := by
        rcases hcase with h | h
        · exact absurd h he
        · exact h
      obtain ⟨d', hd'⟩ := ih rest (by omega)
      refine ⟨d', ?_⟩
      cases hcalls : getfield_calls n rest with
      | nil => rw [hcalls] at hd'; simp at hd'
      | cons x xs =>
        rw [hcalls] at hd'
        rw [List.getLast?_cons_cons]
        exact hd'

/-- C12: carriage returns are transparent to the reader: for every input
stream, the sequence of (field text, terminator status) pairs returned by the
successive `getfield` calls (which ends with the `STATUS_EOF` call) and the
result of `do_stage1`, the table included, are the same as for the stream
with every carriage-return character deleted. -/
theorem carriage_return_transparent (stream : List Nat) :
    field_sequence (remove_cr stream) = field_sequence stream
      ∧ (∃ d, (field_sequence stream).getLast? = some (d, STATUS_EOF))
      ∧ (∀ (dest : Table) (current_row : Row),
          do_stage1_read (remove_cr stream) dest current_row
              = do_stage1_read stream dest current_row
            ∧ do_stage1 (remove_cr stream) dest current_row
              = do_stage1 stream dest current_row) := by
  have hread : ∀ (dest : Table) (current_row : Row),
      do_stage1_read (remove_cr stream) dest current_row
        = do_stage1_read stream dest current_row := by
    intro dest current_row
    exact do_stage1_loop_remove_cr (stream.length + 1) stream _ _ (by omega) (by omega)
  refine ⟨getfield_calls_remove_cr (stream.length + 1) stream _ (by omega) (by omega),
    getfield_calls_last (stream.length + 1) stream (by omega), ?_⟩
  intro dest current_row
  refine ⟨hread dest current_row, ?_⟩
  simp only [do_stage1, hread dest current_row]


/-! ## Rendering: the levels printed, depth by depth -/

theorem flatten_range_succ {α : Type} (f : Nat → List α) (n : Nat) :
    ((List.range (n + 1)).map f).flatten
      = f 0 ++ ((List.range n).map (fun j => f (j + 1))).flatten := by
  rw [List.range_succ_eq_map]
  simp only [List.map_cons, List.flatten_cons, List.map_map]
  rfl

theorem tab_lines_eq (cur : List Field) :
    ∀ (d : Nat) (prev : List Field),
      tab_lines d cur prev
        = ((List.range cur.length).map
            (fun j => if j + 1 = cur.length ∨ cur.getD j [] ≠ prev.getD j []
              then tab_line (d + j) (cur.getD j []) else [])).flatten := by
  induction cur with
  | nil => intro d prev; simp [tab_lines]
  | cons q l ih =>
    intro d prev
    cases l with
    | nil =>
      have key := flatten_range_succ
        (fun j => if j + 1 = ([q] : List Field).length ∨ ([q] : List Field).getD j [] ≠ prev.getD j []
          then tab_line (d + j) (([q] : List Field).getD j []) else []) 0
      refine Eq.trans ?_ key.symm
      simp [tab_lines]
    | cons q2 qs =>
      have hhead : prev.headD [] = prev.getD 0 [] := by cases prev <;> simp
      have htail : ∀ j, prev.tail.getD j [] = prev.getD (j + 1) [] := by
        intro j
        cases prev <;> simp
      have key := flatten_range_succ
        (fun j => if j + 1 = (q :: q2 :: qs).length
            ∨ (q :: q2 :: qs).getD j [] ≠ prev.getD j []
          then tab_line (d + j) ((q :: q2 :: qs).getD j []) else []) (q2 :: qs).length
      refine Eq.trans ?_ key.symm
      simp only [tab_lines]
      rw [ih (d + 1) prev.tail]
      congr 1
      · have h0 : ¬ (0 + 1 = (q :: q2 :: qs).length) := by simp
        simp only [h0, false_or, List.getD_cons_zero, Nat.add_zero, hhead]
        by_cases hq : q = prev.getD 0 []
        · simp [hq]
        · simp [hq]
      · congr 1
        apply List.map_congr_left
        intro j hj
        have e1 : (j + 1 = (q2 :: qs).length) ↔ (j + 1 + 1 = (q :: q2 :: qs).length) := by
          simp only [List.length_cons]
          omega
        have e2 : d + 1 + j = d + (j + 1) := by omega
        simp only [List.getD_cons_succ, htail, e1, e2]

/-- C16: in a render pass over groups that all have `k` levels
(`1 <= k <= MAXCOLUMNS`), for a group `cur` rendered right after the group
`prev`: the output is, for the depths `d = 0 .. k - 1` in order, the line of
level `d` when `d` is the last level or the value of `cur` at depth `d`
differs from the value of `prev` at depth `d`, and nothing otherwise; and
afterwards `printed[d]` holds the level-`d` value of `cur` for every
`d < k`. -/
theorem render_pass_levels (prev cur : List Field) (printed : Row) (k : Nat)
    (hprev : prev.length = k) (hcur : cur.length = k) (hk1 : 1 ≤ k) (hk : k ≤ MAXCOLUMNS)
    (hprinted : printed.length = MAXCOLUMNS)
    (hprevc : ∀ f ∈ prev, ∀ c ∈ f, c ≠ 0 ∧ c ≠ DELIMITER)
    (hcurc : ∀ f ∈ cur, ∀ c ∈ f, c ≠ 0 ∧ c ≠ DELIMITER) :
    (print_tabulated_entry (join_levels cur)
        (print_tabulated_entry (join_levels prev) printed).2).1
        = ((List.range k).map
            (fun d => if d + 1 = k ∨ cur.getD d [] ≠ prev.getD d []
              then tab_line d (cur.getD d []) else [])).flatten
      ∧ ∀ d, d < k →
          cstr (field_at (print_tabulated_entry (join_levels cur)
            (print_tabulated_entry (join_levels prev) printed).2).2 d) = cur.getD d [] := by
  have hprevne : prev ≠ [] := by
    intro h; rw [h] at hprev; simp at hprev; omega
  have hcurne : cur ≠ [] := by
    intro h; rw [h] at hcur; simp at hcur; omega
  have hout := print_tabulated_entry_pair prev cur printed (by omega) (by omega) (by omega)
    hprevc hcurc
  refine ⟨?_, ?_⟩
  · rw [hout, tab_lines_eq, hcur]
    simp
  · intro d hd
    simp only [print_tabulated_entry]
    rw [print_loop_render prev hprevc, print_loop_render cur hcurc]
    obtain ⟨a1, _, _⟩ := render_levels_state prev 0 printed [] hprevne (by omega)
    obtain ⟨_, _, b3⟩ := render_levels_state cur 0 (render_levels prev 0 printed []).2 []
      hcurne (by rw [a1]; omega)
    have h := b3 d (by omega)
    rw [Nat.zero_add] at h
    rw [field_at, h]
    apply cstr_of_nonzero
    intro c hc
    have hmem : cur.getD d [] ∈ cur := by
      rw [List.getD_eq_getElem?_getD, List.getElem?_eq_getElem (by omega)]
      simp
    exact (hcurc _ hmem c hc).1

/-- C16 (witness): the groups `(a, x, 1)` then `(b, x, 2)`. -/
theorem render_pass_levels_witness :
    (print_tabulated_entry (join_levels [[98], [120], [50]])
        (print_tabulated_entry (join_levels [[97], [120], [49]]) empty_row).2).1
        = ((List.range 3).map
            (fun d => if d + 1 = 3
                ∨ ([[98], [120], [50]] : List Field).getD d []
                  ≠ ([[97], [120], [49]] : List Field).getD d []
              then tab_line d (([[98], [120], [50]] : List Field).getD d []) else [])).flatten
      ∧ ∀ d, d < 3 →
          cstr (field_at (print_tabulated_entry (join_levels [[98], [120], [50]])
            (print_tabulated_entry (join_levels [[97], [120], [49]]) empty_row).2).2 d)
            = ([[98], [120], [50]] : List Field).getD d [] :=
  render_pass_levels [[97], [120], [49]] [[98], [120], [50]] empty_row 3 (by decide)
    (by decide) (by decide) (by decide) (by simp [empty_row]) (by decide) (by decide)


/-! ## Stage 3: the first group -/

theorem entry_groups_head (st : Stage3State) (h1 : 1 ≤ st.index)
    (h2 : 1 ≤ st.entries.length) (h3 : 1 ≤ st.appearances.length) :
    (entry_groups st).head? = some (st.entries.getD 0 [], st.appearances.getD 0 0) := by
  obtain ⟨n, hn⟩ : ∃ n, st.index = n + 1 := ⟨st.index - 1, by omega⟩
  cases he : st.entries with
  | nil => rw [he] at h2; simp at h2
  | cons e es =>
    cases ha : st.appearances with
    | nil => rw [ha] at h3; simp at h3
    | cons a as => simp [entry_groups, hn, he, ha]

theorem store_entry_slot_zero (st : Stage3State) (h1 : 1 ≤ st.index) :
    1 ≤ (store_entry st).index
      ∧ (store_entry st).entries.length = st.entries.length
      ∧ (store_entry st).appearances.length = st.appearances.length
      ∧ (store_entry st).entries.getD 0 [] = st.entries.getD 0 []
      ∧ (store_entry st).appearances.getD 0 0 = st.appearances.getD 0 0 := by
  refine ⟨by simp [store_entry], by simp [store_entry], by simp [store_entry], ?_, ?_⟩
  · simp only [store_entry, List.getD_eq_getElem?_getD]
    rw [List.getElem?_set_ne (by omega)]
  · simp only [store_entry, List.getD_eq_getElem?_getD]
    rw [List.getElem?_set_ne (by omega)]

theorem do_stage3_step_slot_zero (st : Stage3State) (e : Entry) (h1 : 1 ≤ st.index) :
    1 ≤ (do_stage3_step st e).index
      ∧ (do_stage3_step st e).entries.length = st.entries.length
      ∧ (do_stage3_step st e).appearances.length = st.appearances.length
      ∧ (do_stage3_step st e).entries.getD 0 [] = st.entries.getD 0 []
      ∧ (do_stage3_step st e).appearances.getD 0 0 = st.appearances.getD 0 0 := by
  by_cases hc : strcmp st.previous_entry [] ≠ 0 ∧ strcmp e st.previous_entry ≠ 0
  · rw [do_stage3_step_store st e hc]
    refine ⟨by simp, by simp, by simp, ?_, ?_⟩
    · simp only [List.getD_eq_getElem?_getD]
      rw [List.getElem?_set_ne (by omega)]
    · simp only [List.getD_eq_getElem?_getD]
      rw [List.getElem?_set_ne (by omega)]
  · rw [do_stage3_step_keep st e hc]
    exact ⟨h1, rfl, rfl, rfl, rfl⟩

theorem scan_slot_zero (xs : List Entry) :
    ∀ (st : Stage3State), 1 ≤ st.index →
      1 ≤ (xs.foldl do_stage3_step st).index
        ∧ (xs.foldl do_stage3_step st).entries.length = st.entries.length
        ∧ (xs.foldl do_stage3_step st).appearances.length = st.appearances.length
        ∧ (xs.foldl do_stage3_step st).entries.getD 0 [] = st.entries.getD 0 []
        ∧ (xs.foldl do_stage3_step st).appearances.getD 0 0 = st.appearances.getD 0 0 := by
  induction xs with
  | nil => intro st h1; exact ⟨h1, rfl, rfl, rfl, rfl⟩
  | cons x xs ih =>
    intro st h1
    obtain ⟨a1, a2, a3, a4, a5⟩ := do_stage3_step_slot_zero st x h1
    obtain ⟨b1, b2, b3, b4, b5⟩ := ih (do_stage3_step st x) a1
    simp only [List.foldl_cons]
    exact ⟨b1, by rw [b2, a2], by rw [b3, a3], by rw [b4, a4], by rw [b5, a5]⟩

theorem data_rows_head (input : Table) (row_count : Nat) (x : Row) (xs : List Row)
    (hrows : row_count ≤ input.length) (hd : data_rows input row_count = x :: xs) :
    2 ≤ row_count ∧ x = row_at input 1 := by
  have hlen := data_rows_length input row_count hrows
  rw [hd] at hlen
  simp only [List.length_cons] at hlen
  have h2 : 2 ≤ row_count := by omega
  have h := data_rows_getD input row_count 1 (by omega) (by omega)
  rw [hd] at h
  simp at h
  exact ⟨h2, h⟩

theorem first_group_aux (input : Table) (selected_cols : List Nat)
    (row_count col_count : Nat) (h1 : 1 ≤ row_count) (hrows : row_count ≤ input.length)
    (hne : build_entry (row_at input 0) selected_cols ≠ [])
    (hfirst : 2 ≤ row_count →
      build_entry (row_at input 1) selected_cols ≠ build_entry (row_at input 0) selected_cols) :
    (entry_groups (do_stage3 input selected_cols row_count col_count)).head?
      = some (build_entry (row_at input 0) selected_cols, 1) := by
  have hloop := do_stage3_loop_foldl input selected_cols row_count hrows row_count 0
    { previous_entry := [], entries := List.replicate MAXLINES [],
      appearances := List.replicate MAXFIELDLEN 0, index := 0, count := 0,
      longest_entry_len := 0 } (by omega)
  rw [List.drop_zero, take_eq_cons_data_rows input row_count h1 hrows] at hloop
  simp only [List.map_cons, List.foldl_cons] at hloop
  have hc0 : ¬ (strcmp ([] : Entry) [] ≠ 0
      ∧ strcmp (build_entry (row_at input 0) selected_cols) [] ≠ 0) := by
    simp [strcmp]
  rw [do_stage3_step_keep _ _ hc0] at hloop
  simp only [] at hloop
  have hs : strcpy (build_entry (row_at input 0) selected_cols)
      = build_entry (row_at input 0) selected_cols :=
    cstr_of_nonzero _ (build_entry_nonzero _ _)
  rw [hs] at hloop
  unfold do_stage3
  simp only []
  rw [hloop]
  cases hd : data_rows input row_count with
  | nil =>
    simp only [List.map_nil, List.foldl_nil]
    have hgt : (0 + 1 : Nat) > 0 := by omega
    rw [if_pos hgt]
    rw [store_entry_groups _ (by simp; decide) (by simp; decide)]
    simp [entry_groups]
  | cons x xs =>
    obtain ⟨h2, hx⟩ := data_rows_head input row_count x xs hrows hd
    have hxH : build_entry x selected_cols ≠ build_entry (row_at input 0) selected_cols := by
      rw [hx]; exact hfirst h2
    simp only [List.map_cons, List.foldl_cons]
    have hc1 : strcmp (build_entry (row_at input 0) selected_cols) [] ≠ 0
        ∧ strcmp (build_entry x selected_cols)
          (build_entry (row_at input 0) selected_cols) ≠ 0 :=
      ⟨strcmp_nonempty _ (build_entry_nonzero _ _) hne,
        (strcmp_ne_iff _ _ (build_entry_nonzero _ _) (build_entry_nonzero _ _)).2 hxH⟩
    rw [do_stage3_step_store _ _ hc1]
    simp only []
    obtain ⟨b1, b2, b3, b4, b5⟩ := scan_slot_zero
      (xs.map (fun r => build_entry r selected_cols))
      { previous_entry := strcpy (build_entry x selected_cols)
        entries := (List.replicate MAXLINES ([] : Entry)).set 0
          (build_entry (row_at input 0) selected_cols)
        appearances := (List.replicate MAXFIELDLEN 0).set 0 (0 + 1)
        index := 0 + 1
        count := 1
        longest_entry_len := int_max 0
          (entry_len (build_entry (row_at input 0) selected_cols)) } (by simp)
    have hE : (List.replicate MAXLINES ([] : Entry)).length = MAXLINES := by simp
    have hA : (List.replicate MAXFIELDLEN 0 : List Nat).length = MAXFIELDLEN := by simp
    simp only [List.length_set, hE, hA] at b2 b3
    have hv1 : ((List.replicate MAXLINES ([] : Entry)).set 0
        (build_entry (row_at input 0) selected_cols)).getD 0 []
        = build_entry (row_at input 0) selected_cols := by
      simp only [List.getD_eq_getElem?_getD]
      rw [List.getElem?_set_self (by rw [hE]; decide)]
      simp
    have hv2 : ((List.replicate MAXFIELDLEN 0).set 0 (0 + 1)).getD 0 0 = 1 := by
      simp only [List.getD_eq_getElem?_getD]
      rw [List.getElem?_set_self (by rw [hA]; decide)]
      simp
    rw [hv1] at b4
    rw [hv2] at b5
    have hM1 : 1 ≤ MAXLINES := by decide
    have hM2 : 1 ≤ MAXFIELDLEN := by decide
    split
    · obtain ⟨c1, c2, c3, c4, c5⟩ := store_entry_slot_zero _ b1
      rw [entry_groups_head _ c1 (by rw [c2, b2]; exact hM1) (by rw [c3, b3]; exact hM2),
        c4, c5, b4, b5]
    · rw [entry_groups_head _ b1 (by rw [b2]; exact hM1) (by rw [b3]; exact hM2), b4, b5]

/-- C19 (counterexample): with the header `x` and the one data row `x`,
grouped on column 0, the first Entry Group has count 2: the data row is
absorbed into it.  With the header holding the empty name and the data row
`a`, the first Entry Group is `a` with count 2, not the entry of the header. -/
theorem do_stage3_first_group_counterexample :
    (entry_groups (do_stage3 [[[120]], [[120]]] [0] 2 1)).head? = some ([120], 2)
      ∧ (entry_groups (do_stage3 [[[]], [[97]]] [0] 2 1)).head? = some ([97], 2)
      ∧ join_levels (key_strings [[]] [0]) = [] := by
  refine ⟨by rfl, by rfl, by rfl⟩

/-- C19 (amended): for every table with a header row and every non-empty list
of selected columns such that the entry of the header is not the empty string
and differs from the entry of the first data row (when there is one), and at
most `MAXFIELDLEN` groups are stored: the first Entry Group that `do_stage3`
hands to `print_stage3` is built from the header row alone: its entry is the
header's selected column names joined by the delimiter, and its count is 1. -/
theorem do_stage3_first_group (input : Table) (selected_cols : List Nat)
    (row_count col_count : Nat) (hcols : selected_cols ≠ []) (h1 : 1 ≤ row_count)
    (hrows : row_count ≤ input.length)
    (hne : build_entry (row_at input 0) selected_cols ≠ [])
    (hfirst : 2 ≤ row_count →
      build_entry (row_at input 1) selected_cols ≠ build_entry (row_at input 0) selected_cols)
    (hcap : (do_stage3 input selected_cols row_count col_count).index ≤ MAXFIELDLEN) :
    (entry_groups (do_stage3 input selected_cols row_count col_count)).head?
      = some (join_levels (key_strings (row_at input 0) selected_cols), 1) := by
  rw [← build_entry_eq]
  exact first_group_aux input selected_cols row_count col_count h1 hrows hne hfirst

/-- C19 (witness): header `(Y, M)` and three data rows, grouped on column 1. -/
theorem do_stage3_first_group_witness :
    (entry_groups (do_stage3 [[[89], [77]], [[50], [72]], [[50], [84]], [[52], [84]]]
        [1] 4 2)).head?
      = some (join_levels (key_strings
          (row_at [[[89], [77]], [[50], [72]], [[50], [84]], [[52], [84]]] 0) [1]), 1) :=
  do_stage3_first_group [[[89], [77]], [[50], [72]], [[50], [84]], [[52], [84]]] [1] 4 2
    (by decide) (by decide) (by decide) (by decide) (by decide) (by decide)


/-! ## Stage 3: inputs on which the code departs from the claims -/

/-- C11 (failing input): the input `N<TAB>Y`, `abcdefghij<TAB>x`, `ab<TAB>y`
(three newline-terminated lines) with the columns 1 and 2 selected.  The
longest entry length is 10, so the separators have 16 dashes.  The count of
the group `(ab, y)` ends a line of width 16, the count of the group
`(abcdefghij, x)` ends the line `    x     1` of width 11: the two counts are
not aligned. -/
theorem print_stage3_alignment_failing :
    (main_stage3
        [78, 9, 89, 10, 97, 98, 99, 100, 101, 102, 103, 104, 105, 106, 9, 120, 10,
          97, 98, 9, 121, 10]
        [0, 1] empty_table empty_row empty_row).map
        (fun out => (output_lines out).map List.length)
        = some [0, 16, 1, 16, 16, 2, 16, 10, 11, 16, 0]
      ∧ (main_stage3
          [78, 9, 89, 10, 97, 98, 99, 100, 101, 102, 103, 104, 105, 106, 9, 120, 10,
            97, 98, 9, 121, 10]
          [0, 1] empty_table empty_row empty_row).map
          (fun out => ((output_lines out).getD 6 [], (output_lines out).getD 8 []))
        = some ([32, 32, 32, 32, 121, 32, 32, 32, 32, 32, 32, 32, 32, 32, 32, 49],
            [32, 32, 32, 32, 120, 32, 32, 32, 32, 32, 49]) := by
  refine ⟨by rfl, by rfl⟩

/-- C15 (failing input): a table of 52 rows with 52 different one-letter
fields in column 0.  The scan stores 52 groups, at the indices `0 .. 51`,
and `appearances` has only `MAXFIELDLEN = 50` slots: the counts of the last
two groups are stored outside the array, and the pairs of the first 50 slots
are not the 52 runs of the entries. -/
theorem do_stage3_run_lengths_failing :
    (do_stage3 ((List.range 52).map (fun i => [[65 + i]])) [0] 52 1).index = 52
      ∧ (do_stage3 ((List.range 52).map (fun i => [[65 + i]])) [0] 52 1).appearances.length
        = 50
      ∧ (entry_groups (do_stage3 ((List.range 52).map (fun i => [[65 + i]])) [0] 52
          1)).length = 50
      ∧ (run_lengths [65] 1 ((List.range 51).map (fun i => [66 + i]))).length = 52 := by
  refine ⟨by rfl, by rfl, by rfl, by rfl⟩

/-- C18 (failing input): the entry `a~`, of a row whose second selected field
is empty.  `print_tabulated_entry` prints the two lines `a` and four spaces
(widths 1 and 4), and `entry_len` returns 1: the empty last field at depth 1 is
not measured, while the empty field in the middle of `a~~b` is (the result is
9 for that entry, and 4 for `a~~`). -/
theorem entry_len_failing :
    entry_len [97, 126] = 1
      ∧ (output_lines (print_tabulated_entry [97, 126] empty_row).1).map List.length
        = [0, 1, 4]
      ∧ entry_len [97, 126, 126] = 4
      ∧ entry_len [97, 126, 126, 98] = 9 := by
  refine ⟨by rfl, by rfl, by rfl, by rfl⟩


/-! ## The stores into `appearances` -/

theorem do_stage3_eq_init (input : Table) (selected_cols : List Nat)
    (row_count col_count : Nat) :
    do_stage3 input selected_cols row_count col_count
      = (if (do_stage3_loop input selected_cols row_count row_count 0 stage3_init).count > 0
          then store_entry
            (do_stage3_loop input selected_cols row_count row_count 0 stage3_init)
          else do_stage3_loop input selected_cols row_count row_count 0 stage3_init) := rfl

theorem store_index_step_range (st : Stage3State) (e : Entry) :
    store_index_step st e
      = List.range' st.index ((do_stage3_step st e).index - st.index) := by
  unfold store_index_step
  by_cases hc : strcmp st.previous_entry [] ≠ 0 ∧ strcmp e st.previous_entry ≠ 0
  · rw [if_pos hc, do_stage3_step_store st e hc]
    simp
  · rw [if_neg hc, do_stage3_step_keep st e hc]
    simp

theorem store_index_loop_range (input : Table) (selected_cols : List Nat) (row_count : Nat)
    (fuel : Nat) :
    ∀ (i : Nat) (st : Stage3State),
      store_index_loop input selected_cols row_count fuel i st
        = List.range' st.index
            ((do_stage3_loop input selected_cols row_count fuel i st).index - st.index) := by
  induction fuel with
  | zero => intro i st; simp [store_index_loop, do_stage3_loop]
  | succ fuel ih =>
    intro i st
    simp only [store_index_loop, do_stage3_loop]
    by_cases hlt : i < row_count
    · simp only [hlt, if_true]
      rw [ih, store_index_step_range]
      have h1 := (do_stage3_step_lengths st
        (build_entry (row_at input i) selected_cols)).2.2
      have h2 := (do_stage3_loop_lengths input selected_cols row_count fuel (i + 1)
        (do_stage3_step st (build_entry (row_at input i) selected_cols))).2.2
      generalize (do_stage3_step st (build_entry (row_at input i) selected_cols)).index = a
        at h1 h2 ⊢
      generalize (do_stage3_loop input selected_cols row_count fuel (i + 1)
        (do_stage3_step st (build_entry (row_at input i) selected_cols))).index = b at h2 ⊢
      have e3 : st.index + 1 * (a - st.index) = a := by omega
      have key := List.range'_append st.index (a - st.index) (b - a) 1
      rw [e3] at key
      rw [key]
      congr 1
      omega
    · simp [hlt]

/-- The stores of `do_stage3` go to the indices `0 .. index - 1`, one after the
other, where `index` is the number of groups handed to `print_stage3`. -/
theorem do_stage3_store_indices_range (input : Table) (selected_cols : List Nat)
    (row_count col_count : Nat) :
    do_stage3_store_indices input selected_cols row_count col_count
      = List.range (do_stage3 input selected_cols row_count col_count).index := by
  unfold do_stage3_store_indices
  rw [do_stage3_eq_init, store_index_loop_range]
  by_cases hc : (do_stage3_loop input selected_cols row_count row_count 0 stage3_init).count > 0
  · rw [if_pos hc, if_pos hc]
    simp only [store_entry, stage3_init, Nat.sub_zero]
    rw [List.range_succ, List.range_eq_range']
  · rw [if_neg hc, if_neg hc]
    simp only [stage3_init, Nat.sub_zero, List.append_nil]
    rw [List.range_eq_range']

/-- C21 (failing input): the input of 51 lines holding one character each, the
characters with codes 48 .. 98 in increasing order, with column 1 selected.
Stage 1 reads 51 rows (the header and 50 data rows, within `MAXLINES`) of one
column, Stage 2 leaves them in this order, and `do_stage3` stores a group count
at each of the indices `0 .. 50`: 51 groups, and the store at index 50 is
outside the `MAXFIELDLEN = 50` slots of `appearances`.  The same holds of the
table of these 51 rows taken directly. -/
theorem do_stage3_store_indices_failing :
    (do_stage1 ((List.range 51).map (fun i => [48 + i, CHAR_NL])).flatten empty_table
        empty_row).map
        (fun r => (r.rows, r.cols,
          do_stage3_store_indices (do_stage2 r.dest [0] r.rows r.cols).input [0] r.rows
            r.cols))
      = some (51, 1, List.range 51)
      ∧ 51 ≤ MAXLINES
      ∧ do_stage3_store_indices ((List.range 51).map (fun i => [[48 + i]])) [0] 51 1
        = List.range 51
      ∧ (do_stage3 ((List.range 51).map (fun i => [[48 + i]])) [0] 51 1).index = 51
      ∧ (do_stage3 ((List.range 51).map (fun i => [[48 + i]])) [0] 51 1).appearances.length
        = MAXFIELDLEN
      ∧ 50 ∈ do_stage3_store_indices ((List.range 51).map (fun i => [[48 + i]])) [0] 51 1
      ∧ ¬ 50 < MAXFIELDLEN := by
  refine ⟨by rfl, by decide, by rfl, by rfl, by rfl, ?_, by decide⟩
  have h : do_stage3_store_indices ((List.range 51).map (fun i => [[48 + i]])) [0] 51 1
      = List.range 51 := by rfl
  rw [h]
  decide

/-! ## The reading loop and the field ended by the end of the input -/

theorem getfield_loop_field_stop (f : Field) (hf : clean_field f) (t : Nat)
    (ht : t = 0 ∨ t = CHAR_TB ∨ t = CHAR_NL) (rest : List Nat) :
    ∀ (fuel : Nat) (dest : Field) (nchs : Nat), f.length + 1 ≤ fuel →
      getfield_loop fuel (f ++ t :: rest) dest nchs
        = some (dest ++ (f.filter (fun c => decide (c ≠ CHAR_CR))).take (MAXFIELDLEN - nchs),
            getfield_status (t : Int), rest) := by
  induction f with
  | nil =>
    intro fuel dest nchs hfuel
    obtain ⟨n, rfl⟩ : ∃ n, fuel = n + 1 := ⟨fuel - 1, by simp at hfuel; omega⟩
    rw [List.nil_append, getfield_loop_stop n t rest dest nchs ht]
    simp
  | cons c f ih =>
    intro fuel dest nchs hfuel
    have hcl : clean_field f := fun d hd => hf d (by simp [hd])
    have hc := hf c (by simp)
    have hfl : f.length + 2 ≤ fuel := by simpa using hfuel
    by_cases hcr : c = CHAR_CR
    · subst hcr
      rw [List.cons_append, getfield_loop_CR, ih hcl fuel dest nchs (by omega)]
      simp
    · obtain ⟨n, rfl⟩ : ∃ n, fuel = n + 1 := ⟨fuel - 1, by omega⟩
      rw [List.cons_append, getfield_loop_char n c _ dest nchs hcr hc.1 hc.2.1 hc.2.2]
      by_cases hn : nchs < MAXFIELDLEN
      · simp only [hn, if_true]
        rw [ih hcl n (dest ++ [c]) (nchs + 1) (by omega)]
        have hstep : MAXFIELDLEN - nchs = (MAXFIELDLEN - (nchs + 1)) + 1 := by omega
        rw [hstep]
        simp [hcr]
      · simp only [hn, if_false]
        rw [ih hcl n dest nchs (by omega)]
        have hz : MAXFIELDLEN - nchs = 0 := by omega
        have hz2 : MAXFIELDLEN - (nchs + 1) = 0 := by omega
        simp [hz]

theorem getfield_field_stop (f : Field) (hf : clean_field f) (t : Nat)
    (ht : t = 0 ∨ t = CHAR_TB ∨ t = CHAR_NL) (rest : List Nat) :
    getfield (f ++ t :: rest) = some (stored_field f, getfield_status (t : Int), rest) := by
  have h := getfield_loop_field_stop f hf t ht rest ((f ++ t :: rest).length + 1) [] 0
    (by simp)
  simpa [getfield, stored_field] using h

theorem getfield_status_stop (t : Nat) (ht : t = 0 ∨ t = CHAR_TB ∨ t = CHAR_NL) :
    (t = CHAR_NL ∧ getfield_status (t : Int) = STATUS_EOL)
      ∨ (t ≠ CHAR_NL ∧ getfield_status (t : Int) = STATUS_NML) := by
  rcases ht with ht | ht | ht
  · subst ht
    right
    simp [getfield_status, CHAR_NL, CHAR_TB, EOF]
  · subst ht
    right
    simp [getfield_status, CHAR_NL, CHAR_TB, EOF]
  · subst ht
    left
    simp [getfield_status, CHAR_NL, EOF]

theorem stream_split (s : List Nat) :
    clean_field s
      ∨ ∃ f t rest, s = f ++ t :: rest ∧ clean_field f
          ∧ (t = 0 ∨ t = CHAR_TB ∨ t = CHAR_NL) := by
  induction s with
  | nil => left; intro c hc; simp at hc
  | cons c s ih =>
    by_cases hc : c = 0 ∨ c = CHAR_TB ∨ c = CHAR_NL
    · right
      exact ⟨[], c, s, by simp, by intro d hd; simp at hd, hc⟩
    · have hc3 : c ≠ 0 ∧ c ≠ CHAR_TB ∧ c ≠ CHAR_NL := by
        refine ⟨fun h => hc (Or.inl h), fun h => hc (Or.inr (Or.inl h)),
          fun h => hc (Or.inr (Or.inr h))⟩
      rcases ih with ih | ⟨f, t, rest, hs, hf, ht⟩
      · left
        intro d hd
        rcases List.mem_cons.1 hd with h | h
        · rw [h]; exact hc3
        · exact ih d h
      · right
        refine ⟨c :: f, t, rest, by simp [hs], ?_, ht⟩
        intro d hd
        rcases List.mem_cons.1 hd with h | h
        · rw [h]; exact hc3
        · exact hf d h

theorem clean_field_append (f g : Field) (hf : clean_field f) (hg : clean_field g) :
    clean_field (f ++ g) := by
  intro c hc
  rcases List.mem_append.1 hc with h | h
  · exact hf c h
  · exact hg c h

theorem do_stage1_loop_clean (s : List Nat) (hs : clean_field s) (fuel : Nat)
    (st : Stage1State) (hfuel : 0 < fuel) :
    do_stage1_loop fuel s st = some st := by
  obtain ⟨n, rfl⟩ : ∃ n, fuel = n + 1 := ⟨fuel - 1, by omega⟩
  exact do_stage1_loop_EOF n s st _ _ (getfield_end s hs)

theorem do_stage1_loop_tail (n : Nat) :
    ∀ (s : List Nat), s.length ≤ n → ∀ (tail : List Nat), clean_field tail →
      ∀ (fuel1 fuel2 : Nat) (st : Stage1State), (s ++ tail).length < fuel1 →
        s.length < fuel2 →
        do_stage1_loop fuel1 (s ++ tail) st = do_stage1_loop fuel2 s st := by
  induction n with
  | zero =>
    intro s hs tail htail fuel1 fuel2 st h1 h2
    have hnil : s = [] := List.length_eq_zero.1 (by omega)
    subst hnil
    rw [List.nil_append, do_stage1_loop_clean tail htail fuel1 st (by omega),
      do_stage1_loop_clean [] (by intro c hc; simp at hc) fuel2 st (by omega)]
  | succ n ih =>
    intro s hs tail htail fuel1 fuel2 st h1 h2
    rcases stream_split s with hcl | ⟨f, t, rest, hsplit, hf, ht⟩
    · rw [do_stage1_loop_clean (s ++ tail) (clean_field_append s tail hcl htail) fuel1 st
          (by omega),
        do_stage1_loop_clean s hcl fuel2 st (by omega)]
    · subst hsplit
      have hlen : (f ++ t :: rest).length = f.length + (rest.length + 1) := by simp
      have hlen2 : (f ++ t :: rest ++ tail).length
          = f.length + (rest.length + 1) + tail.length := by
        simp only [List.length_append, List.length_cons]
      have hlen3 : (rest ++ tail).length = rest.length + tail.length := by simp
      obtain ⟨m1, rfl⟩ : ∃ m, fuel1 = m + 1 := ⟨fuel1 - 1, by omega⟩
      obtain ⟨m2, rfl⟩ : ∃ m, fuel2 = m + 1 := ⟨fuel2 - 1, by omega⟩
      have g1 := getfield_field_stop f hf t ht (rest ++ tail)
      have g2 := getfield_field_stop f hf t ht rest
      have happ : f ++ t :: rest ++ tail = f ++ t :: (rest ++ tail) := by simp
      rw [happ]
      rcases getfield_status_stop t ht with ⟨_, hst⟩ | ⟨_, hst⟩
      · rw [hst] at g1 g2
        rw [do_stage1_loop_EOL m1 _ st _ _ g1, do_stage1_loop_EOL m2 _ st _ _ g2]
        exact ih rest (by omega) tail htail m1 m2 _ (by omega) (by omega)
      · rw [hst] at g1 g2
        rw [do_stage1_loop_NML m1 _ st _ _ g1, do_stage1_loop_NML m2 _ st _ _ g2]
        exact ih rest (by omega) tail htail m1 m2 _ (by omega) (by omega)

theorem countP_stops_clean (f : Field) (hf : clean_field f) : f.countP stops_field = 0 := by
  rw [List.countP_eq_zero]
  intro c hc
  have h := hf c hc
  simp [stops_field, h.1, h.2.1, h.2.2]

theorem do_stage1_loop_fields (n : Nat) :
    ∀ (s : List Nat), s.length ≤ n → ∀ (fuel : Nat) (st : Stage1State), s.length < fuel →
      ∃ st', do_stage1_loop fuel s st = some st'
        ∧ st'.field_count = st.field_count + s.countP stops_field := by
  induction n with
  | zero =>
    intro s hs fuel st h1
    have hnil : s = [] := List.length_eq_zero.1 (by omega)
    subst hnil
    exact ⟨st, do_stage1_loop_clean [] (by intro c hc; simp at hc) fuel st (by omega),
      by simp⟩
  | succ n ih =>
    intro s hs fuel st h1
    rcases stream_split s with hcl | ⟨f, t, rest, hsplit, hf, ht⟩
    · exact ⟨st, do_stage1_loop_clean s hcl fuel st (by omega),
        by rw [countP_stops_clean s hcl]; simp⟩
    · subst hsplit
      have hlen : (f ++ t :: rest).length = f.length + (rest.length + 1) := by simp
      obtain ⟨m, rfl⟩ : ∃ m, fuel = m + 1 := ⟨fuel - 1, by omega⟩
      have g := getfield_field_stop f hf t ht rest
      have hcount : (f ++ t :: rest).countP stops_field = 1 + rest.countP stops_field := by
        have ht1 : stops_field t = true := by simp [stops_field, ht]
        rw [List.countP_append, countP_stops_clean f hf, List.countP_cons_of_pos _ _ ht1]
        omega
      rcases getfield_status_stop t ht with ⟨_, hst⟩ | ⟨_, hst⟩
      · rw [hst] at g
        rw [do_stage1_loop_EOL m _ st _ _ g]
        obtain ⟨st', h1', h2'⟩ := ih rest (by omega) m
          { dest := st.dest.set st.row_count
              (st.current_row.set st.col_num (strcpy (stored_field f)))
            row_count := st.row_count + 1
            col_num := 0
            field_count := st.field_count + 1
            current_row := st.current_row.set st.col_num (strcpy (stored_field f)) }
          (by omega)
        refine ⟨st', h1', ?_⟩
        rw [h2', hcount]
        simp only
        omega
      · rw [hst] at g
        rw [do_stage1_loop_NML m _ st _ _ g]
        obtain ⟨st', h1', h2'⟩ := ih rest (by omega) m
          { st with
            field_count := st.field_count + 1
            current_row := st.current_row.set st.col_num (strcpy (stored_field f))
            col_num := st.col_num + 1 }
          (by omega)
        refine ⟨st', h1', ?_⟩
        rw [h2', hcount]
        simp only
        omega

theorem do_stage1_read_tail (stream tail : List Nat) (htail : clean_field tail)
    (dest : Table) (current_row : Row) :
    do_stage1_read (stream ++ tail) dest current_row
      = do_stage1_read stream dest current_row := by
  unfold do_stage1_read
  exact do_stage1_loop_tail stream.length stream (Nat.le_refl _) tail htail _ _ _
    (by omega) (by omega)

/-! ## Stage 1: the claim about the rows committed and the last field -/

/-- C17: a row is committed only by an end-of-line terminator, and the field
ended by the end of the input is discarded.  For every input the reading loop
of `do_stage1` returns; the number of rows it has committed is the number of
newline characters of the input, and the number of fields it has counted is the
number of characters that end a field (zero byte, tab, newline), so the field
ended by the end of the input is not counted.  Characters after the last
newline (a final line without newline) commit no row.  The characters of the
field ended by the end of the input (`tail`) leave no trace: the table, the row
buffer and the counters are those read from the input without them, and after
newline-terminated lines they are exactly those of the lines. -/
theorem do_stage1_commits (stream : List Nat) (dest : Table) (current_row : Row) :
    (∃ st, do_stage1_read stream dest current_row = some st
        ∧ st.row_count = stream.count CHAR_NL
        ∧ st.field_count = stream.countP stops_field)
      ∧ (∀ tail : List Nat, CHAR_NL ∉ tail →
          ∃ st, do_stage1_read (stream ++ tail) dest current_row = some st
            ∧ st.row_count = stream.count CHAR_NL)
      ∧ (∀ tail : List Nat, clean_field tail →
          do_stage1_read (stream ++ tail) dest current_row
            = do_stage1_read stream dest current_row)
      ∧ (∀ (lines : List (List Field)) (tail : List Nat), (∀ l ∈ lines, l ≠ []) →
          (∀ l ∈ lines, ∀ f ∈ l, clean_field f) → clean_field tail →
          stream = tsv_text lines ++ tail →
          do_stage1_read stream dest current_row
            = some (commit_lines
                { dest := dest, row_count := 0, col_num := 0, field_count := 0,
                  current_row := current_row } lines)) := by
  have hgen : ∀ s : List Nat, ∃ st, do_stage1_read s dest current_row = some st
      ∧ st.row_count = s.count CHAR_NL := by
    intro s
    obtain ⟨st, hst, hrc⟩ := do_stage1_loop_total (s.length + 1) s
      { dest := dest, row_count := 0, col_num := 0, field_count := 0,
        current_row := current_row } (by omega)
    exact ⟨st, hst, by simpa using hrc⟩
  refine ⟨?_, ?_, ?_, ?_⟩
  · obtain ⟨st, hst, hrc⟩ := hgen stream
    obtain ⟨st', hst', hfc⟩ := do_stage1_loop_fields stream.length stream (Nat.le_refl _)
      (stream.length + 1)
      { dest := dest, row_count := 0, col_num := 0, field_count := 0,
        current_row := current_row } (by omega)
    have heq : st' = st := by
      have h := hst'.symm.trans hst
      exact Option.some.inj h
    subst heq
    exact ⟨st', hst, hrc, by simpa using hfc⟩
  · intro tail htail
    obtain ⟨st, hst, hrc⟩ := hgen (stream ++ tail)
    refine ⟨st, hst, ?_⟩
    rw [hrc, List.count_append, List.count_eq_zero_of_not_mem htail]
    simp
  · intro tail htail
    exact do_stage1_read_tail stream tail htail dest current_row
  · intro lines tail hne hcl htail hs
    rw [hs, do_stage1_read_tail (tsv_text lines) tail htail dest current_row]
    exact do_stage1_read_text lines hne hcl dest current_row

/-- C17 (witness): the input `a<TAB>b<NL>c<TAB>d`, whose last line has no
newline: one row is committed and three fields are counted (`a`, `b`, `c`), and
the final `d` changes nothing; after the line `a<TAB>b<NL>` the final `c` leaves
the state of the one line. -/
theorem do_stage1_commits_witness :
    ((∃ st, do_stage1_read [97, 9, 98, 10, 99, 9, 100] empty_table empty_row = some st
          ∧ st.row_count = [97, 9, 98, 10, 99, 9, 100].count CHAR_NL
          ∧ st.field_count = [97, 9, 98, 10, 99, 9, 100].countP stops_field)
        ∧ [97, 9, 98, 10, 99, 9, 100].count CHAR_NL = 1
        ∧ [97, 9, 98, 10, 99, 9, 100].countP stops_field = 3)
      ∧ do_stage1_read ([97, 9, 98, 10, 99, 9] ++ [100]) empty_table empty_row
        = do_stage1_read [97, 9, 98, 10, 99, 9] empty_table empty_row
      ∧ do_stage1_read (tsv_text [[[97], [98]]] ++ [99]) empty_table empty_row
        = some (commit_lines
            { dest := empty_table, row_count := 0, col_num := 0, field_count := 0,
              current_row := empty_row } [[[97], [98]]]) :=
  ⟨⟨(do_stage1_commits [97, 9, 98, 10, 99, 9, 100] empty_table empty_row).1, by decide,
      by decide⟩,
    (do_stage1_commits [97, 9, 98, 10, 99, 9] empty_table empty_row).2.2.1 [100] (by decide),
    (do_stage1_commits (tsv_text [[[97], [98]]] ++ [99]) empty_table empty_row).2.2.2
      [[[97], [98]]] [99] (by decide) (by decide) (by decide) rfl⟩

end TsvParser
